import Mathlib

/-!
led_gauge: a verification development

Shallow embedding of `src/led_gauge.h` (an ESPHome addressable-light effect).

Numbers:

The source computes in IEEE-754 binary32 (`float`) and, wherever the `double`
constant `M_PI` takes part, in binary64.  A finite floating-point number is a
rational, so the embedding works over `ℚ` and applies, after every arithmetic
operation of the source, the rounding the C++ expression performs there:
`rnd32` (24 significant bits, least exponent `-149`) or `rnd64` (53 bits, least
exponent `-1074`), both round-to-nearest, ties-to-even.  The usual arithmetic
conversions are followed literally: `float * double` is a binary64 operation,
an `int` operand of a `float` operation is first converted to `float`, and an
assignment to a `float` variable rounds to binary32.  No fused multiply-add is
assumed.

`rnd32` has no upper exponent limit.  The only place where the source can
exceed the binary32 range on finite inputs is the phase accumulation
`phase += angular_velocity * dt`; there the embedding uses `f32`, which yields
`none` beyond `FLT_MAX`.  (An infinite phase never leaves the first or the
second normalisation loop, so `none` is also what the call does.)

Control:

The two `while` loops of the phase normalisation take a fuel argument: one unit
of fuel pays for one evaluation of a loop condition.  `none` means that the
fuel did not suffice.  The pixel loop runs exactly `num_leds` times and is
modelled by structural recursion.

State:

`led_gauge_simple` keeps two `static` variables; the embedding passes them as an
explicit state, and the reading of `millis()` is an argument.

What is not in `src/`:

`clamp`, `remap`, `Color`, `Color::gradient`, `Color::operator*=`, `M_PI` and
`sin` come from headers outside the repository.  They are modelled below, each
marked as such; `sin` is a parameter of the embedding.
-/

namespace LedGauge

/-! ## Rounding to a binary floating-point format -/

/-- Auxiliary recursion for `natLog2`. -/
def log2Fuel : Nat → Nat → Nat
  | 0, _ => 0
  | fuel + 1, n => if 2 ≤ n then log2Fuel fuel (n / 2) + 1 else 0

/-- The position of the leading bit of `n` (and `0` for `n = 0`). -/
def natLog2 (n : Nat) : Nat := log2Fuel n n

/-- Absolute value of a rational, by case distinction. -/
def qabs (q : ℚ) : ℚ := if q < 0 then -q else q

/-- The binary exponent of a non-zero rational: `2 ^ ilog2 q ≤ |q| < 2 ^ (ilog2 q + 1)`. -/
def ilog2 (q : ℚ) : ℤ :=
  let e : ℤ := (natLog2 q.num.natAbs : ℤ) - (natLog2 q.den : ℤ)
  if qabs q < (2 : ℚ) ^ e then e - 1 else e

/-- Round a rational to the nearest integer, ties to the even one. -/
def roundNE (q : ℚ) : ℤ :=
  let f := ⌊q⌋
  let r := q - f
  if r < 1 / 2 then f else if 1 / 2 < r then f + 1 else if f % 2 = 0 then f else f + 1

/-- Round-to-nearest-even into the binary format with `p` significant bits and
least exponent `emin` (gradual underflow, no overflow). -/
def roundFloat (p : ℕ) (emin : ℤ) (x : ℚ) : ℚ :=
  let e := max (ilog2 x - ((p : ℤ) - 1)) emin
  (roundNE (x / (2 : ℚ) ^ e) : ℚ) * (2 : ℚ) ^ e

/-- Rounding to IEEE-754 binary32, the `float` of the source. -/
def rnd32 (x : ℚ) : ℚ := roundFloat 24 (-149) x

/-- Rounding to IEEE-754 binary64, the `double` of the source. -/
def rnd64 (x : ℚ) : ℚ := roundFloat 53 (-1074) x

/-- The largest finite binary32 number. -/
def FLT_MAX : ℚ := (2 ^ 24 - 1) * 2 ^ 104

/-- A binary32 operation that may overflow: `none` stands for an infinite result. -/
def f32 (x : ℚ) : Option ℚ :=
  let r := rnd32 x
  if qabs r ≤ FLT_MAX then some r else none

/-- Conversion of a floating-point value to `int`: truncation toward zero. -/
def truncInt (x : ℚ) : ℤ := if 0 ≤ x then ⌊x⌋ else -⌊-x⌋

/-- Conversion of a floating-point value to `uint8_t`: truncation toward zero;
the result is reduced modulo 256 (the conversion is defined only for values
that truncate into `0..255`, where the reduction does nothing). -/
def toU8 (x : ℚ) : Fin 256 := ⟨(truncInt x % 256).toNat, by omega⟩

/-! ## Constants -/

/-- Modelled from the spec: `M_PI` of `<cmath>`, the decimal literal
`3.14159265358979323846` read as a `double`. -/
def M_PI : ℚ := rnd64 (314159265358979323846 / 10 ^ 20)

/-- The `double` value of the expression `2.0f * M_PI`. -/
def TWO_PI : ℚ := rnd64 (2 * M_PI)

/-- `WAVE_CYCLES = 6.0f`. -/
def WAVE_CYCLES : ℚ := rnd32 6

/-- `WAVE_AMPLITUDE = 0.4f`. -/
def WAVE_AMPLITUDE : ℚ := rnd32 (4 / 10)

/-! ## Helpers of the host framework -/

/-- Modelled from the spec: `clamp(val, min, max)` of the host helpers, which
saturates `val` into `[min, max]`. -/
def clamp (val lo hi : ℚ) : ℚ := if val < lo then lo else if hi < val then hi else val

/-- Modelled from the spec: `remap(value, min, max, min_out, max_out)` of the
host helpers, the linear map of `[min, max]` onto `[min_out, max_out]`,
evaluated in `float` as
`(value - min) * (max_out - min_out) / (max - min) + min_out`. -/
def remap (value lo hi min_out max_out : ℚ) : ℚ :=
  rnd32 (rnd32 (rnd32 (rnd32 (value - lo) * rnd32 (max_out - min_out)) / rnd32 (hi - lo)) + min_out)

/-- Modelled from the spec: the colour type of the host framework, one byte
per channel (red, green, blue and white). -/
structure Color where
  r : Fin 256
  g : Fin 256
  b : Fin 256
  w : Fin 256
  deriving DecidableEq, Repr

/-- Modelled from the spec: `Color::BLACK`, all channels zero. -/
def Color.BLACK : Color := ⟨0, 0, 0, 0⟩

/-- Modelled from the spec: one channel of `gradient(A, B, t)`,
`A_ch + (B_ch - A_ch) * t/255`, truncated to a byte. -/
def gradientChannel (a b t : Fin 256) : Fin 256 :=
  toU8 (((a : ℕ) : ℚ) + (((b : ℕ) : ℚ) - ((a : ℕ) : ℚ)) * ((t : ℕ) : ℚ) / 255)

/-- Modelled from the spec: `Color::gradient`, the per-channel linear
interpolation between two colours at the byte position `amnt`. -/
def Color.gradient (c to_color : Color) (amnt : Fin 256) : Color :=
  ⟨gradientChannel c.r to_color.r amnt, gradientChannel c.g to_color.g amnt,
   gradientChannel c.b to_color.b amnt, gradientChannel c.w to_color.w amnt⟩

/-- Modelled from the spec: one channel of the brightness multiplication,
`channel * (scale/255)`, truncated to a byte. -/
def scaleChannel (c scale : Fin 256) : Fin 256 :=
  toU8 (((c : ℕ) : ℚ) * (((scale : ℕ) : ℚ) / 255))

/-- Modelled from the spec: `Color::operator*=(uint8_t)`, the per-channel
brightness multiplication by a byte factor. -/
def Color.scale (c : Color) (scale : Fin 256) : Color :=
  ⟨scaleChannel c.r scale, scaleChannel c.g scale, scaleChannel c.b scale, scaleChannel c.w scale⟩

/-! ## The phase update (lines 39-48) -/

/-- Line 41: `float angular_velocity = 2.0f * M_PI * wave_speed;`
(a `double` product, rounded to `float` by the assignment). -/
def angular_velocity (wave_speed : ℚ) : ℚ := rnd32 (rnd64 (TWO_PI * wave_speed))

/-- Line 42: `phase += angular_velocity * dt;` in `float`; `none` on overflow. -/
def accumulate (wave_speed phase dt : ℚ) : Option ℚ :=
  match f32 (angular_velocity wave_speed * dt) with
  | none => none
  | some d => f32 (phase + d)

/-- Lines 45-46: `while (phase > 2.0f * M_PI) phase -= 2.0f * M_PI;`
(the subtraction is a `double` operation, rounded to `float` by the assignment). -/
def wrapDown : Nat → ℚ → Option ℚ
  | 0, _ => none
  | fuel + 1, phase =>
    if TWO_PI < phase then wrapDown fuel (rnd32 (rnd64 (phase - TWO_PI))) else some phase

/-- Lines 47-48: `while (phase < 0) phase += 2.0f * M_PI;`. -/
def wrapUp : Nat → ℚ → Option ℚ
  | 0, _ => none
  | fuel + 1, phase =>
    if phase < 0 then wrapUp fuel (rnd32 (rnd64 (phase + TWO_PI))) else some phase

/-- Lines 39-48: the value stored back into `phase`, for the clamped wave speed. -/
def updatePhase (fuel : Nat) (wave_speed phase dt : ℚ) : Option ℚ :=
  match accumulate wave_speed phase dt with
  | none => none
  | some p =>
    match wrapDown fuel p with
    | none => none
    | some q => wrapUp fuel q

/-! ## The pixel loop (lines 50-95) -/

/-- Line 52: `int lit_leds = static_cast<int>(value * num_leds);`. -/
def lit_leds (value : ℚ) (num_leds : Nat) : ℤ := truncInt (rnd32 (value * rnd32 (num_leds : ℚ)))

/-- Line 56: `float position = static_cast<float>(i) / static_cast<float>(num_leds);`. -/
def position (i num_leds : Nat) : ℚ := rnd32 (rnd32 (i : ℚ) / rnd32 (num_leds : ℚ))

/-- Lines 62-72: the gradient colour of a lit pixel. -/
def base_color (c1 c2 c3 : Color) (pos : ℚ) : Color :=
  if pos < 1 / 2 then
    c1.gradient c2 (toU8 (remap pos 0 (1 / 2) 0 255))
  else
    c2.gradient c3 (toU8 (remap pos (1 / 2) 1 0 255))

/-- Line 76: `float wave_shift = WAVE_CYCLES * M_PI * position;`. -/
def wave_shift (pos : ℚ) : ℚ := rnd32 (rnd64 (rnd64 (WAVE_CYCLES * M_PI) * pos))

/-- Line 77: `float wave_value = sin(phase - wave_shift);`. -/
def wave_value (sin : ℚ → ℚ) (phase pos : ℚ) : ℚ := rnd32 (sin (rnd32 (phase - wave_shift pos)))

/-- Line 78: `float wave_amplitude = std::abs(wave_speed) * WAVE_AMPLITUDE;`. -/
def wave_amplitude (wave_speed : ℚ) : ℚ := rnd32 (qabs wave_speed * WAVE_AMPLITUDE)

/-- Line 84: `float min_brightness = 1.0f - WAVE_AMPLITUDE - wave_amplitude;`. -/
def min_brightness (wave_speed : ℚ) : ℚ :=
  rnd32 (rnd32 (1 - WAVE_AMPLITUDE) - wave_amplitude wave_speed)

/-- Line 85: `float max_brightness = 1.0f - WAVE_AMPLITUDE + wave_amplitude;`. -/
def max_brightness (wave_speed : ℚ) : ℚ :=
  rnd32 (rnd32 (1 - WAVE_AMPLITUDE) + wave_amplitude wave_speed)

/-- Lines 87-88: the byte `brightness_scale`. -/
def brightness_scale (sin : ℚ → ℚ) (wave_speed phase pos : ℚ) : Fin 256 :=
  toU8 (rnd32 (remap (wave_value sin phase pos) (-1) 1
    (min_brightness wave_speed) (max_brightness wave_speed) * 255))

/-- Lines 61-91: the colour of a lit pixel. -/
def lit_color (sin : ℚ → ℚ) (c1 c2 c3 : Color) (wave_speed phase pos : ℚ) : Color :=
  (base_color c1 c2 c3 pos).scale (brightness_scale sin wave_speed phase pos)

/-- Lines 56-92: the colour written to pixel `i`. -/
def pixel (sin : ℚ → ℚ) (num_leds : Nat) (lit : ℤ) (c1 c2 c3 : Color)
    (wave_speed phase : ℚ) (i : Nat) : Color :=
  if (i : ℤ) < lit then lit_color sin c1 c2 c3 wave_speed phase (position i num_leds)
  else Color.BLACK

/-- Lines 55-95: the loop `for (int i = 0; i < num_leds; i++) it[i] = color;`,
with `k` iterations left to run from index `i`. -/
def renderLoop (sin : ℚ → ℚ) (num_leds : Nat) (lit : ℤ) (c1 c2 c3 : Color)
    (wave_speed phase : ℚ) : Nat → Nat → List Color → List Color
  | 0, _, it => it
  | k + 1, i, it =>
    renderLoop sin num_leds lit c1 c2 c3 wave_speed phase k (i + 1)
      (it.set i (pixel sin num_leds lit c1 c2 c3 wave_speed phase i))

/-- The function `led_gauge`: the buffer after the call and the value stored
back into `phase`, or `none` when the call does not return within the fuel. -/
def led_gauge (sin : ℚ → ℚ) (fuel : Nat) (it : List Color) (value : ℚ) (c1 c2 c3 : Color)
    (wave_speed phase dt : ℚ) : Option (List Color × ℚ) :=
  let value := clamp value 0 1
  let wave_speed := clamp wave_speed (-1) 1
  match updatePhase fuel wave_speed phase dt with
  | none => none
  | some phase =>
    let num_leds := it.length
    let lit := lit_leds value num_leds
    some (renderLoop sin num_leds lit c1 c2 c3 wave_speed phase num_leds 0 it, phase)


/-! ## Values before the byte casts, the normalisation alone, the loop indices -/

/-- Lines 64-65 and 69-70: the `float` value that is cast to `uint8_t gradient_pos`. -/
def gradient_value (pos : ℚ) : ℚ :=
  if pos < 1 / 2 then remap pos 0 (1 / 2) 0 255 else remap pos (1 / 2) 1 0 255

/-- Lines 87-88: the `float` value that is cast to `uint8_t brightness_scale`. -/
def brightness_value (sin : ℚ → ℚ) (wave_speed phase pos : ℚ) : ℚ :=
  rnd32 (remap (wave_value sin phase pos) (-1) 1
    (min_brightness wave_speed) (max_brightness wave_speed) * 255)

/-- Lines 45-48: the two normalisation loops, run on an accumulated phase. -/
def normalise (fuel : Nat) (x : ℚ) : Option ℚ :=
  match wrapDown fuel x with
  | none => none
  | some q => wrapUp fuel q

/-- The floored modulo of the accumulated phase by the constant `2.0f * M_PI`,
`x - 2π * floor(x / 2π)`, in exact arithmetic (the modulo the spec compares
the loops with). -/
def phaseModulo (x : ℚ) : ℚ := x - TWO_PI * (⌊x / TWO_PI⌋ : ℚ)

/-- Line 55: the values of `i` for which the body of
`for (int i = 0; i < num_leds; i++)` runs, with `k` iterations left from `i`. -/
def loopIndices : Nat → Nat → List Nat
  | 0, _ => []
  | k + 1, i => i :: loopIndices k (i + 1)

/-! ## The self-timed wrapper (lines 102-113) -/

/-- The two `static` variables of `led_gauge_simple`. -/
structure SimpleState where
  phase : ℚ
  last_update : Nat
  deriving DecidableEq, Repr

/-- Lines 105-106: `static float phase = 0.0f; static unsigned long last_update = 0;`. -/
def SimpleState.initial : SimpleState := ⟨0, 0⟩

/-- Line 109: `float dt = (now - last_update) / 1000.0f;`.  The subtraction is
that of `unsigned long`, 32 bits wide on the targets of the host framework; the
difference is converted to `float` and divided in `float`. -/
def elapsed (now last_update : Nat) : ℚ :=
  rnd32 (rnd32 ((((now : ℤ) - (last_update : ℤ)) % 2 ^ 32 : ℤ) : ℚ) / rnd32 1000)

/-- The elapsed time as the spec words it, `dt = (now - last_timestamp)/1000`,
for a monotonic clock: the difference of the two readings, as a `float`,
divided by `1000`. -/
def elapsedSpec (now last_timestamp : Nat) : ℚ :=
  rnd32 (rnd32 ((now - last_timestamp : ℕ) : ℚ) / 1000)

/-- The function `led_gauge_simple` on explicit state, called when `millis()`
reads `now`: the buffer and the state after the call, or `none` when
`led_gauge` does not return within the fuel. -/
def led_gauge_simple (sin : ℚ → ℚ) (fuel : Nat) (st : SimpleState) (now : Nat)
    (it : List Color) (value : ℚ) (c1 c2 c3 : Color) (wave_speed : ℚ) :
    Option (List Color × SimpleState) :=
  let dt := elapsed now st.last_update
  match led_gauge sin fuel it value c1 c2 c3 wave_speed st.phase dt with
  | none => none
  | some (buf, phase) => some (buf, ⟨phase, now⟩)

/-! ## Properties of the rounding -/

theorem natLog2_aux (fuel : Nat) : ∀ n : Nat, n ≤ fuel → 1 ≤ n →
    2 ^ log2Fuel fuel n ≤ n ∧ n < 2 ^ (log2Fuel fuel n + 1) := by
  induction fuel with
  | zero => intro n h1 h2; omega
  | succ f ih =>
    intro n h1 h2
    unfold log2Fuel
    by_cases h : 2 ≤ n
    · rw [if_pos h]
      have hh := ih (n / 2) (by omega) (by omega)
      obtain ⟨ha, hb⟩ := hh
      constructor
      · rw [pow_succ]; omega
      · rw [pow_succ]; omega
    · rw [if_neg h]
      have : n = 1 := by omega
      subst this
      simp

theorem natLog2_spec (n : Nat) (h : 1 ≤ n) :
    2 ^ natLog2 n ≤ n ∧ n < 2 ^ (natLog2 n + 1) :=
  natLog2_aux n n le_rfl h

theorem qabs_eq_abs (q : ℚ) : qabs q = |q| := by
  unfold qabs
  split_ifs with h
  · rw [abs_of_neg h]
  · rw [abs_of_nonneg (not_lt.mp h)]

theorem two_zpow_pos (e : ℤ) : (0 : ℚ) < (2 : ℚ) ^ e := zpow_pos (by norm_num) e

theorem ilog2_spec (q : ℚ) (hq : q ≠ 0) :
    (2 : ℚ) ^ ilog2 q ≤ |q| ∧ |q| < (2 : ℚ) ^ (ilog2 q + 1) := by
  have hn : 1 ≤ q.num.natAbs := by
    have : q.num ≠ 0 := Rat.num_ne_zero.mpr hq
    omega
  have hd : 1 ≤ q.den := q.den_pos
  obtain ⟨a1, a2⟩ := natLog2_spec _ hn
  obtain ⟨b1, b2⟩ := natLog2_spec _ hd
  have habs : |q| = (q.num.natAbs : ℚ) / (q.den : ℚ) := by
    conv_lhs => rw [← Rat.num_div_den q]
    rw [abs_div, Nat.abs_cast, Nat.cast_natAbs, Int.cast_abs]
  have hdpos : (0 : ℚ) < (q.den : ℚ) := by exact_mod_cast hd
  have a1q : (2 : ℚ) ^ (natLog2 q.num.natAbs) ≤ (q.num.natAbs : ℚ) := by exact_mod_cast a1
  have a2q : (q.num.natAbs : ℚ) < (2 : ℚ) ^ (natLog2 q.num.natAbs + 1) := by exact_mod_cast a2
  have b1q : (2 : ℚ) ^ (natLog2 q.den) ≤ (q.den : ℚ) := by exact_mod_cast b1
  have b2q : (q.den : ℚ) < (2 : ℚ) ^ (natLog2 q.den + 1) := by exact_mod_cast b2
  set a := natLog2 q.num.natAbs with ha
  set b := natLog2 q.den with hb
  have e1 : (2 : ℚ) ^ ((a : ℤ) - (b : ℤ) - 1) = (2 : ℚ) ^ a / (2 : ℚ) ^ (b + 1) := by
    rw [show (a : ℤ) - (b : ℤ) - 1 = (a : ℤ) - ((b + 1 : ℕ) : ℤ) by push_cast; ring]
    rw [zpow_sub₀ (by norm_num : (2 : ℚ) ≠ 0), zpow_natCast, zpow_natCast]
  have e2 : (2 : ℚ) ^ ((a : ℤ) - (b : ℤ) + 1) = (2 : ℚ) ^ (a + 1) / (2 : ℚ) ^ b := by
    rw [show (a : ℤ) - (b : ℤ) + 1 = ((a + 1 : ℕ) : ℤ) - (b : ℤ) by push_cast; ring]
    rw [zpow_sub₀ (by norm_num : (2 : ℚ) ≠ 0), zpow_natCast, zpow_natCast]
  have lo : (2 : ℚ) ^ ((a : ℤ) - (b : ℤ) - 1) ≤ |q| := by
    rw [e1, habs, div_le_div_iff₀ (by positivity) hdpos]
    have := mul_le_mul a1q b2q.le (by positivity) (by positivity)
    linarith
  have hi : |q| < (2 : ℚ) ^ ((a : ℤ) - (b : ℤ) + 1) := by
    rw [e2, habs, div_lt_div_iff₀ hdpos (by positivity)]
    have : (0:ℚ) < 2 ^ b := by positivity
    calc (q.num.natAbs : ℚ) * 2 ^ b < 2 ^ (a + 1) * 2 ^ b := by
          apply mul_lt_mul_of_pos_right a2q this
      _ ≤ 2 ^ (a + 1) * (q.den : ℚ) := by
          apply mul_le_mul_of_nonneg_left b1q (by positivity)
  unfold ilog2
  simp only [← ha, ← hb, qabs_eq_abs]
  split_ifs with h
  · refine ⟨lo, ?_⟩
    simpa using h
  · exact ⟨not_lt.mp h, hi⟩

theorem ilog2_mono (x y : ℚ) (hx : x ≠ 0) (hxy : |x| ≤ |y|) : ilog2 x ≤ ilog2 y := by
  have hy : y ≠ 0 := by
    intro h
    rw [h, abs_zero] at hxy
    exact hx (abs_eq_zero.mp (le_antisymm hxy (abs_nonneg x)))
  have h1 := (ilog2_spec x hx).1
  have h2 := (ilog2_spec y hy).2
  have h3 : (2 : ℚ) ^ ilog2 x < (2 : ℚ) ^ (ilog2 y + 1) := lt_of_le_of_lt (le_trans h1 hxy) h2
  have h4 := (zpow_lt_zpow_iff_right₀ (by norm_num : (1 : ℚ) < 2)).mp h3
  omega

theorem ilog2_lt_of_lt (x : ℚ) (k : ℤ) (hx : x ≠ 0) (h : |x| < (2 : ℚ) ^ k) : ilog2 x < k := by
  have h1 := (ilog2_spec x hx).1
  exact (zpow_lt_zpow_iff_right₀ (by norm_num : (1 : ℚ) < 2)).mp (lt_of_le_of_lt h1 h)

theorem roundNE_intCast (n : ℤ) : roundNE (n : ℚ) = n := by
  unfold roundNE
  simp

theorem floor_le_roundNE (q : ℚ) : ⌊q⌋ ≤ roundNE q := by
  unfold roundNE
  simp only
  split_ifs <;> omega

theorem roundNE_le_floor_add_one (q : ℚ) : roundNE q ≤ ⌊q⌋ + 1 := by
  unfold roundNE
  simp only
  split_ifs <;> omega

theorem roundNE_mono (x y : ℚ) (h : x ≤ y) : roundNE x ≤ roundNE y := by
  have hf : ⌊x⌋ ≤ ⌊y⌋ := Int.floor_mono h
  rcases lt_or_eq_of_le hf with hlt | heq
  · have h1 := roundNE_le_floor_add_one x
    have h2 := floor_le_roundNE y
    omega
  · unfold roundNE
    simp only
    rw [← heq]
    have hr : x - (⌊x⌋ : ℚ) ≤ y - (⌊x⌋ : ℚ) := by linarith
    split_ifs <;> first | omega | (exfalso; linarith)

theorem roundNE_le_of_le (x : ℚ) (n : ℤ) (h : x ≤ (n : ℚ)) : roundNE x ≤ n := by
  have := roundNE_mono x n h
  rwa [roundNE_intCast] at this

theorem le_roundNE_of_le (x : ℚ) (n : ℤ) (h : (n : ℚ) ≤ x) : n ≤ roundNE x := by
  have := roundNE_mono n x h
  rwa [roundNE_intCast] at this

theorem roundFloat_zero (p : ℕ) (emin : ℤ) : roundFloat p emin 0 = 0 := by
  unfold roundFloat
  simp [roundNE]

theorem roundFloat_nonneg (p : ℕ) (emin : ℤ) (x : ℚ) (h : 0 ≤ x) : 0 ≤ roundFloat p emin x := by
  unfold roundFloat
  simp only
  apply mul_nonneg _ (two_zpow_pos _).le
  have : (0 : ℤ) ≤ roundNE (x / (2 : ℚ) ^ (max (ilog2 x - ((p : ℤ) - 1)) emin)) := by
    apply le_roundNE_of_le
    simpa using div_nonneg h (two_zpow_pos _).le
  exact_mod_cast this

theorem roundFloat_nonpos (p : ℕ) (emin : ℤ) (x : ℚ) (h : x ≤ 0) : roundFloat p emin x ≤ 0 := by
  unfold roundFloat
  simp only
  apply mul_nonpos_of_nonpos_of_nonneg _ (two_zpow_pos _).le
  have : roundNE (x / (2 : ℚ) ^ (max (ilog2 x - ((p : ℤ) - 1)) emin)) ≤ (0 : ℤ) := by
    apply roundNE_le_of_le
    simpa using div_nonpos_of_nonpos_of_nonneg h (two_zpow_pos _).le
  exact_mod_cast this

/-- The value `m * 2 ^ e` is kept by the rounding when `|m| < 2 ^ p` and `emin ≤ e`. -/
theorem roundFloat_of_repr (p : ℕ) (emin : ℤ) (m e : ℤ) (hm : |m| < 2 ^ p) (he : emin ≤ e) :
    roundFloat p emin ((m : ℚ) * (2 : ℚ) ^ e) = (m : ℚ) * (2 : ℚ) ^ e := by
  by_cases h0 : m = 0
  · subst h0
    simp [roundFloat_zero]
  set x : ℚ := (m : ℚ) * (2 : ℚ) ^ e with hx
  have hx0 : x ≠ 0 := by
    rw [hx]
    exact mul_ne_zero (by exact_mod_cast h0) (two_zpow_pos e).ne.symm
  have habs : |x| < (2 : ℚ) ^ ((p : ℤ) + e) := by
    rw [hx, abs_mul, abs_of_pos (two_zpow_pos e), zpow_add₀ (by norm_num : (2 : ℚ) ≠ 0)]
    apply mul_lt_mul_of_pos_right _ (two_zpow_pos e)
    rw [zpow_natCast]
    exact_mod_cast hm
  have hk := ilog2_lt_of_lt x _ hx0 habs
  unfold roundFloat
  simp only
  set ex := max (ilog2 x - ((p : ℤ) - 1)) emin with hex
  have hle : ex ≤ e := by
    rw [hex]
    apply max_le _ he
    omega
  obtain ⟨d, hd⟩ : ∃ d : ℕ, e = ex + d := ⟨(e - ex).toNat, by omega⟩
  have hint : x / (2 : ℚ) ^ ex = ((m * 2 ^ d : ℤ) : ℚ) := by
    rw [hx, hd, zpow_add₀ (by norm_num : (2 : ℚ) ≠ 0), zpow_natCast]
    push_cast
    field_simp
    ring
  rw [hint, roundNE_intCast, ← hint]
  field_simp

theorem roundFloat_natCast (p : ℕ) (emin : ℤ) (n : ℕ) (hn : n < 2 ^ p) (he : emin ≤ 0) :
    roundFloat p emin (n : ℚ) = (n : ℚ) := by
  have := roundFloat_of_repr p emin (n : ℤ) 0 (by rw [Nat.abs_cast]; exact_mod_cast hn) he
  simpa using this

theorem roundFloat_mono_pos (p : ℕ) (emin : ℤ) (hp : 1 ≤ p) (x y : ℚ) (hx : 0 < x) (hxy : x ≤ y) :
    roundFloat p emin x ≤ roundFloat p emin y := by
  have hy : 0 < y := lt_of_lt_of_le hx hxy
  have hlog : ilog2 x ≤ ilog2 y :=
    ilog2_mono x y hx.ne.symm (by rw [abs_of_pos hx, abs_of_pos hy]; exact hxy)
  unfold roundFloat
  simp only
  set ex := max (ilog2 x - ((p : ℤ) - 1)) emin with hex
  set ey := max (ilog2 y - ((p : ℤ) - 1)) emin with hey
  have hexy : ex ≤ ey := by
    rw [hex, hey]
    exact max_le_max (by omega) le_rfl
  rcases lt_or_eq_of_le hexy with hlt | heq
  · -- a power of two separates the two arguments
    have hey2 : ey = ilog2 y - ((p : ℤ) - 1) := by
      rcases max_cases (ilog2 y - ((p : ℤ) - 1)) emin with ⟨h1, _⟩ | ⟨h1, _⟩
      · rw [hey, h1]
      · exfalso
        have : emin ≤ ex := le_max_right _ _
        rw [hey, h1] at hlt
        omega
    have hk : ilog2 x + 1 ≤ ilog2 y := by
      have : ilog2 x - ((p : ℤ) - 1) ≤ ex := le_max_left _ _
      omega
    have hxk : x ≤ (2 : ℚ) ^ ilog2 y := by
      have h1 := (ilog2_spec x hx.ne.symm).2
      rw [abs_of_pos hx] at h1
      have h2 : (2 : ℚ) ^ (ilog2 x + 1) ≤ (2 : ℚ) ^ ilog2 y :=
        zpow_le_zpow_right₀ (by norm_num) hk
      linarith
    have hky : (2 : ℚ) ^ ilog2 y ≤ y := by
      have h1 := (ilog2_spec y hy.ne.symm).1
      rwa [abs_of_pos hy] at h1
    obtain ⟨d, hd⟩ : ∃ d : ℕ, ilog2 y = ex + d := ⟨(ilog2 y - ex).toNat, by omega⟩
    obtain ⟨d2, hd2⟩ : ∃ d2 : ℕ, ilog2 y = ey + d2 := ⟨(ilog2 y - ey).toNat, by omega⟩
    have hpx : (2 : ℚ) ^ ilog2 y = (((2 : ℤ) ^ d : ℤ) : ℚ) * (2 : ℚ) ^ ex := by
      rw [hd, zpow_add₀ (by norm_num : (2 : ℚ) ≠ 0), zpow_natCast]
      push_cast
      ring
    have hpy : (2 : ℚ) ^ ilog2 y = (((2 : ℤ) ^ d2 : ℤ) : ℚ) * (2 : ℚ) ^ ey := by
      rw [hd2, zpow_add₀ (by norm_num : (2 : ℚ) ≠ 0), zpow_natCast]
      push_cast
      ring
    have hA : (roundNE (x / (2 : ℚ) ^ ex) : ℚ) * (2 : ℚ) ^ ex ≤ (2 : ℚ) ^ ilog2 y := by
      rw [hpx]
      apply mul_le_mul_of_nonneg_right _ (two_zpow_pos ex).le
      have : roundNE (x / (2 : ℚ) ^ ex) ≤ (2 : ℤ) ^ d := by
        apply roundNE_le_of_le
        rw [div_le_iff₀ (two_zpow_pos ex), ← hpx]
        exact hxk
      exact_mod_cast this
    have hB : (2 : ℚ) ^ ilog2 y ≤ (roundNE (y / (2 : ℚ) ^ ey) : ℚ) * (2 : ℚ) ^ ey := by
      rw [hpy]
      apply mul_le_mul_of_nonneg_right _ (two_zpow_pos ey).le
      have : (2 : ℤ) ^ d2 ≤ roundNE (y / (2 : ℚ) ^ ey) := by
        apply le_roundNE_of_le
        rw [le_div_iff₀ (two_zpow_pos ey), ← hpy]
        exact hky
      exact_mod_cast this
    exact le_trans hA hB
  · rw [← heq]
    apply mul_le_mul_of_nonneg_right _ (two_zpow_pos ex).le
    have : roundNE (x / (2 : ℚ) ^ ex) ≤ roundNE (y / (2 : ℚ) ^ ex) :=
      roundNE_mono _ _ (div_le_div_of_nonneg_right hxy (two_zpow_pos ex).le)
    exact_mod_cast this

theorem roundFloat_mono_nonneg (p : ℕ) (emin : ℤ) (hp : 1 ≤ p) (x y : ℚ) (hx : 0 ≤ x)
    (hxy : x ≤ y) : roundFloat p emin x ≤ roundFloat p emin y := by
  rcases lt_or_eq_of_le hx with h | h
  · exact roundFloat_mono_pos p emin hp x y h hxy
  · rw [← h, roundFloat_zero]
    exact roundFloat_nonneg p emin y (le_trans hx hxy)

theorem rnd32_zero : rnd32 0 = 0 := roundFloat_zero 24 (-149)

theorem rnd32_nonneg (x : ℚ) (h : 0 ≤ x) : 0 ≤ rnd32 x := roundFloat_nonneg 24 (-149) x h

theorem rnd32_mono_nonneg (x y : ℚ) (hx : 0 ≤ x) (hxy : x ≤ y) : rnd32 x ≤ rnd32 y :=
  roundFloat_mono_nonneg 24 (-149) (by norm_num) x y hx hxy

theorem rnd32_natCast (n : ℕ) (hn : n ≤ 2 ^ 24) : rnd32 (n : ℚ) = (n : ℚ) := by
  rcases lt_or_eq_of_le hn with h | h
  · exact roundFloat_natCast 24 (-149) n h (by norm_num)
  · subst h
    have := roundFloat_of_repr 24 (-149) (2 ^ 23) 1 (by norm_num) (by norm_num)
    unfold rnd32
    norm_num at this ⊢
    exact this

/-! ## The pixel loop as a map over the indices -/

theorem renderLoop_length (sin : ℚ → ℚ) (num_leds : Nat) (lit : ℤ) (c1 c2 c3 : Color)
    (wave_speed phase : ℚ) (k : Nat) : ∀ (i : Nat) (it : List Color),
    (renderLoop sin num_leds lit c1 c2 c3 wave_speed phase k i it).length = it.length := by
  induction k with
  | zero => intro i it; rfl
  | succ k ih =>
    intro i it
    unfold renderLoop
    rw [ih, List.length_set]

theorem renderLoop_getElem? (sin : ℚ → ℚ) (num_leds : Nat) (lit : ℤ) (c1 c2 c3 : Color)
    (wave_speed phase : ℚ) (k : Nat) : ∀ (i : Nat) (it : List Color) (j : Nat),
    (renderLoop sin num_leds lit c1 c2 c3 wave_speed phase k i it)[j]? =
      if i ≤ j ∧ j < i + k ∧ j < it.length then
        some (pixel sin num_leds lit c1 c2 c3 wave_speed phase j)
      else it[j]? := by
  induction k with
  | zero =>
    intro i it j
    unfold renderLoop
    rw [if_neg (by omega)]
  | succ k ih =>
    intro i it j
    unfold renderLoop
    rw [ih, List.length_set, List.getElem?_set]
    by_cases hij : i = j
    · subst hij
      by_cases hl : i < it.length
      · rw [if_neg (by omega), if_pos rfl, if_pos hl, if_pos ⟨le_rfl, by omega, hl⟩]
      · rw [if_neg (by omega), if_pos rfl, if_neg hl, if_neg (by omega)]
        rw [List.getElem?_eq_none (by omega)]
    · rw [if_neg hij]
      by_cases hc : i ≤ j ∧ j < i + (k + 1) ∧ j < it.length
      · rw [if_pos hc, if_pos ⟨by omega, by omega, hc.2.2⟩]
      · rw [if_neg hc, if_neg (by omega)]

theorem renderLoop_eq_map (sin : ℚ → ℚ) (lit : ℤ) (c1 c2 c3 : Color)
    (wave_speed phase : ℚ) (it : List Color) :
    renderLoop sin it.length lit c1 c2 c3 wave_speed phase it.length 0 it =
      (List.range it.length).map (pixel sin it.length lit c1 c2 c3 wave_speed phase) := by
  apply List.ext_getElem?
  intro j
  rw [renderLoop_getElem?, List.getElem?_map]
  by_cases hj : j < it.length
  · rw [if_pos ⟨Nat.zero_le j, by omega, hj⟩, List.getElem?_range hj]
    rfl
  · rw [if_neg (by omega), List.getElem?_eq_none (by omega),
      List.getElem?_eq_none (by rw [List.length_range]; omega)]
    rfl

theorem led_gauge_eq (sin : ℚ → ℚ) (fuel : Nat) (it : List Color) (value : ℚ) (c1 c2 c3 : Color)
    (wave_speed phase dt : ℚ) :
    led_gauge sin fuel it value c1 c2 c3 wave_speed phase dt =
      (updatePhase fuel (clamp wave_speed (-1) 1) phase dt).map (fun p =>
        ((List.range it.length).map
          (pixel sin it.length (lit_leds (clamp value 0 1) it.length) c1 c2 c3
            (clamp wave_speed (-1) 1) p), p)) := by
  unfold led_gauge
  simp only
  cases updatePhase fuel (clamp wave_speed (-1) 1) phase dt with
  | none => rfl
  | some p => simp only [Option.map_some', renderLoop_eq_map]

/-! ## Evaluations at constants -/

theorem TWO_PI_eq : TWO_PI = 884279719003555 / 2 ^ 47 := by decide!

theorem clamp_zero_wave : clamp 0 (-1) 1 = 0 := by decide!

theorem clamp_one_wave : clamp 1 (-1) 1 = 1 := by decide!

theorem min_brightness_zero : min_brightness 0 = 5033165 / 8388608 := by decide!

theorem max_brightness_zero : max_brightness 0 = 5033165 / 8388608 := by decide!

theorem still_brightness_byte :
    toU8 (rnd32 (rnd32 (0 + 5033165 / 8388608) * 255)) = 153 := by decide!

theorem brightness_scale_still (sin : ℚ → ℚ) (phase pos : ℚ) :
    brightness_scale sin 0 phase pos = 153 := by
  unfold brightness_scale remap
  rw [min_brightness_zero, max_brightness_zero, sub_self, rnd32_zero, mul_zero, rnd32_zero,
    zero_div, rnd32_zero]
  exact still_brightness_byte

theorem accumulate_long_pause : accumulate 1 0 (2 ^ 26) = some 421657440 := by decide!

theorem wrapDown_absorbed_step :
    TWO_PI < 421657440 ∧ rnd32 (rnd64 (421657440 - TWO_PI)) = 421657440 := by decide!

theorem wrapDown_absorbed (fuel : Nat) : wrapDown fuel 421657440 = none := by
  induction fuel with
  | zero => rfl
  | succ n ih =>
    unfold wrapDown
    rw [if_pos wrapDown_absorbed_step.1, wrapDown_absorbed_step.2]
    exact ih

theorem clamp_of_lt_lo (v lo hi : ℚ) (h : v < lo) : clamp v lo hi = lo := by
  unfold clamp
  rw [if_pos h]

theorem clamp_of_hi_lt (v lo hi : ℚ) (hlh : lo ≤ hi) (h : hi < v) : clamp v lo hi = hi := by
  unfold clamp
  rw [if_neg (not_lt.mpr (le_trans hlh h.le)), if_pos h]

theorem clamp_self_lo (lo hi : ℚ) (hlh : lo ≤ hi) : clamp lo lo hi = lo := by
  unfold clamp
  rw [if_neg (lt_irrefl lo), if_neg (not_lt.mpr hlh)]

theorem clamp_self_hi (lo hi : ℚ) (hlh : lo ≤ hi) : clamp hi lo hi = hi := by
  unfold clamp
  rw [if_neg (not_lt.mpr hlh), if_neg (lt_irrefl hi)]

theorem truncInt_natCast (n : ℕ) : truncInt (n : ℚ) = (n : ℤ) := by
  unfold truncInt
  rw [if_pos (Nat.cast_nonneg n)]
  exact Int.floor_natCast n

theorem lit_leds_zero (n : Nat) : lit_leds 0 n = 0 := by
  unfold lit_leds
  rw [zero_mul, rnd32_zero]
  exact truncInt_natCast 0

theorem lit_leds_one (n : Nat) (hn : n ≤ 2 ^ 24) : lit_leds 1 n = (n : ℤ) := by
  unfold lit_leds
  rw [rnd32_natCast n hn, one_mul, rnd32_natCast n hn]
  exact truncInt_natCast n

theorem toU8_byte (a : Fin 256) : toU8 ((a : ℕ) : ℚ) = a := by
  unfold toU8
  apply Fin.ext
  simp only [truncInt_natCast]
  have := a.isLt
  omega

theorem gradientChannel_zero (a b : Fin 256) : gradientChannel a b 0 = a := by
  unfold gradientChannel
  simp only [Fin.val_zero, Nat.cast_zero, mul_zero, zero_div, add_zero]
  exact toU8_byte a

theorem gradient_zero (c1 c2 : Color) : c1.gradient c2 0 = c1 := by
  unfold Color.gradient
  simp only [gradientChannel_zero]

theorem position_zero (n : Nat) : position 0 n = 0 := by
  unfold position
  rw [Nat.cast_zero, rnd32_zero, zero_div, rnd32_zero]

theorem first_half_start : toU8 (remap 0 0 (1 / 2) 0 255) = 0 := by decide!

theorem base_color_zero (c1 c2 c3 : Color) : base_color c1 c2 c3 0 = c1.gradient c2 0 := by
  unfold base_color
  rw [if_pos (by norm_num), first_half_start]

theorem pixel_black_of_le (sin : ℚ → ℚ) (n : Nat) (lit : ℤ) (c1 c2 c3 : Color)
    (wave_speed phase : ℚ) (i : Nat) (h : lit ≤ (i : ℤ)) :
    pixel sin n lit c1 c2 c3 wave_speed phase i = Color.BLACK := by
  unfold pixel
  rw [if_neg (not_lt.mpr h)]

theorem pixel_lit_of_lt (sin : ℚ → ℚ) (n : Nat) (lit : ℤ) (c1 c2 c3 : Color)
    (wave_speed phase : ℚ) (i : Nat) (h : (i : ℤ) < lit) :
    pixel sin n lit c1 c2 c3 wave_speed phase i =
      lit_color sin c1 c2 c3 wave_speed phase (position i n) := by
  unfold pixel
  rw [if_pos h]

theorem map_range_black (f : Nat → Color) (n : Nat) (h : ∀ i, f i = Color.BLACK) :
    (List.range n).map f = List.replicate n Color.BLACK := by
  rw [List.eq_replicate_iff]
  refine ⟨by simp, ?_⟩
  intro b hb
  obtain ⟨i, _, hi⟩ := List.mem_map.mp hb
  rw [← hi, h i]

/-! ## The claims -/

/-- C1, evaluated at a failing input.  Starting from the normalised phase `0`,
one call with `wave_speed = -1` and `dt = 2^-33` (all three are binary32
numbers) first makes the phase a tiny negative number; the second loop adds
`2.0f * M_PI` once, and the sum rounds up to the binary32 number
`13176795 / 2^21 = 6.2831855...`, which is stored back.  That number is greater
than `2 * π`, so the phase left by the call is outside `[0, 2π)`. -/
theorem phase_above_two_pi_after_update :
    rnd32 (1 / 2 ^ 33) = 1 / 2 ^ 33 ∧
    (led_gauge (fun _ => 0) 2 [Color.BLACK] 1 Color.BLACK Color.BLACK Color.BLACK
        (-1) 0 (1 / 2 ^ 33)).map Prod.snd = some (13176795 / 2 ^ 21) ∧
    2 * Real.pi < (((13176795 / 2 ^ 21 : ℚ)) : ℝ) := by
  refine ⟨by decide!, by decide!, ?_⟩
  have h := Real.pi_lt_d20
  push_cast
  norm_num at h ⊢
  linarith

/-- C2: value saturation.  A call with a value below `0` returns what the call
with value `0` returns, and a call with a value above `1` returns what the call
with value `1` returns: the same buffer and the same new phase (or, alike, no
result within the fuel), for every buffer, colours, wave speed, phase and
`dt`. -/
theorem value_saturation (sin : ℚ → ℚ) (fuel : Nat) (it : List Color) (value : ℚ)
    (c1 c2 c3 : Color) (wave_speed phase dt : ℚ) :
    (value < 0 → led_gauge sin fuel it value c1 c2 c3 wave_speed phase dt =
      led_gauge sin fuel it 0 c1 c2 c3 wave_speed phase dt) ∧
    (1 < value → led_gauge sin fuel it value c1 c2 c3 wave_speed phase dt =
      led_gauge sin fuel it 1 c1 c2 c3 wave_speed phase dt) := by
  constructor
  · intro h
    unfold led_gauge
    rw [clamp_of_lt_lo value 0 1 h, clamp_self_lo 0 1 zero_le_one]
  · intro h
    unfold led_gauge
    rw [clamp_of_hi_lt value 0 1 zero_le_one h, clamp_self_hi 0 1 zero_le_one]

/-- Witness of C2 at the values `-3` and `7` on a three-pixel buffer. -/
theorem value_saturation_witness :
    ((-3 : ℚ) < 0 ∧
      led_gauge (fun _ => 0) 4 [⟨1, 2, 3, 4⟩, ⟨5, 6, 7, 8⟩, ⟨9, 9, 9, 9⟩] (-3)
          ⟨255, 0, 0, 0⟩ ⟨0, 255, 0, 0⟩ ⟨0, 0, 255, 0⟩ (1 / 2) 1 (1 / 4) =
        led_gauge (fun _ => 0) 4 [⟨1, 2, 3, 4⟩, ⟨5, 6, 7, 8⟩, ⟨9, 9, 9, 9⟩] 0
          ⟨255, 0, 0, 0⟩ ⟨0, 255, 0, 0⟩ ⟨0, 0, 255, 0⟩ (1 / 2) 1 (1 / 4)) ∧
    ((1 : ℚ) < 7 ∧
      led_gauge (fun _ => 0) 4 [⟨1, 2, 3, 4⟩, ⟨5, 6, 7, 8⟩, ⟨9, 9, 9, 9⟩] 7
          ⟨255, 0, 0, 0⟩ ⟨0, 255, 0, 0⟩ ⟨0, 0, 255, 0⟩ (1 / 2) 1 (1 / 4) =
        led_gauge (fun _ => 0) 4 [⟨1, 2, 3, 4⟩, ⟨5, 6, 7, 8⟩, ⟨9, 9, 9, 9⟩] 1
          ⟨255, 0, 0, 0⟩ ⟨0, 255, 0, 0⟩ ⟨0, 0, 255, 0⟩ (1 / 2) 1 (1 / 4)) :=
  ⟨⟨by norm_num, (value_saturation _ _ _ _ _ _ _ _ _ _).1 (by norm_num)⟩,
   ⟨by norm_num, (value_saturation _ _ _ _ _ _ _ _ _ _).2 (by norm_num)⟩⟩

/-- C3: wave-speed saturation.  A call with a wave speed above `1` returns what
the call with wave speed `1` returns, and a call with a wave speed below `-1`
returns what the call with wave speed `-1` returns: the same buffer and the
same new phase, for every buffer, value, colours, phase and `dt`. -/
theorem wave_speed_saturation (sin : ℚ → ℚ) (fuel : Nat) (it : List Color) (value : ℚ)
    (c1 c2 c3 : Color) (wave_speed phase dt : ℚ) :
    (1 < wave_speed → led_gauge sin fuel it value c1 c2 c3 wave_speed phase dt =
      led_gauge sin fuel it value c1 c2 c3 1 phase dt) ∧
    (wave_speed < -1 → led_gauge sin fuel it value c1 c2 c3 wave_speed phase dt =
      led_gauge sin fuel it value c1 c2 c3 (-1) phase dt) := by
  have h11 : (-1 : ℚ) ≤ 1 := by norm_num
  constructor
  · intro h
    unfold led_gauge
    rw [clamp_of_hi_lt wave_speed (-1) 1 h11 h, clamp_self_hi (-1) 1 h11]
  · intro h
    unfold led_gauge
    rw [clamp_of_lt_lo wave_speed (-1) 1 h, clamp_self_lo (-1) 1 h11]

/-- Witness of C3 at the wave speeds `5/2` and `-4` on a three-pixel buffer. -/
theorem wave_speed_saturation_witness :
    ((1 : ℚ) < 5 / 2 ∧
      led_gauge (fun _ => 0) 4 [⟨1, 2, 3, 4⟩, ⟨5, 6, 7, 8⟩, ⟨9, 9, 9, 9⟩] (3 / 4)
          ⟨255, 0, 0, 0⟩ ⟨0, 255, 0, 0⟩ ⟨0, 0, 255, 0⟩ (5 / 2) 1 (1 / 4) =
        led_gauge (fun _ => 0) 4 [⟨1, 2, 3, 4⟩, ⟨5, 6, 7, 8⟩, ⟨9, 9, 9, 9⟩] (3 / 4)
          ⟨255, 0, 0, 0⟩ ⟨0, 255, 0, 0⟩ ⟨0, 0, 255, 0⟩ 1 1 (1 / 4)) ∧
    ((-4 : ℚ) < -1 ∧
      led_gauge (fun _ => 0) 4 [⟨1, 2, 3, 4⟩, ⟨5, 6, 7, 8⟩, ⟨9, 9, 9, 9⟩] (3 / 4)
          ⟨255, 0, 0, 0⟩ ⟨0, 255, 0, 0⟩ ⟨0, 0, 255, 0⟩ (-4) 1 (1 / 4) =
        led_gauge (fun _ => 0) 4 [⟨1, 2, 3, 4⟩, ⟨5, 6, 7, 8⟩, ⟨9, 9, 9, 9⟩] (3 / 4)
          ⟨255, 0, 0, 0⟩ ⟨0, 255, 0, 0⟩ ⟨0, 0, 255, 0⟩ (-1) 1 (1 / 4)) :=
  ⟨⟨by norm_num, (wave_speed_saturation _ _ _ _ _ _ _ _ _ _).1 (by norm_num)⟩,
   ⟨by norm_num, (wave_speed_saturation _ _ _ _ _ _ _ _ _ _).2 (by norm_num)⟩⟩

/-- Every returning call with a value of `0` or less leaves `N` black pixels:
the call returns exactly when the phase update does, and the buffer it then
leaves consists of `N` black pixels, for every buffer length `N`, colours,
wave speed, phase and `dt`. -/
theorem empty_gauge_black (sin : ℚ → ℚ) (fuel : Nat) (it : List Color) (value : ℚ)
    (c1 c2 c3 : Color) (wave_speed phase dt : ℚ) (h : value ≤ 0) :
    led_gauge sin fuel it value c1 c2 c3 wave_speed phase dt =
      (updatePhase fuel (clamp wave_speed (-1) 1) phase dt).map
        (fun p => (List.replicate it.length Color.BLACK, p)) := by
  have hc : clamp value 0 1 = 0 := by
    rcases lt_or_eq_of_le h with h1 | h1
    · exact clamp_of_lt_lo value 0 1 h1
    · rw [h1]
      exact clamp_self_lo 0 1 zero_le_one
  rw [led_gauge_eq, hc, lit_leds_zero]
  congr 1
  funext p
  rw [map_range_black]
  intro i
  exact pixel_black_of_le _ _ _ _ _ _ _ _ _ (Int.natCast_nonneg i)

/-- An example of a returning call: value `0` on a three-pixel buffer of
non-black pixels; the call returns three black pixels. -/
theorem empty_gauge_black_witness :
    (0 : ℚ) ≤ 0 ∧
    led_gauge (fun _ => 1) 4 [⟨1, 2, 3, 4⟩, ⟨5, 6, 7, 8⟩, ⟨9, 9, 9, 9⟩] 0
        ⟨255, 0, 0, 0⟩ ⟨0, 255, 0, 0⟩ ⟨0, 0, 255, 0⟩ 1 1 (1 / 4) =
      (updatePhase 4 (clamp 1 (-1) 1) 1 (1 / 4)).map
        (fun p => (List.replicate 3 Color.BLACK, p)) ∧
    (updatePhase 4 (clamp 1 (-1) 1) 1 (1 / 4)).isSome = true :=
  ⟨le_rfl, empty_gauge_black _ _ _ _ _ _ _ _ _ _ le_rfl, by decide!⟩

/-- C4, evaluated at a failing input.  With value `0` the pixel loop writes
black to every pixel, whatever the wave speed, the phase and `dt`: the call
returns exactly when the phase update of lines 39-48 does, and then with `N`
black pixels.  But the phase update does not always return.  With
`phase = 0`, `wave_speed = 1` and `dt = 2^26` seconds (all finite binary32
numbers) the accumulated phase is `421657440`, the subtraction of line 46
rounds back to the same `float`, and the loop of lines 45-46 never ends: for
no amount of fuel does the call return, so the pixel loop is never reached
and the buffer keeps the pixels it had, black or not. -/
theorem empty_gauge_never_written (sin : ℚ → ℚ) (fuel : Nat) (it : List Color)
    (c1 c2 c3 : Color) :
    (∀ wave_speed phase dt : ℚ,
      led_gauge sin fuel it 0 c1 c2 c3 wave_speed phase dt =
        (updatePhase fuel (clamp wave_speed (-1) 1) phase dt).map
          (fun p => (List.replicate it.length Color.BLACK, p))) ∧
    rnd32 (2 ^ 26) = 2 ^ 26 ∧
    accumulate (clamp 1 (-1) 1) 0 (2 ^ 26) = some 421657440 ∧
    rnd32 (rnd64 (421657440 - TWO_PI)) = 421657440 ∧
    updatePhase fuel (clamp 1 (-1) 1) 0 (2 ^ 26) = none ∧
    led_gauge sin fuel it 0 c1 c2 c3 1 0 (2 ^ 26) = none := by
  have hu : updatePhase fuel (clamp 1 (-1) 1) 0 (2 ^ 26) = none := by
    unfold updatePhase
    simp only [clamp_one_wave, accumulate_long_pause, wrapDown_absorbed]
  refine ⟨fun wave_speed phase dt =>
      empty_gauge_black sin fuel it 0 c1 c2 c3 wave_speed phase dt le_rfl,
    by decide!, ?_, by decide!, hu, ?_⟩
  · rw [clamp_one_wave]
    exact accumulate_long_pause
  · rw [empty_gauge_black sin fuel it 0 c1 c2 c3 1 0 (2 ^ 26) le_rfl, hu]
    rfl

/-- C6 fails as stated.  `N = 16777217 = 2^24 + 1` is not a binary32 number: its
conversion to `float` on line 52 gives `16777216`, so with value `1` the lit
count is `16777216`, not `N`, and the pixel at index `16777216` is set to black
by the cutoff. -/
theorem full_gauge_counterexample :
    lit_leds (clamp 1 0 1) 16777217 = 16777216 ∧
    pixel (fun _ => 0) 16777217 (lit_leds (clamp 1 0 1) 16777217)
      ⟨255, 255, 255, 255⟩ ⟨255, 255, 255, 255⟩ ⟨255, 255, 255, 255⟩ 0 0 16777216 =
        Color.BLACK := by
  decide!

/-- C6, amended.  For every buffer length `N ≤ 2^24` and every value `≥ 1`, the
lit count computed on line 52 equals `N`, so every index `i < N` takes the
gradient-and-brightness branch (its pixel is the lit colour). -/
theorem full_gauge (sin : ℚ → ℚ) (n : Nat) (value : ℚ) (c1 c2 c3 : Color)
    (wave_speed phase : ℚ) (hv : 1 ≤ value) (hn : n ≤ 2 ^ 24) :
    lit_leds (clamp value 0 1) n = (n : ℤ) ∧
    ∀ i : Nat, i < n →
      pixel sin n (lit_leds (clamp value 0 1) n) c1 c2 c3 wave_speed phase i =
        lit_color sin c1 c2 c3 wave_speed phase (position i n) := by
  have hc : clamp value 0 1 = 1 := by
    rcases lt_or_eq_of_le hv with h1 | h1
    · exact clamp_of_hi_lt value 0 1 zero_le_one h1
    · rw [← h1]
      exact clamp_self_hi 0 1 zero_le_one
  rw [hc, lit_leds_one n hn]
  refine ⟨rfl, ?_⟩
  intro i hi
  exact pixel_lit_of_lt _ _ _ _ _ _ _ _ _ (by exact_mod_cast hi)

/-- Witness of C6 (amended): value `2` on five pixels; index `3` is lit. -/
theorem full_gauge_witness :
    (1 : ℚ) ≤ 2 ∧ 5 ≤ 2 ^ 24 ∧ lit_leds (clamp 2 0 1) 5 = ((5 : ℕ) : ℤ) ∧
    pixel (fun _ => 0) 5 (lit_leds (clamp 2 0 1) 5) ⟨255, 0, 0, 0⟩ ⟨0, 255, 0, 0⟩ ⟨0, 0, 255, 0⟩
        0 0 3 =
      lit_color (fun _ => 0) ⟨255, 0, 0, 0⟩ ⟨0, 255, 0, 0⟩ ⟨0, 0, 255, 0⟩ 0 0 (position 3 5) :=
  ⟨by norm_num, by norm_num,
    (full_gauge (fun _ => 0) 5 2 ⟨255, 0, 0, 0⟩ ⟨0, 255, 0, 0⟩ ⟨0, 0, 255, 0⟩ 0 0
      (by norm_num) (by norm_num)).1,
    (full_gauge (fun _ => 0) 5 2 ⟨255, 0, 0, 0⟩ ⟨0, 255, 0, 0⟩ ⟨0, 0, 255, 0⟩ 0 0
      (by norm_num) (by norm_num)).2 3 (by norm_num)⟩

/-- C7: still wave.  With `wave_speed = 0` the byte `brightness_scale` is `153`
for every phase and every pixel position, whatever `sin` returns; hence a call
with `wave_speed = 0` writes, at every lit index, the gradient colour
multiplied by `153`. -/
theorem still_wave_brightness (sin : ℚ → ℚ) (fuel : Nat) (it : List Color) (value : ℚ)
    (c1 c2 c3 : Color) (phase dt : ℚ) :
    (∀ ph pos : ℚ, brightness_scale sin (clamp 0 (-1) 1) ph pos = 153) ∧
    led_gauge sin fuel it value c1 c2 c3 0 phase dt =
      (updatePhase fuel (clamp 0 (-1) 1) phase dt).map (fun p =>
        ((List.range it.length).map (fun i : Nat =>
          if ((i : ℕ) : ℤ) < lit_leds (clamp value 0 1) it.length then
            (base_color c1 c2 c3 (position i it.length)).scale 153
          else Color.BLACK), p)) := by
  rw [led_gauge_eq, clamp_zero_wave]
  refine ⟨fun ph pos => brightness_scale_still sin ph pos, ?_⟩
  congr 1
  funext p
  congr 1
  apply List.map_congr_left
  intro i _
  unfold pixel lit_color
  rw [brightness_scale_still]

/-- C8: gradient start.  The position of pixel `0` is `0`, its gradient colour
is `gradient(c1, c2, 0)`, and that is `c1`; so whenever pixel `0` is lit
(`N ≥ 1`, lit count `≥ 1`) a call that returns has written to pixel `0` the
colour `c1` multiplied by that pixel's `brightness_scale`.  For `N = 1` and
value `1` the call returns exactly when the phase update does and leaves the
single pixel `c1` scaled by that byte. -/
theorem gradient_start (sin : ℚ → ℚ) (fuel : Nat) (it : List Color) (value : ℚ)
    (c0 c1 c2 c3 : Color) (wave_speed phase dt : ℚ) (hn : 1 ≤ it.length)
    (hlit : 1 ≤ lit_leds (clamp value 0 1) it.length) :
    position 0 it.length = 0 ∧
    base_color c1 c2 c3 (position 0 it.length) = c1.gradient c2 0 ∧
    c1.gradient c2 0 = c1 ∧
    (led_gauge sin fuel it value c1 c2 c3 wave_speed phase dt).map (fun r => r.1[0]?) =
      (updatePhase fuel (clamp wave_speed (-1) 1) phase dt).map (fun p =>
        some (c1.scale (brightness_scale sin (clamp wave_speed (-1) 1) p 0))) ∧
    led_gauge sin fuel [c0] 1 c1 c2 c3 wave_speed phase dt =
      (updatePhase fuel (clamp wave_speed (-1) 1) phase dt).map (fun p =>
        ([c1.scale (brightness_scale sin (clamp wave_speed (-1) 1) p 0)], p)) := by
  have hpos := position_zero it.length
  refine ⟨hpos, ?_, gradient_zero c1 c2, ?_, ?_⟩
  · rw [hpos, base_color_zero]
  · rw [led_gauge_eq, Option.map_map]
    congr 1
    funext p
    simp only [Function.comp_apply]
    rw [List.getElem?_map, List.getElem?_range (by omega), Option.map_some',
      pixel_lit_of_lt _ _ _ _ _ _ _ _ _ (by simpa using hlit)]
    unfold lit_color
    rw [hpos, base_color_zero, gradient_zero]
  · rw [led_gauge_eq]
    congr 1
    funext p
    have h1 : lit_leds (clamp 1 0 1) 1 = 1 := by decide!
    have h2 : List.range 1 = [0] := rfl
    simp only [List.length_singleton, h2, List.map_cons, List.map_nil, h1]
    rw [pixel_lit_of_lt _ _ _ _ _ _ _ _ _ (by norm_num)]
    unfold lit_color
    rw [position_zero, base_color_zero, gradient_zero]

/-- Witness of C8: a full gauge of three pixels; pixel `0` holds `c1` scaled by
its brightness byte. -/
theorem gradient_start_witness :
    1 ≤ ([⟨1, 2, 3, 4⟩, ⟨5, 6, 7, 8⟩, ⟨9, 9, 9, 9⟩] : List Color).length ∧
    (1 : ℤ) ≤ lit_leds (clamp 1 0 1)
      ([⟨1, 2, 3, 4⟩, ⟨5, 6, 7, 8⟩, ⟨9, 9, 9, 9⟩] : List Color).length ∧
    (led_gauge (fun _ => 1) 4 [⟨1, 2, 3, 4⟩, ⟨5, 6, 7, 8⟩, ⟨9, 9, 9, 9⟩] 1
        ⟨255, 0, 0, 0⟩ ⟨0, 255, 0, 0⟩ ⟨0, 0, 255, 0⟩ 1 0 0).map (fun r => r.1[0]?) =
      (updatePhase 4 (clamp 1 (-1) 1) 0 0).map (fun p =>
        some ((⟨255, 0, 0, 0⟩ : Color).scale (brightness_scale (fun _ => 1) (clamp 1 (-1) 1) p 0))) ∧
    (updatePhase 4 (clamp 1 (-1) 1) 0 0).isSome = true :=
  ⟨by decide, by decide!,
    (gradient_start (fun _ => 1) 4 [⟨1, 2, 3, 4⟩, ⟨5, 6, 7, 8⟩, ⟨9, 9, 9, 9⟩] 1 Color.BLACK
      ⟨255, 0, 0, 0⟩ ⟨0, 255, 0, 0⟩ ⟨0, 0, 255, 0⟩ 1 0 0 (by decide) (by decide!)).2.2.2.1,
    by decide!⟩

/-- C9: determinism and full overwrite.  For two buffers of the same length `N`
with arbitrary contents, two calls with the same value, colours, wave speed,
phase and `dt` return the same result (the same buffer and the same new phase),
and a returned buffer has length `N`: no previous pixel content is used. -/
theorem deterministic_overwrite (sin : ℚ → ℚ) (fuel : Nat) (it1 it2 : List Color) (value : ℚ)
    (c1 c2 c3 : Color) (wave_speed phase dt : ℚ) (hlen : it1.length = it2.length) :
    led_gauge sin fuel it1 value c1 c2 c3 wave_speed phase dt =
      led_gauge sin fuel it2 value c1 c2 c3 wave_speed phase dt ∧
    ∀ (buf : List Color) (p : ℚ),
      led_gauge sin fuel it1 value c1 c2 c3 wave_speed phase dt = some (buf, p) →
        buf.length = it1.length := by
  constructor
  · rw [led_gauge_eq, led_gauge_eq, hlen]
  · intro buf p h
    rw [led_gauge_eq] at h
    obtain ⟨q, _, hq⟩ := Option.map_eq_some'.mp h
    have hbuf : buf = (List.range it1.length).map
        (pixel sin it1.length (lit_leds (clamp value 0 1) it1.length) c1 c2 c3
          (clamp wave_speed (-1) 1) q) := (congrArg Prod.fst hq).symm
    rw [hbuf, List.length_map, List.length_range]

/-- Witness of C9: two different three-pixel buffers give the same result, which
is a buffer of three pixels. -/
theorem deterministic_overwrite_witness :
    ([⟨1, 2, 3, 4⟩, ⟨5, 6, 7, 8⟩, ⟨9, 9, 9, 9⟩] : List Color).length =
      ([⟨0, 0, 0, 0⟩, ⟨255, 255, 255, 255⟩, ⟨7, 7, 7, 7⟩] : List Color).length ∧
    led_gauge (fun _ => 1) 4 [⟨1, 2, 3, 4⟩, ⟨5, 6, 7, 8⟩, ⟨9, 9, 9, 9⟩] 1
        ⟨255, 0, 0, 0⟩ ⟨0, 255, 0, 0⟩ ⟨0, 0, 255, 0⟩ 1 0 0 =
      led_gauge (fun _ => 1) 4 [⟨0, 0, 0, 0⟩, ⟨255, 255, 255, 255⟩, ⟨7, 7, 7, 7⟩] 1
        ⟨255, 0, 0, 0⟩ ⟨0, 255, 0, 0⟩ ⟨0, 0, 255, 0⟩ 1 0 0 ∧
    led_gauge (fun _ => 1) 4 [⟨1, 2, 3, 4⟩, ⟨5, 6, 7, 8⟩, ⟨9, 9, 9, 9⟩] 1
        ⟨255, 0, 0, 0⟩ ⟨0, 255, 0, 0⟩ ⟨0, 0, 255, 0⟩ 1 0 0 =
      some ([⟨255, 0, 0, 0⟩, ⟨85, 170, 0, 0⟩, ⟨0, 170, 85, 0⟩], 0) ∧
    ([⟨255, 0, 0, 0⟩, ⟨85, 170, 0, 0⟩, ⟨0, 170, 85, 0⟩] : List Color).length =
      ([⟨1, 2, 3, 4⟩, ⟨5, 6, 7, 8⟩, ⟨9, 9, 9, 9⟩] : List Color).length :=
  have h : led_gauge (fun _ => 1) 4 [⟨1, 2, 3, 4⟩, ⟨5, 6, 7, 8⟩, ⟨9, 9, 9, 9⟩] 1
        ⟨255, 0, 0, 0⟩ ⟨0, 255, 0, 0⟩ ⟨0, 0, 255, 0⟩ 1 0 0 =
      some ([⟨255, 0, 0, 0⟩, ⟨85, 170, 0, 0⟩, ⟨0, 170, 85, 0⟩], 0) := by decide!
  ⟨rfl, (deterministic_overwrite _ _ _ _ _ _ _ _ _ _ _ rfl).1, h,
    (deterministic_overwrite (fun _ => 1) 4 [⟨1, 2, 3, 4⟩, ⟨5, 6, 7, 8⟩, ⟨9, 9, 9, 9⟩]
      [⟨0, 0, 0, 0⟩, ⟨255, 255, 255, 255⟩, ⟨7, 7, 7, 7⟩] 1
      ⟨255, 0, 0, 0⟩ ⟨0, 255, 0, 0⟩ ⟨0, 0, 255, 0⟩ 1 0 0 rfl).2 _ _ h⟩

/-- C10, evaluated at a failing input.  With `phase = 0`, `wave_speed = 1` and
`dt = 2^26` seconds (all finite binary32 numbers) the accumulated phase is
`421657440`.  At that magnitude neighbouring `float` numbers are `32` apart, so
`phase - 2.0f * M_PI` rounds back to `421657440`: the first loop never changes
the phase and its condition stays true.  The call returns for no amount of
fuel, whatever the buffer, the value and the colours. -/
theorem long_pause_never_returns (sin : ℚ → ℚ) (fuel : Nat) (it : List Color) (value : ℚ)
    (c1 c2 c3 : Color) :
    rnd32 (2 ^ 26) = 2 ^ 26 ∧
    led_gauge sin fuel it value c1 c2 c3 1 0 (2 ^ 26) = none := by
  refine ⟨by decide!, ?_⟩
  unfold led_gauge updatePhase
  simp only [clamp_one_wave, accumulate_long_pause, wrapDown_absorbed]


/-! ## Error, range and idempotence of the rounding -/

theorem roundNE_abs_sub_le (q : ℚ) : |(roundNE q : ℚ) - q| ≤ 1 / 2 := by
  have h1 : (⌊q⌋ : ℚ) ≤ q := Int.floor_le q
  have h2 : q < (⌊q⌋ : ℚ) + 1 := Int.lt_floor_add_one q
  unfold roundNE
  simp only
  rw [abs_le]
  split_ifs with a b c
  · constructor <;> linarith
  · push_cast
    constructor <;> linarith
  · have : q - (⌊q⌋ : ℚ) = 1 / 2 := le_antisymm (not_lt.mp b) (not_lt.mp a)
    constructor <;> linarith
  · have : q - (⌊q⌋ : ℚ) = 1 / 2 := le_antisymm (not_lt.mp b) (not_lt.mp a)
    push_cast
    constructor <;> linarith

/-- The rounding error is at most half a unit in the last place: for `|x| < 2 ^ k`
it is at most `2 ^ (k - p) / 2`. -/
theorem roundFloat_abs_err (p : ℕ) (emin : ℤ) (x : ℚ) (k : ℤ) (hx : |x| < (2 : ℚ) ^ k)
    (hk : emin ≤ k - (p : ℤ)) : |roundFloat p emin x - x| ≤ (2 : ℚ) ^ (k - (p : ℤ)) / 2 := by
  by_cases h0 : x = 0
  · subst h0
    rw [roundFloat_zero, sub_zero, abs_zero]
    exact (div_pos (two_zpow_pos _) (by norm_num)).le
  have hlog := ilog2_lt_of_lt x k h0 hx
  unfold roundFloat
  simp only
  set e := max (ilog2 x - ((p : ℤ) - 1)) emin with he
  have hle : e ≤ k - (p : ℤ) := by
    rw [he]
    apply max_le _ hk
    omega
  have hpos := two_zpow_pos e
  have h1 := roundNE_abs_sub_le (x / (2 : ℚ) ^ e)
  have h2 : (roundNE (x / (2 : ℚ) ^ e) : ℚ) * (2 : ℚ) ^ e - x =
      ((roundNE (x / (2 : ℚ) ^ e) : ℚ) - x / (2 : ℚ) ^ e) * (2 : ℚ) ^ e := by
    field_simp
  rw [h2, abs_mul, abs_of_pos hpos]
  have h3 : (2 : ℚ) ^ e ≤ (2 : ℚ) ^ (k - (p : ℤ)) := zpow_le_zpow_right₀ (by norm_num) hle
  have h4 := abs_nonneg ((roundNE (x / (2 : ℚ) ^ e) : ℚ) - x / (2 : ℚ) ^ e)
  nlinarith

/-- Rounding does not cross a power of two: `|x| ≤ 2 ^ k` gives `|round x| ≤ 2 ^ k`. -/
theorem roundFloat_abs_le (p : ℕ) (emin : ℤ) (hp : 1 ≤ p) (x : ℚ) (k : ℤ)
    (hx : |x| ≤ (2 : ℚ) ^ k) (hk : emin ≤ k) : |roundFloat p emin x| ≤ (2 : ℚ) ^ k := by
  by_cases h0 : x = 0
  · subst h0
    rw [roundFloat_zero, abs_zero]
    exact (two_zpow_pos k).le
  have hlog : ilog2 x ≤ k := by
    have h1 := (ilog2_spec x h0).1
    exact (zpow_le_zpow_iff_right₀ (by norm_num : (1 : ℚ) < 2)).mp (le_trans h1 hx)
  unfold roundFloat
  simp only
  set e := max (ilog2 x - ((p : ℤ) - 1)) emin with he
  have hle : e ≤ k := by
    rw [he]
    apply max_le _ hk
    omega
  have hpos := two_zpow_pos e
  obtain ⟨d, hd⟩ : ∃ d : ℕ, k = e + d := ⟨(k - e).toNat, by omega⟩
  have hpk : (2 : ℚ) ^ k = (((2 : ℤ) ^ d : ℤ) : ℚ) * (2 : ℚ) ^ e := by
    rw [hd, zpow_add₀ (by norm_num : (2 : ℚ) ≠ 0), zpow_natCast]
    push_cast
    ring
  obtain ⟨hx1, hx2⟩ := abs_le.mp hx
  have hup : roundNE (x / (2 : ℚ) ^ e) ≤ (2 : ℤ) ^ d := by
    apply roundNE_le_of_le
    rw [div_le_iff₀ hpos, ← hpk]
    exact hx2
  have hlo : -((2 : ℤ) ^ d) ≤ roundNE (x / (2 : ℚ) ^ e) := by
    apply le_roundNE_of_le
    rw [le_div_iff₀ hpos]
    push_cast
    have : -((2 : ℚ) ^ d) * (2 : ℚ) ^ e = -((2 : ℚ) ^ k) := by
      rw [hpk]
      push_cast
      ring
    rw [this]
    exact hx1
  have hupq : (roundNE (x / (2 : ℚ) ^ e) : ℚ) ≤ (((2 : ℤ) ^ d : ℤ) : ℚ) := by exact_mod_cast hup
  have hloq : -(((2 : ℤ) ^ d : ℤ) : ℚ) ≤ (roundNE (x / (2 : ℚ) ^ e) : ℚ) := by exact_mod_cast hlo
  rw [abs_mul, abs_of_pos hpos, hpk]
  apply mul_le_mul_of_nonneg_right _ hpos.le
  exact abs_le.mpr ⟨hloq, hupq⟩

/-- Every value of the rounding is a number of the format. -/
theorem roundFloat_repr (p : ℕ) (emin : ℤ) (hp : 1 ≤ p) (x : ℚ) :
    ∃ m e : ℤ, |m| < 2 ^ p ∧ emin ≤ e ∧ roundFloat p emin x = (m : ℚ) * (2 : ℚ) ^ e := by
  by_cases h0 : x = 0
  · exact ⟨0, emin, by simp, le_rfl, by simp [roundFloat_zero, h0]⟩
  set e := max (ilog2 x - ((p : ℤ) - 1)) emin with he
  have hpos := two_zpow_pos e
  have hrf : roundFloat p emin x = (roundNE (x / (2 : ℚ) ^ e) : ℚ) * (2 : ℚ) ^ e := rfl
  have he1 : ilog2 x - ((p : ℤ) - 1) ≤ e := le_max_left _ _
  have he2 : emin ≤ e := le_max_right _ _
  have hxlt : |x| < (2 : ℚ) ^ ((p : ℕ) : ℤ) * (2 : ℚ) ^ e := by
    have h1 := (ilog2_spec x h0).2
    rw [← zpow_add₀ (by norm_num : (2 : ℚ) ≠ 0)]
    exact lt_of_lt_of_le h1 (zpow_le_zpow_right₀ (by norm_num) (by omega))
  rw [zpow_natCast] at hxlt
  obtain ⟨hx1, hx2⟩ := abs_lt.mp hxlt
  have hup : roundNE (x / (2 : ℚ) ^ e) ≤ (2 : ℤ) ^ p := by
    apply roundNE_le_of_le
    rw [div_le_iff₀ hpos]
    push_cast
    exact hx2.le
  have hlo : -((2 : ℤ) ^ p) ≤ roundNE (x / (2 : ℚ) ^ e) := by
    apply le_roundNE_of_le
    rw [le_div_iff₀ hpos]
    push_cast
    linarith
  set m := roundNE (x / (2 : ℚ) ^ e) with hm
  have h2p : (2 : ℤ) ^ p = 2 * 2 ^ (p - 1) := by
    rw [← pow_succ']
    congr 1
    omega
  have hpp : (0 : ℤ) < 2 ^ (p - 1) := by positivity
  have hshift : (2 : ℚ) ^ (e + 1) = 2 * (2 : ℚ) ^ e := by
    rw [zpow_add₀ (by norm_num : (2 : ℚ) ≠ 0), zpow_one]
    ring
  by_cases hmp : m = 2 ^ p
  · refine ⟨2 ^ (p - 1), e + 1, ?_, by omega, ?_⟩
    · rw [abs_of_pos hpp]
      omega
    · rw [hrf, hmp, hshift, h2p]
      push_cast
      ring
  by_cases hmn : m = -(2 ^ p)
  · refine ⟨-(2 ^ (p - 1)), e + 1, ?_, by omega, ?_⟩
    · rw [abs_neg, abs_of_pos hpp]
      omega
    · rw [hrf, hmn, hshift, h2p]
      push_cast
      ring
  · refine ⟨m, e, ?_, he2, hrf⟩
    rw [abs_lt]
    constructor <;> omega

theorem roundFloat_idem (p : ℕ) (emin : ℤ) (hp : 1 ≤ p) (x : ℚ) :
    roundFloat p emin (roundFloat p emin x) = roundFloat p emin x := by
  obtain ⟨m, e, hm, he, h⟩ := roundFloat_repr p emin hp x
  rw [h]
  exact roundFloat_of_repr p emin m e hm he

/-- Doubling a number of the format stays in the format. -/
theorem roundFloat_double (p : ℕ) (emin : ℤ) (hp : 1 ≤ p) (x : ℚ) :
    roundFloat p emin (2 * roundFloat p emin x) = 2 * roundFloat p emin x := by
  obtain ⟨m, e, hm, he, h⟩ := roundFloat_repr p emin hp x
  rw [h]
  have : 2 * ((m : ℚ) * (2 : ℚ) ^ e) = (m : ℚ) * (2 : ℚ) ^ (e + 1) := by
    rw [zpow_add₀ (by norm_num : (2 : ℚ) ≠ 0), zpow_one]
    ring
  rw [this]
  exact roundFloat_of_repr p emin m (e + 1) hm (by omega)

theorem rnd32_idem (x : ℚ) : rnd32 (rnd32 x) = rnd32 x := roundFloat_idem 24 (-149) (by norm_num) x

theorem rnd32_double (x : ℚ) : rnd32 (2 * rnd32 x) = 2 * rnd32 x :=
  roundFloat_double 24 (-149) (by norm_num) x

theorem rnd32_abs_err (x : ℚ) (k : ℤ) (hx : |x| < (2 : ℚ) ^ k) (hk : -125 ≤ k) :
    |rnd32 x - x| ≤ (2 : ℚ) ^ (k - 25) := by
  have h := roundFloat_abs_err 24 (-149) x k hx (by push_cast; omega)
  have e : (2 : ℚ) ^ (k - ((24 : ℕ) : ℤ)) / 2 = (2 : ℚ) ^ (k - 25) := by
    rw [show k - ((24 : ℕ) : ℤ) = (k - 25) + 1 by push_cast; ring,
      zpow_add₀ (by norm_num : (2 : ℚ) ≠ 0), zpow_one]
    ring
  rw [e] at h
  exact h

theorem rnd64_abs_err (x : ℚ) (k : ℤ) (hx : |x| < (2 : ℚ) ^ k) (hk : -1021 ≤ k) :
    |rnd64 x - x| ≤ (2 : ℚ) ^ (k - 54) := by
  have h := roundFloat_abs_err 53 (-1074) x k hx (by push_cast; omega)
  have e : (2 : ℚ) ^ (k - ((53 : ℕ) : ℤ)) / 2 = (2 : ℚ) ^ (k - 54) := by
    rw [show k - ((53 : ℕ) : ℤ) = (k - 54) + 1 by push_cast; ring,
      zpow_add₀ (by norm_num : (2 : ℚ) ≠ 0), zpow_one]
    ring
  rw [e] at h
  exact h

theorem rnd32_abs_le (x : ℚ) (k : ℤ) (hx : |x| ≤ (2 : ℚ) ^ k) (hk : -149 ≤ k) :
    |rnd32 x| ≤ (2 : ℚ) ^ k := roundFloat_abs_le 24 (-149) (by norm_num) x k hx hk

theorem rnd64_abs_le (x : ℚ) (k : ℤ) (hx : |x| ≤ (2 : ℚ) ^ k) (hk : -1074 ≤ k) :
    |rnd64 x| ≤ (2 : ℚ) ^ k := roundFloat_abs_le 53 (-1074) (by norm_num) x k hx hk

/-! ## The self-timed wrapper, the empty buffer, the monotone fill -/

theorem elapsed_eq_spec (now last : Nat) (h1 : last ≤ now) (h2 : now < 2 ^ 32) :
    elapsed now last = elapsedSpec now last := by
  unfold elapsed elapsedSpec
  have h3 : ((now : ℤ) - (last : ℤ)) % 2 ^ 32 = ((now - last : ℕ) : ℤ) := by
    rw [Int.emod_eq_of_lt (by omega) (by omega)]
    omega
  have h4 : rnd32 1000 = 1000 := by decide!
  rw [h3, h4]
  norm_cast

theorem renderLoop_eq_foldl (sin : ℚ → ℚ) (num_leds : Nat) (lit : ℤ) (c1 c2 c3 : Color)
    (wave_speed phase : ℚ) (k : Nat) : ∀ (i : Nat) (it : List Color),
    renderLoop sin num_leds lit c1 c2 c3 wave_speed phase k i it =
      (loopIndices k i).foldl
        (fun buf j => buf.set j (pixel sin num_leds lit c1 c2 c3 wave_speed phase j)) it := by
  induction k with
  | zero => intro i it; rfl
  | succ k ih =>
    intro i it
    unfold renderLoop loopIndices
    rw [ih, List.foldl_cons]

theorem mem_loopIndices (k : Nat) : ∀ (i j : Nat), j ∈ loopIndices k i ↔ i ≤ j ∧ j < i + k := by
  induction k with
  | zero =>
    intro i j
    unfold loopIndices
    simp
  | succ k ih =>
    intro i j
    unfold loopIndices
    rw [List.mem_cons, ih]
    omega

theorem angular_velocity_zero : angular_velocity 0 = 0 := by decide!

theorem f32_zero : f32 0 = some 0 := by decide!

theorem rnd32_TWO_PI : rnd32 TWO_PI = 13176795 / 2 ^ 21 := by decide!

theorem rnd64_TWO_PI : rnd64 TWO_PI = TWO_PI := by decide!

theorem TWO_PI_pos : 0 < TWO_PI := by decide!

theorem TWO_PI_lt_eight : TWO_PI < 8 := by decide!

theorem TWO_PI_le_rnd32 : TWO_PI ≤ 13176795 / 2 ^ 21 := by decide!

theorem two_pi_lt_rnd32 : 2 * Real.pi < (((13176795 / 2 ^ 21 : ℚ)) : ℝ) := by
  have h := Real.pi_lt_d20
  push_cast
  norm_num at h ⊢
  linarith

/-- A binary32 number below `2π` is at most the `double` constant `2.0f * M_PI`. -/
theorem le_TWO_PI_of_lt_two_pi (phase : ℚ) (hf : rnd32 phase = phase)
    (h : (phase : ℝ) < 2 * Real.pi) : phase ≤ TWO_PI := by
  by_contra hcon
  push_neg at hcon
  have h1 := rnd32_mono_nonneg TWO_PI phase TWO_PI_pos.le hcon.le
  rw [rnd32_TWO_PI, hf] at h1
  have h2 : (((13176795 / 2 ^ 21 : ℚ)) : ℝ) ≤ (phase : ℝ) := by exact_mod_cast h1
  have h3 := two_pi_lt_rnd32
  linarith

theorem accumulate_at_rest (phase dt : ℚ) (hf : rnd32 phase = phase)
    (hmax : qabs phase ≤ FLT_MAX) : accumulate 0 phase dt = some phase := by
  unfold accumulate
  rw [angular_velocity_zero, zero_mul, f32_zero]
  simp only [add_zero]
  unfold f32
  simp only [hf]
  rw [if_pos hmax]

theorem wrapDown_of_le (fuel : Nat) (phase : ℚ) (h : phase ≤ TWO_PI) :
    wrapDown (fuel + 1) phase = some phase := by
  unfold wrapDown
  rw [if_neg (not_lt.mpr h)]

theorem wrapUp_of_nonneg (fuel : Nat) (phase : ℚ) (h : 0 ≤ phase) :
    wrapUp (fuel + 1) phase = some phase := by
  unfold wrapUp
  rw [if_neg (not_lt.mpr h)]

theorem updatePhase_at_rest (fuel : Nat) (phase dt : ℚ) (hf : rnd32 phase = phase)
    (h0 : 0 ≤ phase) (h1 : phase ≤ TWO_PI) : updatePhase (fuel + 1) 0 phase dt = some phase := by
  have hmax : qabs phase ≤ FLT_MAX := by
    rw [qabs_eq_abs, abs_of_nonneg h0]
    have : TWO_PI ≤ FLT_MAX := by decide!
    linarith
  unfold updatePhase
  rw [accumulate_at_rest phase dt hf hmax]
  simp only [wrapDown_of_le fuel phase h1, wrapUp_of_nonneg fuel phase h0]

/-! ## The normalisation loops -/

theorem two_zpow_split (k : ℤ) :
    (2 : ℚ) ^ (k - 24) + (2 : ℚ) ^ (k - 54) ≤ (2 : ℚ) ^ (k - 23) := by
  have h1 : (2 : ℚ) ^ (k - 23) = 2 * (2 : ℚ) ^ (k - 24) := by
    rw [show k - 23 = (k - 24) + 1 by ring, zpow_add₀ (by norm_num : (2 : ℚ) ≠ 0), zpow_one]
    ring
  have h2 : (2 : ℚ) ^ (k - 54) ≤ (2 : ℚ) ^ (k - 24) :=
    zpow_le_zpow_right₀ (by norm_num) (by omega)
  rw [h1]
  linarith

/-- One loop step: `phase = (float)((double)phase ± 2.0f * M_PI)`, for an exact
result `y` below `2 ^ k` in magnitude. -/
theorem wrap_step (y : ℚ) (k : ℤ) (hy : |y| < (2 : ℚ) ^ k) (hk : -100 ≤ k) :
    |rnd32 (rnd64 y) - y| ≤ (2 : ℚ) ^ (k - 23) ∧ |rnd32 (rnd64 y)| ≤ (2 : ℚ) ^ k := by
  have h1 := rnd64_abs_err y k hy (by omega)
  have h2 := rnd64_abs_le y k hy.le (by omega)
  have h3 : |rnd64 y| < (2 : ℚ) ^ (k + 1) :=
    lt_of_le_of_lt h2 (zpow_lt_zpow_right₀ (by norm_num) (by omega))
  have h4 := rnd32_abs_err (rnd64 y) (k + 1) h3 (by omega)
  rw [show k + 1 - 25 = k - 24 by ring] at h4
  have h5 := rnd32_abs_le (rnd64 y) k h2 (by omega)
  refine ⟨?_, h5⟩
  have h6 : rnd32 (rnd64 y) - y = (rnd32 (rnd64 y) - rnd64 y) + (rnd64 y - y) := by ring
  rw [h6]
  have h7 := abs_add (rnd32 (rnd64 y) - rnd64 y) (rnd64 y - y)
  have h8 := two_zpow_split k
  linarith

theorem wrapDown_spec (k : ℤ) (hk : -100 ≤ k) : ∀ (fuel : Nat) (x q : ℚ),
    |x| ≤ (2 : ℚ) ^ k → wrapDown fuel x = some q →
    ∃ n : ℕ, |q - (x - (n : ℚ) * TWO_PI)| ≤ (n : ℚ) * (2 : ℚ) ^ (k - 23) ∧ q ≤ TWO_PI ∧
      (n = 0 → q = x) ∧ (0 < n → 0 ≤ q) := by
  intro fuel
  induction fuel with
  | zero =>
    intro x q _ h
    unfold wrapDown at h
    exact absurd h (by simp)
  | succ f ih =>
    intro x q hx h
    unfold wrapDown at h
    by_cases hc : TWO_PI < x
    · rw [if_pos hc] at h
      have hpos : 0 < x - TWO_PI := by linarith
      have hxk : x ≤ (2 : ℚ) ^ k := le_trans (le_abs_self x) hx
      have hy : |x - TWO_PI| < (2 : ℚ) ^ k := by
        rw [abs_of_pos hpos]
        have := TWO_PI_pos
        linarith
      obtain ⟨e1, e2⟩ := wrap_step (x - TWO_PI) k hy hk
      obtain ⟨n, hn1, hn2, hn3, hn4⟩ := ih _ q e2 h
      have hnn : 0 ≤ rnd32 (rnd64 (x - TWO_PI)) :=
        rnd32_nonneg _ (roundFloat_nonneg 53 (-1074) _ hpos.le)
      refine ⟨n + 1, ?_, hn2, fun h0 => absurd h0 (Nat.succ_ne_zero n), fun _ => ?_⟩
      · have h6 : q - (x - ((n + 1 : ℕ) : ℚ) * TWO_PI) =
            (q - (rnd32 (rnd64 (x - TWO_PI)) - (n : ℚ) * TWO_PI)) +
            (rnd32 (rnd64 (x - TWO_PI)) - (x - TWO_PI)) := by
          push_cast
          ring
        rw [h6]
        have h7 := abs_add (q - (rnd32 (rnd64 (x - TWO_PI)) - (n : ℚ) * TWO_PI))
          (rnd32 (rnd64 (x - TWO_PI)) - (x - TWO_PI))
        push_cast
        linarith
      · rcases Nat.eq_zero_or_pos n with h0 | h0
        · rw [hn3 h0]
          exact hnn
        · exact hn4 h0
    · rw [if_neg hc] at h
      have hq : q = x := (Option.some.inj h).symm
      refine ⟨0, ?_, ?_, fun _ => hq, fun h0 => absurd h0 (lt_irrefl 0)⟩
      · rw [hq]
        simp
      · rw [hq]
        exact not_lt.mp hc

theorem wrapUp_spec (k : ℤ) (hk : 3 ≤ k) : ∀ (fuel : Nat) (x q : ℚ),
    |x| ≤ (2 : ℚ) ^ k → wrapUp fuel x = some q →
    ∃ n : ℕ, |q - (x + (n : ℚ) * TWO_PI)| ≤ (n : ℚ) * (2 : ℚ) ^ (k - 23) ∧ 0 ≤ q ∧
      (n = 0 → q = x) ∧ (0 < n → q ≤ 13176795 / 2 ^ 21) := by
  have h8k : (8 : ℚ) ≤ (2 : ℚ) ^ k := by
    have : (2 : ℚ) ^ (3 : ℤ) ≤ (2 : ℚ) ^ k := zpow_le_zpow_right₀ (by norm_num) hk
    norm_num at this
    exact this
  intro fuel
  induction fuel with
  | zero =>
    intro x q _ h
    unfold wrapUp at h
    exact absurd h (by simp)
  | succ f ih =>
    intro x q hx h
    unfold wrapUp at h
    by_cases hc : x < 0
    · rw [if_pos hc] at h
      have hxk : -((2 : ℚ) ^ k) ≤ x := (abs_le.mp hx).1
      have hT := TWO_PI_pos
      have hT8 := TWO_PI_lt_eight
      have hy : |x + TWO_PI| < (2 : ℚ) ^ k := by
        rw [abs_lt]
        constructor <;> linarith
      obtain ⟨e1, e2⟩ := wrap_step (x + TWO_PI) k hy (by omega)
      obtain ⟨n, hn1, hn2, hn3, hn4⟩ := ih _ q e2 h
      have hub : rnd32 (rnd64 (x + TWO_PI)) ≤ 13176795 / 2 ^ 21 := by
        rw [← rnd32_TWO_PI]
        by_cases hs : 0 ≤ x + TWO_PI
        · have m1 := roundFloat_mono_nonneg 53 (-1074) (by norm_num) (x + TWO_PI) TWO_PI hs
            (by linarith)
          have m1b : rnd64 (x + TWO_PI) ≤ TWO_PI := by
            have : rnd64 (x + TWO_PI) ≤ rnd64 TWO_PI := m1
            rwa [rnd64_TWO_PI] at this
          exact rnd32_mono_nonneg _ _ (roundFloat_nonneg 53 (-1074) _ hs) m1b
        · have m2 : rnd64 (x + TWO_PI) ≤ 0 :=
            roundFloat_nonpos 53 (-1074) _ (not_le.mp hs).le
          have m3 : rnd32 (rnd64 (x + TWO_PI)) ≤ 0 := roundFloat_nonpos 24 (-149) _ m2
          have m4 : 0 ≤ rnd32 TWO_PI := rnd32_nonneg _ hT.le
          linarith
      refine ⟨n + 1, ?_, hn2, fun h0 => absurd h0 (Nat.succ_ne_zero n), fun _ => ?_⟩
      · have h6 : q - (x + ((n + 1 : ℕ) : ℚ) * TWO_PI) =
            (q - (rnd32 (rnd64 (x + TWO_PI)) + (n : ℚ) * TWO_PI)) +
            (rnd32 (rnd64 (x + TWO_PI)) - (x + TWO_PI)) := by
          push_cast
          ring
        rw [h6]
        have h7 := abs_add (q - (rnd32 (rnd64 (x + TWO_PI)) + (n : ℚ) * TWO_PI))
          (rnd32 (rnd64 (x + TWO_PI)) - (x + TWO_PI))
        push_cast
        linarith
      · rcases Nat.eq_zero_or_pos n with h0 | h0
        · rw [hn3 h0]
          exact hub
        · exact hn4 h0
    · rw [if_neg hc] at h
      have hq : q = x := (Option.some.inj h).symm
      refine ⟨0, ?_, ?_, fun _ => hq, fun h0 => absurd h0 (lt_irrefl 0)⟩
      · rw [hq]
        simp
      · rw [hq]
        exact not_lt.mp hc

theorem wrapUp_some_of_nonneg (fuel : Nat) (x q : ℚ) (h0 : 0 ≤ x) (h : wrapUp fuel x = some q) :
    q = x := by
  cases fuel with
  | zero =>
    unfold wrapUp at h
    exact absurd h (by simp)
  | succ f =>
    rw [wrapUp_of_nonneg f x h0] at h
    exact (Option.some.inj h).symm

/-- The two loops together: the result lies in `[0, (float)(2π)]` and is the
argument moved by a whole number of turns, up to the rounding of the steps. -/
theorem normalise_spec (k : ℤ) (hk : 3 ≤ k) (fuel : Nat) (x q : ℚ) (hx : |x| ≤ (2 : ℚ) ^ k)
    (h : normalise fuel x = some q) :
    0 ≤ q ∧ q ≤ 13176795 / 2 ^ 21 ∧
    (∃ n : ℤ, |q - (x + (n : ℚ) * TWO_PI)| ≤ |(n : ℚ)| * (2 : ℚ) ^ (k - 23)) ∧
    (0 ≤ x → x ≤ TWO_PI → q = x) := by
  unfold normalise at h
  cases hd : wrapDown fuel x with
  | none =>
    rw [hd] at h
    exact absurd h (by simp)
  | some q1 =>
    rw [hd] at h
    simp only at h
    obtain ⟨n1, a1, a2, a3, a4⟩ := wrapDown_spec k (by omega) fuel x q1 hx hd
    rcases Nat.eq_zero_or_pos n1 with hz | hp
    · have hq1 : q1 = x := a3 hz
      rw [hq1] at h
      obtain ⟨n2, b1, b2, b3, b4⟩ := wrapUp_spec k hk fuel x q hx h
      refine ⟨b2, ?_, ⟨(n2 : ℤ), ?_⟩, ?_⟩
      · rcases Nat.eq_zero_or_pos n2 with hz2 | hp2
        · rw [b3 hz2, ← hq1]
          exact le_trans a2 TWO_PI_le_rnd32
        · exact b4 hp2
      · push_cast
        have hn : |(n2 : ℚ)| = (n2 : ℚ) := abs_of_nonneg (Nat.cast_nonneg n2)
        rw [hn]
        exact b1
      · intro h0 _
        exact wrapUp_some_of_nonneg fuel x q h0 h
    · have hq1 : 0 ≤ q1 := a4 hp
      have hq : q = q1 := wrapUp_some_of_nonneg fuel q1 q hq1 h
      refine ⟨by rw [hq]; exact hq1, by rw [hq]; exact le_trans a2 TWO_PI_le_rnd32,
        ⟨-(n1 : ℤ), ?_⟩, ?_⟩
      · push_cast
        have hn : |(-(n1 : ℚ))| = (n1 : ℚ) := by
          rw [abs_neg]
          exact abs_of_nonneg (Nat.cast_nonneg n1)
        have : q1 - (x + -(n1 : ℚ) * TWO_PI) = q1 - (x - (n1 : ℚ) * TWO_PI) := by ring
        rw [hn, hq, this]
        exact a1
      · intro h0 h1
        have hq1x : wrapDown fuel x = some q1 := hd
        cases fuel with
        | zero =>
          unfold wrapDown at hq1x
          exact absurd hq1x (by simp)
        | succ f =>
          rw [wrapDown_of_le f x h1] at hq1x
          rw [hq, ← Option.some.inj hq1x]

/-! ## The accumulation of line 42 -/

theorem f32_eq_some (x r : ℚ) (h : f32 x = some r) : r = rnd32 x := by
  unfold f32 at h
  simp only at h
  split_ifs at h
  exact (Option.some.inj h).symm

theorem updatePhase_eq_normalise (fuel : Nat) (s phase dt : ℚ) :
    updatePhase fuel s phase dt =
      match accumulate s phase dt with
      | none => none
      | some a => normalise fuel a := rfl

theorem zpow_unit (k : ℤ) (j : ℕ) :
    (2 : ℚ) ^ (k - 25 + (j : ℤ)) = (2 : ℚ) ^ j * (2 : ℚ) ^ (k - 25) := by
  rw [zpow_add₀ (by norm_num : (2 : ℚ) ≠ 0), zpow_natCast]
  ring

theorem angular_velocity_spec (s : ℚ) (h1 : -1 ≤ s) (h2 : s ≤ 1) :
    |angular_velocity s| ≤ 8 ∧ |angular_velocity s - TWO_PI * s| ≤ 1 / 2 ^ 20 := by
  have hT := TWO_PI_pos
  have hT8 := TWO_PI_lt_eight
  have hy : |TWO_PI * s| < (2 : ℚ) ^ (3 : ℤ) := by
    rw [abs_mul, abs_of_pos hT]
    have hs : |s| ≤ 1 := abs_le.mpr ⟨h1, h2⟩
    have : TWO_PI * |s| ≤ TWO_PI * 1 := mul_le_mul_of_nonneg_left hs hT.le
    norm_num
    linarith
  have e1 := rnd64_abs_err (TWO_PI * s) 3 hy (by norm_num)
  have e2 := rnd64_abs_le (TWO_PI * s) 3 hy.le (by norm_num)
  have e3 : |rnd64 (TWO_PI * s)| < (2 : ℚ) ^ (4 : ℤ) :=
    lt_of_le_of_lt e2 (by norm_num)
  have e4 := rnd32_abs_err (rnd64 (TWO_PI * s)) 4 e3 (by norm_num)
  have e5 := rnd32_abs_le (rnd64 (TWO_PI * s)) 3 e2 (by norm_num)
  unfold angular_velocity
  refine ⟨by norm_num at e5; exact e5, ?_⟩
  have h6 : rnd32 (rnd64 (TWO_PI * s)) - TWO_PI * s =
      (rnd32 (rnd64 (TWO_PI * s)) - rnd64 (TWO_PI * s)) + (rnd64 (TWO_PI * s) - TWO_PI * s) := by
    ring
  rw [h6]
  have h7 := abs_add (rnd32 (rnd64 (TWO_PI * s)) - rnd64 (TWO_PI * s))
    (rnd64 (TWO_PI * s) - TWO_PI * s)
  refine le_trans h7 ?_
  norm_num at e1 e4 ⊢
  linarith

theorem accumulate_spec (k : ℤ) (hk : -90 ≤ k) (s phase dt a : ℚ) (h1 : -1 ≤ s) (h2 : s ≤ 1)
    (hp : |phase| ≤ (2 : ℚ) ^ (k - 1)) (hdt : |dt| ≤ (2 : ℚ) ^ (k - 4))
    (h : accumulate s phase dt = some a) :
    |a| ≤ (2 : ℚ) ^ k ∧ |a - (phase + TWO_PI * s * dt)| ≤ (2 : ℚ) ^ (k - 22) := by
  set P : ℚ := (2 : ℚ) ^ (k - 25) with hP
  have hPpos : 0 < P := two_zpow_pos _
  have u1 : (2 : ℚ) ^ (k - 24) = 2 * P := by
    have := zpow_unit k 1
    rw [show k - 25 + ((1 : ℕ) : ℤ) = k - 24 by push_cast; ring] at this
    rw [this]; norm_num
  have u3 : (2 : ℚ) ^ (k - 22) = 8 * P := by
    have := zpow_unit k 3
    rw [show k - 25 + ((3 : ℕ) : ℤ) = k - 22 by push_cast; ring] at this
    rw [this]; norm_num
  have u21 : (2 : ℚ) ^ (k - 4) = 2097152 * P := by
    have := zpow_unit k 21
    rw [show k - 25 + ((21 : ℕ) : ℤ) = k - 4 by push_cast; ring] at this
    rw [this]; norm_num
  have u24 : (2 : ℚ) ^ (k - 1) = 16777216 * P := by
    have := zpow_unit k 24
    rw [show k - 25 + ((24 : ℕ) : ℤ) = k - 1 by push_cast; ring] at this
    rw [this]; norm_num
  have u25 : (2 : ℚ) ^ k = 33554432 * P := by
    have := zpow_unit k 25
    rw [show k - 25 + ((25 : ℕ) : ℤ) = k by push_cast; ring] at this
    rw [this]; norm_num
  have u26 : (2 : ℚ) ^ (k + 1) = 67108864 * P := by
    have := zpow_unit k 26
    rw [show k - 25 + ((26 : ℕ) : ℤ) = k + 1 by push_cast; ring] at this
    rw [this]; norm_num
  obtain ⟨av1, av2⟩ := angular_velocity_spec s h1 h2
  unfold accumulate at h
  cases hd : f32 (angular_velocity s * dt) with
  | none =>
    rw [hd] at h
    exact absurd h (by simp)
  | some d =>
    rw [hd] at h
    simp only at h
    have hd2 := f32_eq_some _ _ hd
    have ha2 := f32_eq_some _ _ h
    have hdtn := abs_nonneg dt
    have hy2 : |angular_velocity s * dt| ≤ (2 : ℚ) ^ (k - 1) := by
      rw [abs_mul, u24]
      rw [u21] at hdt
      have := mul_le_mul av1 hdt hdtn (by norm_num)
      linarith
    have hy2lt : |angular_velocity s * dt| < (2 : ℚ) ^ k := by
      rw [u25]
      rw [u24] at hy2
      linarith
    have d1 := rnd32_abs_err _ k hy2lt (by omega)
    have d2 := rnd32_abs_le _ (k - 1) hy2 (by omega)
    rw [← hd2] at d1 d2
    have hy3 : |phase + d| ≤ (2 : ℚ) ^ k := by
      have := abs_add phase d
      rw [u24] at hp d2
      rw [u25]
      linarith
    have hy3lt : |phase + d| < (2 : ℚ) ^ (k + 1) := by
      rw [u26]
      rw [u25] at hy3
      linarith
    have a1 := rnd32_abs_err _ (k + 1) hy3lt (by omega)
    have a2 := rnd32_abs_le _ k hy3 (by omega)
    rw [← ha2] at a1 a2
    rw [show k + 1 - 25 = k - 24 by ring, u1] at a1
    refine ⟨a2, ?_⟩
    rw [u3]
    have h6 : a - (phase + TWO_PI * s * dt) =
        (a - (phase + d)) + ((d - angular_velocity s * dt) +
          (angular_velocity s - TWO_PI * s) * dt) := by ring
    rw [h6]
    have h7 := abs_add (a - (phase + d))
      ((d - angular_velocity s * dt) + (angular_velocity s - TWO_PI * s) * dt)
    have h8 := abs_add (d - angular_velocity s * dt) ((angular_velocity s - TWO_PI * s) * dt)
    have h9 : |(angular_velocity s - TWO_PI * s) * dt| ≤ 2 * P := by
      rw [abs_mul]
      rw [u21] at hdt
      have := mul_le_mul av2 hdt hdtn (by norm_num)
      linarith
    linarith

/-! ## The range of the brightness value -/

theorem WAVE_AMPLITUDE_eq : WAVE_AMPLITUDE = 13421773 / 2 ^ 25 := by decide!

theorem rnd32_WAVE_AMPLITUDE : rnd32 (13421773 / 2 ^ 25) = 13421773 / 2 ^ 25 := by decide!

theorem base_brightness : rnd32 (1 - 13421773 / 2 ^ 25) = 5033165 / 8388608 := by decide!

theorem rnd32_base_brightness : rnd32 (5033165 / 8388608) = 5033165 / 8388608 := by decide!

theorem least_min_brightness :
    rnd32 (5033165 / 8388608 - 13421773 / 2 ^ 25) = 6710887 / 2 ^ 25 := by decide!

theorem rnd32_least_min_brightness : rnd32 (6710887 / 2 ^ 25) = 6710887 / 2 ^ 25 := by decide!

theorem greatest_max_brightness : rnd32 (5033165 / 8388608 + 13421773 / 2 ^ 25) = 1 := by decide!

theorem rnd32_one_above : rnd32 (1 + 1 / 2 ^ 25) = 1 := by decide!

theorem rnd32_two : rnd32 2 = 2 := by decide!

theorem rnd32_span : rnd32 (1 - -1) = 2 := by decide!

theorem rnd32_255 : rnd32 255 = 255 := by decide!

theorem least_brightness_value : (51 : ℚ) ≤ rnd32 (6710887 / 2 ^ 25 * 255) := by decide!

theorem qabs_unit (s : ℚ) (h1 : -1 ≤ s) (h2 : s ≤ 1) : 0 ≤ qabs s ∧ qabs s ≤ 1 := by
  rw [qabs_eq_abs]
  exact ⟨abs_nonneg s, abs_le.mpr ⟨h1, h2⟩⟩

theorem wave_amplitude_bounds (s : ℚ) (h1 : -1 ≤ s) (h2 : s ≤ 1) :
    0 ≤ wave_amplitude s ∧ wave_amplitude s ≤ 13421773 / 2 ^ 25 := by
  obtain ⟨q0, q1⟩ := qabs_unit s h1 h2
  unfold wave_amplitude
  rw [WAVE_AMPLITUDE_eq]
  have hnn : 0 ≤ qabs s * (13421773 / 2 ^ 25) := mul_nonneg q0 (by norm_num)
  refine ⟨rnd32_nonneg _ hnn, ?_⟩
  have h := rnd32_mono_nonneg _ (13421773 / 2 ^ 25) hnn (by nlinarith)
  rwa [rnd32_WAVE_AMPLITUDE] at h

theorem brightness_range (s : ℚ) (h1 : -1 ≤ s) (h2 : s ≤ 1) :
    6710887 / 2 ^ 25 ≤ min_brightness s ∧ min_brightness s ≤ max_brightness s ∧
    max_brightness s ≤ 1 := by
  obtain ⟨a0, a1⟩ := wave_amplitude_bounds s h1 h2
  unfold min_brightness max_brightness
  rw [WAVE_AMPLITUDE_eq, base_brightness]
  refine ⟨?_, ?_, ?_⟩
  · have h := rnd32_mono_nonneg (5033165 / 8388608 - 13421773 / 2 ^ 25)
      (5033165 / 8388608 - wave_amplitude s) (by norm_num) (by linarith)
    rwa [least_min_brightness] at h
  · exact rnd32_mono_nonneg _ _ (by norm_num at a1 ⊢; linarith) (by linarith)
  · have h := rnd32_mono_nonneg (5033165 / 8388608 + wave_amplitude s)
      (5033165 / 8388608 + 13421773 / 2 ^ 25) (by linarith) (by linarith)
    rwa [greatest_max_brightness] at h

theorem rnd32_unit (x : ℚ) (h1 : -1 ≤ x) (h2 : x ≤ 1) : -1 ≤ rnd32 x ∧ rnd32 x ≤ 1 := by
  have h := rnd32_abs_le x 0 (by simpa using abs_le.mpr ⟨h1, h2⟩) (by norm_num)
  simpa using abs_le.mp h

/-- The value cast to `brightness_scale` lies in `[51, 255]` whenever the sine
lies in `[-1, 1]` and the wave speed is clamped. -/
theorem brightness_value_bounds (sin : ℚ → ℚ) (s phase pos : ℚ) (h1 : -1 ≤ s) (h2 : s ≤ 1)
    (hsin : ∀ x, -1 ≤ sin x ∧ sin x ≤ 1) :
    51 ≤ brightness_value sin s phase pos ∧ brightness_value sin s phase pos ≤ 255 := by
  obtain ⟨m1, m2, m3⟩ := brightness_range s h1 h2
  obtain ⟨w1, w2⟩ : -1 ≤ wave_value sin phase pos ∧ wave_value sin phase pos ≤ 1 := by
    unfold wave_value
    exact rnd32_unit _ (hsin _).1 (hsin _).2
  unfold brightness_value remap
  set w := wave_value sin phase pos with hw
  set mn := min_brightness s with hmn
  set mx := max_brightness s with hmx
  rw [rnd32_span]
  -- the factors of the product
  have t1a : 0 ≤ rnd32 (w - -1) := rnd32_nonneg _ (by linarith)
  have t1b : rnd32 (w - -1) ≤ 2 := by
    have h := rnd32_mono_nonneg (w - -1) 2 (by linarith) (by linarith)
    rwa [rnd32_two] at h
  have da : 0 ≤ rnd32 (mx - mn) := rnd32_nonneg _ (by linarith)
  have db : rnd32 (mx - mn) ≤ mx - mn + 1 / 2 ^ 25 := by
    have habs : |mx - mn| < (2 : ℚ) ^ (0 : ℤ) := by
      rw [abs_of_nonneg (by linarith)]
      norm_num at m1 ⊢
      linarith
    have h := rnd32_abs_err (mx - mn) 0 habs (by norm_num)
    have h' := (abs_le.mp h).2
    norm_num at h' ⊢
    linarith
  -- the product, halved
  have p0 : 0 ≤ rnd32 (w - -1) * rnd32 (mx - mn) := mul_nonneg t1a da
  have t3a : 0 ≤ rnd32 (rnd32 (w - -1) * rnd32 (mx - mn)) := rnd32_nonneg _ p0
  have t3b : rnd32 (rnd32 (w - -1) * rnd32 (mx - mn)) ≤ 2 * rnd32 (mx - mn) := by
    have h := rnd32_mono_nonneg _ (2 * rnd32 (mx - mn)) p0
      (mul_le_mul_of_nonneg_right t1b da)
    rwa [rnd32_double] at h
  have t4a : 0 ≤ rnd32 (rnd32 (rnd32 (w - -1) * rnd32 (mx - mn)) / 2) :=
    rnd32_nonneg _ (by linarith)
  have t4b : rnd32 (rnd32 (rnd32 (w - -1) * rnd32 (mx - mn)) / 2) ≤ rnd32 (mx - mn) := by
    have h := rnd32_mono_nonneg (rnd32 (rnd32 (w - -1) * rnd32 (mx - mn)) / 2)
      (rnd32 (mx - mn)) (by linarith) (by linarith)
    rwa [rnd32_idem] at h
  set t4 := rnd32 (rnd32 (rnd32 (w - -1) * rnd32 (mx - mn)) / 2) with ht4
  -- the sum with the lower end
  have m1' : (0 : ℚ) ≤ 6710887 / 2 ^ 25 := by norm_num
  have t5a : 6710887 / 2 ^ 25 ≤ rnd32 (t4 + mn) := by
    have h := rnd32_mono_nonneg (6710887 / 2 ^ 25) (t4 + mn) m1' (by linarith)
    rwa [rnd32_least_min_brightness] at h
  have t5b : rnd32 (t4 + mn) ≤ 1 := by
    have h := rnd32_mono_nonneg (t4 + mn) (1 + 1 / 2 ^ 25) (by linarith) (by linarith)
    rwa [rnd32_one_above] at h
  -- times 255
  constructor
  · have h := rnd32_mono_nonneg (6710887 / 2 ^ 25 * 255) (rnd32 (t4 + mn) * 255)
      (by norm_num) (by linarith)
    exact le_trans least_brightness_value h
  · have h := rnd32_mono_nonneg (rnd32 (t4 + mn) * 255) 255 (by linarith) (by linarith)
    rwa [rnd32_255] at h

theorem toU8_cast (x : ℚ) (h0 : 0 ≤ x) (h1 : x < 256) : (((toU8 x : Fin 256) : ℕ) : ℤ) = ⌊x⌋ := by
  have hf0 : 0 ≤ ⌊x⌋ := Int.floor_nonneg.mpr h0
  have hf1 : ⌊x⌋ < 256 := Int.floor_lt.mpr (by exact_mod_cast h1)
  unfold toU8 truncInt
  simp only [if_pos h0]
  omega

theorem brightness_scale_eq (sin : ℚ → ℚ) (s phase pos : ℚ) :
    brightness_scale sin s phase pos = toU8 (brightness_value sin s phase pos) := rfl

theorem brightness_scale_ge (sin : ℚ → ℚ) (s phase pos : ℚ) (h1 : -1 ≤ s) (h2 : s ≤ 1)
    (hsin : ∀ x, -1 ≤ sin x ∧ sin x ≤ 1) :
    51 ≤ ((brightness_scale sin s phase pos : Fin 256) : ℕ) := by
  obtain ⟨b1, b2⟩ := brightness_value_bounds sin s phase pos h1 h2 hsin
  have hc := toU8_cast (brightness_value sin s phase pos) (by linarith) (by linarith)
  rw [brightness_scale_eq]
  have hf : (51 : ℤ) ≤ ⌊brightness_value sin s phase pos⌋ := Int.le_floor.mpr (by exact_mod_cast b1)
  omega

theorem clamp_wave_bounds (ws : ℚ) : -1 ≤ clamp ws (-1) 1 ∧ clamp ws (-1) 1 ≤ 1 := by
  unfold clamp
  split_ifs with a b
  · exact ⟨le_rfl, by norm_num⟩
  · exact ⟨by norm_num, le_rfl⟩
  · exact ⟨not_lt.mp a, not_lt.mp b⟩

/-! ## The range of the gradient value -/

theorem rnd32_half : rnd32 (1 / 2) = 1 / 2 := by decide!

theorem rnd32_upper_half : rnd32 (1 - 1 / 2) = 1 / 2 := by decide!

theorem rnd32_below_half : rnd32 (1 / 2 - 1 / 2 ^ 25) = 1 / 2 - 1 / 2 ^ 25 := by decide!

theorem rnd32_below_one : rnd32 (1 - 1 / 2 ^ 24) = 1 - 1 / 2 ^ 24 := by decide!

theorem rnd32_below_one_sub_half : rnd32 (1 - 1 / 2 ^ 24 - 1 / 2) = 1 / 2 - 1 / 2 ^ 24 := by
  decide!

theorem gradient_chain_first_half :
    rnd32 (rnd32 (rnd32 ((1 / 2 - 1 / 2 ^ 25) * 255) / (1 / 2))) < 255 := by decide!

theorem gradient_chain_second_half :
    rnd32 (rnd32 (rnd32 ((1 / 2 - 1 / 2 ^ 24) * 255) / (1 / 2))) < 255 := by decide!

/-- The last three operations of `remap(·, lo, hi, 0, 255)` with `hi - lo = 0.5`,
on an argument already reduced by `lo`: they are monotone. -/
theorem gradient_chain_bounds (x c : ℚ) (h0 : 0 ≤ x) (hc : x ≤ c) :
    0 ≤ rnd32 (rnd32 (rnd32 (x * 255) / (1 / 2)) + 0) ∧
    rnd32 (rnd32 (rnd32 (x * 255) / (1 / 2)) + 0) ≤
      rnd32 (rnd32 (rnd32 (c * 255) / (1 / 2))) := by
  have a0 : 0 ≤ x * 255 := by linarith
  have a1 : 0 ≤ rnd32 (x * 255) := rnd32_nonneg _ a0
  have a2 : rnd32 (x * 255) ≤ rnd32 (c * 255) := rnd32_mono_nonneg _ _ a0 (by linarith)
  have b0 : 0 ≤ rnd32 (x * 255) / (1 / 2) := by linarith
  have b1 : 0 ≤ rnd32 (rnd32 (x * 255) / (1 / 2)) := rnd32_nonneg _ b0
  have b2 : rnd32 (rnd32 (x * 255) / (1 / 2)) ≤ rnd32 (rnd32 (c * 255) / (1 / 2)) :=
    rnd32_mono_nonneg _ _ b0 (by linarith)
  rw [add_zero]
  exact ⟨rnd32_nonneg _ b1, rnd32_mono_nonneg _ _ b1 b2⟩

theorem position_eq (i n : Nat) (hi : i < n) (hn : n ≤ 2 ^ 24) :
    position i n = rnd32 ((i : ℚ) / (n : ℚ)) := by
  unfold position
  rw [rnd32_natCast i (by omega), rnd32_natCast n hn]

theorem position_nonneg (i n : Nat) : 0 ≤ position i n := by
  unfold position
  exact rnd32_nonneg _ (div_nonneg (rnd32_nonneg _ (Nat.cast_nonneg i))
    (rnd32_nonneg _ (Nat.cast_nonneg n)))

/-- In the first half the position is at most the `float` below `0.5`. -/
theorem position_first_half (i n : Nat) (hi : i < n) (hn : n ≤ 2 ^ 24)
    (h : position i n < 1 / 2) : position i n ≤ 1 / 2 - 1 / 2 ^ 25 := by
  have hnpos : (0 : ℚ) < (n : ℚ) := by exact_mod_cast (by omega : 0 < n)
  rw [position_eq i n hi hn] at h ⊢
  have hq0 : (0 : ℚ) ≤ (i : ℚ) / (n : ℚ) := div_nonneg (Nat.cast_nonneg i) hnpos.le
  have hlt : 2 * i < n := by
    by_contra hcon
    push_neg at hcon
    have h2 : (1 / 2 : ℚ) ≤ (i : ℚ) / (n : ℚ) := by
      rw [le_div_iff₀ hnpos]
      have : (n : ℚ) ≤ 2 * (i : ℚ) := by exact_mod_cast hcon
      linarith
    have h3 := rnd32_mono_nonneg (1 / 2) _ (by norm_num) h2
    rw [rnd32_half] at h3
    linarith
  have hle : (i : ℚ) / (n : ℚ) ≤ 1 / 2 - 1 / 2 ^ 25 := by
    rw [div_le_iff₀ hnpos]
    have h1 : (2 * (i : ℚ) + 1) ≤ (n : ℚ) := by exact_mod_cast hlt
    have hn' : n ≤ 16777216 := by
      have := hn
      norm_num at this
      exact this
    have h2 : (n : ℚ) ≤ 16777216 := by exact_mod_cast hn'
    norm_num
    linarith
  have h4 := rnd32_mono_nonneg _ _ hq0 hle
  rwa [rnd32_below_half] at h4

theorem position_le_below_one (i n : Nat) (hi : i < n) (hn : n ≤ 2 ^ 24) :
    position i n ≤ 1 - 1 / 2 ^ 24 := by
  have hnpos : (0 : ℚ) < (n : ℚ) := by exact_mod_cast (by omega : 0 < n)
  rw [position_eq i n hi hn]
  have hq0 : (0 : ℚ) ≤ (i : ℚ) / (n : ℚ) := div_nonneg (Nat.cast_nonneg i) hnpos.le
  have hle : (i : ℚ) / (n : ℚ) ≤ 1 - 1 / 2 ^ 24 := by
    rw [div_le_iff₀ hnpos]
    have h1 : ((i : ℚ) + 1) ≤ (n : ℚ) := by exact_mod_cast hi
    have hn' : n ≤ 16777216 := by
      have := hn
      norm_num at this
      exact this
    have h2 : (n : ℚ) ≤ 16777216 := by exact_mod_cast hn'
    norm_num
    linarith
  have h4 := rnd32_mono_nonneg _ _ hq0 hle
  rwa [rnd32_below_one] at h4

theorem gradient_value_bounds (i n : Nat) (hi : i < n) (hn : n ≤ 2 ^ 24) :
    0 ≤ gradient_value (position i n) ∧ gradient_value (position i n) < 255 := by
  have hp0 := position_nonneg i n
  unfold gradient_value remap
  by_cases h : position i n < 1 / 2
  · rw [if_pos h]
    have hp1 := position_first_half i n hi hn h
    simp only [sub_zero]
    rw [rnd32_255, rnd32_half]
    have x0 : 0 ≤ rnd32 (position i n) := rnd32_nonneg _ hp0
    have x1 : rnd32 (position i n) ≤ 1 / 2 - 1 / 2 ^ 25 := by
      have := rnd32_mono_nonneg _ _ hp0 hp1
      rwa [rnd32_below_half] at this
    obtain ⟨c0, c1⟩ := gradient_chain_bounds _ _ x0 x1
    exact ⟨c0, lt_of_le_of_lt c1 gradient_chain_first_half⟩
  · rw [if_neg h]
    have hp1 := position_le_below_one i n hi hn
    have hge : 1 / 2 ≤ position i n := not_lt.mp h
    simp only [sub_zero]
    rw [rnd32_255, rnd32_upper_half]
    have x0 : 0 ≤ rnd32 (position i n - 1 / 2) := rnd32_nonneg _ (by linarith)
    have x1 : rnd32 (position i n - 1 / 2) ≤ 1 / 2 - 1 / 2 ^ 24 := by
      have := rnd32_mono_nonneg (position i n - 1 / 2) (1 - 1 / 2 ^ 24 - 1 / 2) (by linarith)
        (by linarith)
      rwa [rnd32_below_one_sub_half] at this
    obtain ⟨c0, c1⟩ := gradient_chain_bounds _ _ x0 x1
    exact ⟨c0, lt_of_le_of_lt c1 gradient_chain_second_half⟩

theorem base_color_eq (c1 c2 c3 : Color) (pos : ℚ) :
    base_color c1 c2 c3 pos =
      if pos < 1 / 2 then c1.gradient c2 (toU8 (gradient_value pos))
      else c2.gradient c3 (toU8 (gradient_value pos)) := by
  unfold base_color gradient_value
  split_ifs <;> rfl

/-! ## The gradient byte against the exact remap -/

/-- A value within less than `1/n` of the fraction `a/n` has the floor of `a/n`
or, only if `a/n` is an integer, one less. -/
theorem floor_near (a : ℤ) (n : ℕ) (v E : ℚ) (hn : 0 < n) (hv : |v - (a : ℚ) / (n : ℚ)| ≤ E)
    (hE : E < 1 / (n : ℚ)) :
    ⌊(a : ℚ) / (n : ℚ)⌋ - 1 ≤ ⌊v⌋ ∧ ⌊v⌋ ≤ ⌊(a : ℚ) / (n : ℚ)⌋ ∧
    (¬ (n : ℤ) ∣ a → ⌊v⌋ = ⌊(a : ℚ) / (n : ℚ)⌋) := by
  have hnq : (0 : ℚ) < (n : ℚ) := by exact_mod_cast hn
  have hnz : (0 : ℤ) < (n : ℤ) := by exact_mod_cast hn
  have hfl : ⌊(a : ℚ) / (n : ℚ)⌋ = a / (n : ℤ) := Rat.floor_intCast_div_natCast a n
  have hdm : (n : ℤ) * (a / (n : ℤ)) + a % (n : ℤ) = a := Int.ediv_add_emod a n
  have hm0 : 0 ≤ a % (n : ℤ) := Int.emod_nonneg a (by omega)
  have hm1 : a % (n : ℤ) < (n : ℤ) := Int.emod_lt_of_pos a hnz
  have hx : (a : ℚ) / (n : ℚ) = ((a / (n : ℤ) : ℤ) : ℚ) + ((a % (n : ℤ) : ℤ) : ℚ) / (n : ℚ) := by
    rw [eq_comm, add_div' _ _ _ hnq.ne.symm]
    congr 1
    have : ((a / (n : ℤ) : ℤ) : ℚ) * (n : ℚ) + ((a % (n : ℤ) : ℤ) : ℚ) = (a : ℚ) := by
      have h := congrArg (fun z : ℤ => (z : ℚ)) hdm
      simp only at h
      push_cast at h
      linarith
    exact this
  obtain ⟨v1, v2⟩ := abs_le.mp hv
  have hr0 : (0 : ℚ) ≤ ((a % (n : ℤ) : ℤ) : ℚ) / (n : ℚ) :=
    div_nonneg (by exact_mod_cast hm0) hnq.le
  have hr1 : ((a % (n : ℤ) : ℤ) : ℚ) / (n : ℚ) ≤ 1 - 1 / (n : ℚ) := by
    rw [div_le_iff₀ hnq, sub_mul, one_div, inv_mul_cancel₀ hnq.ne.symm, one_mul]
    have : a % (n : ℤ) ≤ (n : ℤ) - 1 := by omega
    exact_mod_cast this
  have hn1 : 1 / (n : ℚ) ≤ 1 := by
    rw [div_le_iff₀ hnq]
    have : (1 : ℚ) ≤ (n : ℚ) := by exact_mod_cast hn
    linarith
  rw [hfl]
  refine ⟨?_, ?_, ?_⟩
  · apply Int.le_floor.mpr
    push_cast
    linarith
  · have : ⌊v⌋ < a / (n : ℤ) + 1 := by
      apply Int.floor_lt.mpr
      push_cast
      linarith
    omega
  · intro hdiv
    have hm2 : 1 ≤ a % (n : ℤ) := by
      rcases Int.lt_or_lt_of_ne (fun h : a % (n : ℤ) = 0 => hdiv (Int.dvd_of_emod_eq_zero h))
        with h | h <;> omega
    have hr2 : 1 / (n : ℚ) ≤ ((a % (n : ℤ) : ℤ) : ℚ) / (n : ℚ) := by
      apply div_le_div_of_nonneg_right _ hnq.le
      exact_mod_cast hm2
    have h1 : a / (n : ℤ) ≤ ⌊v⌋ := by
      apply Int.le_floor.mpr
      linarith
    have h2 : ⌊v⌋ < a / (n : ℤ) + 1 := by
      apply Int.floor_lt.mpr
      push_cast
      linarith
    omega

theorem rnd32_position (i n : Nat) : rnd32 (position i n) = position i n := by
  unfold position
  exact rnd32_idem _

theorem gradient_value_first (i n : Nat) (h : position i n < 1 / 2) :
    gradient_value (position i n) = 2 * rnd32 (position i n * 255) := by
  unfold gradient_value remap
  rw [if_pos h]
  simp only [sub_zero, add_zero]
  rw [rnd32_position, rnd32_255, rnd32_half]
  have e : rnd32 (position i n * 255) / (1 / 2) = 2 * rnd32 (position i n * 255) := by ring
  rw [e, rnd32_double, rnd32_double]

theorem gradient_value_second (i n : Nat) (h : ¬ position i n < 1 / 2) :
    gradient_value (position i n) = 2 * rnd32 (rnd32 (position i n - 1 / 2) * 255) := by
  unfold gradient_value remap
  rw [if_neg h]
  simp only [sub_zero, add_zero]
  rw [rnd32_255, rnd32_upper_half]
  have e : rnd32 (rnd32 (position i n - 1 / 2) * 255) / (1 / 2) =
      2 * rnd32 (rnd32 (position i n - 1 / 2) * 255) := by ring
  rw [e, rnd32_double, rnd32_double]

theorem position_err (i n : Nat) (hi : i < n) (hn : n ≤ 2 ^ 24) :
    |position i n - (i : ℚ) / (n : ℚ)| ≤ 1 / 2 ^ 25 := by
  have hnpos : (0 : ℚ) < (n : ℚ) := by exact_mod_cast (by omega : 0 < n)
  rw [position_eq i n hi hn]
  have hlt : |(i : ℚ) / (n : ℚ)| < (2 : ℚ) ^ (0 : ℤ) := by
    rw [abs_of_nonneg (div_nonneg (Nat.cast_nonneg i) hnpos.le), zpow_zero, div_lt_one hnpos]
    exact_mod_cast hi
  have h := rnd32_abs_err _ 0 hlt (by norm_num)
  norm_num at h ⊢
  exact h

theorem position_half_iff (i n : Nat) (hi : i < n) (hn : n ≤ 2 ^ 24) :
    position i n < 1 / 2 ↔ 2 * i < n := by
  have hnpos : (0 : ℚ) < (n : ℚ) := by exact_mod_cast (by omega : 0 < n)
  constructor
  · intro h
    by_contra hcon
    push_neg at hcon
    have h2 : (1 / 2 : ℚ) ≤ (i : ℚ) / (n : ℚ) := by
      rw [le_div_iff₀ hnpos]
      have : (n : ℚ) ≤ 2 * (i : ℚ) := by exact_mod_cast hcon
      linarith
    have h3 := rnd32_mono_nonneg (1 / 2) _ (by norm_num) h2
    rw [rnd32_half, ← position_eq i n hi hn] at h3
    linarith
  · intro h
    have hle : (i : ℚ) / (n : ℚ) ≤ 1 / 2 - 1 / 2 ^ 25 := by
      rw [div_le_iff₀ hnpos]
      have h1 : (2 * (i : ℚ) + 1) ≤ (n : ℚ) := by exact_mod_cast h
      have hn' : n ≤ 16777216 := by
        have := hn
        norm_num at this
        exact this
      have h2 : (n : ℚ) ≤ 16777216 := by exact_mod_cast hn'
      norm_num
      linarith
    have h4 := rnd32_mono_nonneg _ _ (div_nonneg (Nat.cast_nonneg i) hnpos.le) hle
    rw [rnd32_below_half, ← position_eq i n hi hn] at h4
    have : (0 : ℚ) < 1 / 2 ^ 25 := by norm_num
    linarith

/-- First half: the value cast to `gradient_pos` against `510 * i / N`. -/
theorem gradient_value_first_err (i n : Nat) (hi : i < n) (hn : n ≤ 2 ^ 24)
    (h : position i n < 1 / 2) :
    |gradient_value (position i n) - ((510 * (i : ℤ) : ℤ) : ℚ) / (n : ℚ)| ≤ 1 / 2 ^ 15 := by
  have hp0 := position_nonneg i n
  obtain ⟨p1, p2⟩ := abs_le.mp (position_err i n hi hn)
  rw [gradient_value_first i n h]
  have hlt : |position i n * 255| < (2 : ℚ) ^ (7 : ℤ) := by
    rw [abs_of_nonneg (by linarith)]
    norm_num
    linarith
  obtain ⟨u1, u2⟩ := abs_le.mp (rnd32_abs_err _ 7 hlt (by norm_num))
  norm_num at u1 u2 p1 p2
  have e : ((510 * (i : ℤ) : ℤ) : ℚ) / (n : ℚ) = 510 * ((i : ℚ) / (n : ℚ)) := by
    push_cast
    ring
  rw [e, abs_le]
  norm_num
  constructor <;> linarith

/-- Second half: the value cast to `gradient_pos` against `510 * i / N - 255`. -/
theorem gradient_value_second_err (i n : Nat) (hi : i < n) (hn : n ≤ 2 ^ 24)
    (h : ¬ position i n < 1 / 2) :
    |gradient_value (position i n) - ((510 * (i : ℤ) - 255 * (n : ℤ) : ℤ) : ℚ) / (n : ℚ)| ≤
      319 / 2 ^ 23 := by
  have hnpos : (0 : ℚ) < (n : ℚ) := by exact_mod_cast (by omega : 0 < n)
  have hge : 1 / 2 ≤ position i n := not_lt.mp h
  have hle := position_le_below_one i n hi hn
  obtain ⟨p1, p2⟩ := abs_le.mp (position_err i n hi hn)
  rw [gradient_value_second i n h]
  have hd : |position i n - 1 / 2| ≤ (2 : ℚ) ^ (-1 : ℤ) := by
    rw [abs_of_nonneg (by linarith)]
    norm_num at hle ⊢
    linarith
  have hdlt : |position i n - 1 / 2| < (2 : ℚ) ^ (0 : ℤ) := by
    refine lt_of_le_of_lt hd ?_
    norm_num
  obtain ⟨t1, t2⟩ := abs_le.mp (rnd32_abs_err _ 0 hdlt (by norm_num))
  have t3 := rnd32_abs_le _ (-1) hd (by norm_num)
  have t0 : 0 ≤ rnd32 (position i n - 1 / 2) := rnd32_nonneg _ (by linarith)
  rw [abs_of_nonneg t0] at t3
  have hlt : |rnd32 (position i n - 1 / 2) * 255| < (2 : ℚ) ^ (7 : ℤ) := by
    rw [abs_of_nonneg (by linarith)]
    norm_num at t3 ⊢
    linarith
  obtain ⟨u1, u2⟩ := abs_le.mp (rnd32_abs_err _ 7 hlt (by norm_num))
  norm_num at u1 u2 p1 p2 t1 t2
  have e : ((510 * (i : ℤ) - 255 * (n : ℤ) : ℤ) : ℚ) / (n : ℚ) =
      510 * ((i : ℚ) / (n : ℚ)) - 255 := by
    push_cast
    field_simp
    ring
  rw [e, abs_le]
  norm_num
  constructor <;> linarith

theorem gradient_byte_cast (i n : Nat) (hi : i < n) (hn : n ≤ 2 ^ 24) :
    (((toU8 (gradient_value (position i n)) : Fin 256) : ℕ) : ℤ) =
      ⌊gradient_value (position i n)⌋ := by
  obtain ⟨g0, g1⟩ := gradient_value_bounds i n hi hn
  exact toU8_cast _ g0 (by linarith)

/-! ## The brightness value against the exact formula -/

theorem abs_mul_sub_le (a b a0 b0 A B ea eb : ℚ) (hA : |a| ≤ A) (hB : |b0| ≤ B)
    (ha : |a - a0| ≤ ea) (hb : |b - b0| ≤ eb) : |a * b - a0 * b0| ≤ A * eb + B * ea := by
  have e : a * b - a0 * b0 = a * (b - b0) + b0 * (a - a0) := by ring
  rw [e]
  have h1 := abs_add (a * (b - b0)) (b0 * (a - a0))
  rw [abs_mul, abs_mul] at h1
  have h2 : |a| * |b - b0| ≤ A * eb :=
    mul_le_mul hA hb (abs_nonneg _) (le_trans (abs_nonneg a) hA)
  have h3 : |b0| * |a - a0| ≤ B * ea :=
    mul_le_mul hB ha (abs_nonneg _) (le_trans (abs_nonneg b0) hB)
  linarith

/-- The value cast to `brightness_scale` is within `2^-12` of
`255 * (0.6 + 0.4 * |s| * w)`, for the clamped speed `s` and the sine value `w`. -/
theorem brightness_value_err (sin : ℚ → ℚ) (s phase pos : ℚ) (h1 : -1 ≤ s) (h2 : s ≤ 1)
    (hsin : ∀ x, -1 ≤ sin x ∧ sin x ≤ 1) :
    |brightness_value sin s phase pos -
      255 * (6 / 10 + 4 / 10 * |s| * wave_value sin phase pos)| ≤ 1 / 2 ^ 12 := by
  obtain ⟨m1, m2, m3⟩ := brightness_range s h1 h2
  obtain ⟨a0, a1⟩ := wave_amplitude_bounds s h1 h2
  obtain ⟨q0, q1⟩ := qabs_unit s h1 h2
  obtain ⟨w1, w2⟩ : -1 ≤ wave_value sin phase pos ∧ wave_value sin phase pos ≤ 1 := by
    unfold wave_value
    exact rnd32_unit _ (hsin _).1 (hsin _).2
  rw [← qabs_eq_abs s]
  -- the amplitude
  have ewa : |wave_amplitude s - qabs s * (13421773 / 2 ^ 25)| ≤ 1 / 2 ^ 26 := by
    unfold wave_amplitude
    rw [WAVE_AMPLITUDE_eq]
    have hlt : |qabs s * (13421773 / 2 ^ 25)| < (2 : ℚ) ^ (-1 : ℤ) := by
      rw [abs_of_nonneg (mul_nonneg q0 (by norm_num))]
      norm_num
      linarith
    have h := rnd32_abs_err _ (-1) hlt (by norm_num)
    norm_num at h ⊢
    exact h
  obtain ⟨wa1, wa2⟩ := abs_le.mp ewa
  -- the two ends of the brightness range
  have emn : |min_brightness s - (5033165 / 8388608 - wave_amplitude s)| ≤ 1 / 2 ^ 25 := by
    unfold min_brightness
    rw [WAVE_AMPLITUDE_eq, base_brightness]
    have hlt : |5033165 / 8388608 - wave_amplitude s| < (2 : ℚ) ^ (0 : ℤ) := by
      rw [abs_of_nonneg (by norm_num at a1 ⊢; linarith)]
      norm_num
      linarith
    have h := rnd32_abs_err _ 0 hlt (by norm_num)
    norm_num at h ⊢
    exact h
  have emx : |max_brightness s - (5033165 / 8388608 + wave_amplitude s)| ≤ 1 / 2 ^ 24 := by
    unfold max_brightness
    rw [WAVE_AMPLITUDE_eq, base_brightness]
    have hlt : |5033165 / 8388608 + wave_amplitude s| < (2 : ℚ) ^ (1 : ℤ) := by
      rw [abs_of_nonneg (by linarith)]
      norm_num at a1 ⊢
      linarith
    have h := rnd32_abs_err _ 1 hlt (by norm_num)
    norm_num at h ⊢
    exact h
  obtain ⟨mn1, mn2⟩ := abs_le.mp emn
  obtain ⟨mx1, mx2⟩ := abs_le.mp emx
  unfold brightness_value remap
  set w := wave_value sin phase pos with hw
  set mn := min_brightness s with hmn
  set mx := max_brightness s with hmx
  set wa := wave_amplitude s with hwa
  set σ := qabs s with hσ
  rw [rnd32_span]
  norm_num at m1 a1 wa1 wa2 mn1 mn2 mx1 mx2
  -- the shifted sine
  have t1e : |rnd32 (w - -1) - (w + 1)| ≤ 1 / 2 ^ 23 := by
    have hlt : |w - -1| < (2 : ℚ) ^ (2 : ℤ) := by
      rw [abs_of_nonneg (by linarith)]
      norm_num
      linarith
    have h := rnd32_abs_err _ 2 hlt (by norm_num)
    norm_num at h ⊢
    exact h
  have t1b : |rnd32 (w - -1)| ≤ 2 := by
    have hle : |w - -1| ≤ (2 : ℚ) ^ (1 : ℤ) := by
      rw [abs_of_nonneg (by linarith)]
      norm_num
      linarith
    have h := rnd32_abs_le _ 1 hle (by norm_num)
    norm_num at h ⊢
    exact h
  -- the width of the range
  have dnn : 0 ≤ mx - mn := by linarith
  have dle : mx - mn ≤ 4 / 5 := by linarith
  have de : |rnd32 (mx - mn) - 8 / 10 * σ| ≤ 1 / 2 ^ 22 := by
    have hlt : |mx - mn| < (2 : ℚ) ^ (0 : ℤ) := by
      rw [abs_of_nonneg dnn]
      norm_num
      linarith
    obtain ⟨d1, d2⟩ := abs_le.mp (rnd32_abs_err _ 0 hlt (by norm_num))
    norm_num at d1 d2
    rw [abs_le]
    norm_num
    constructor <;> linarith
  have dB : |8 / 10 * σ| ≤ 4 / 5 := by
    rw [abs_of_nonneg (by linarith)]
    linarith
  -- the product
  have pe := abs_mul_sub_le (rnd32 (w - -1)) (rnd32 (mx - mn)) (w + 1) (8 / 10 * σ) 2 (4 / 5)
    (1 / 2 ^ 23) (1 / 2 ^ 22) t1b dB t1e de
  obtain ⟨d1, d2⟩ := abs_le.mp de
  have plt : |rnd32 (w - -1) * rnd32 (mx - mn)| < (2 : ℚ) ^ (1 : ℤ) := by
    rw [abs_mul]
    have hd : |rnd32 (mx - mn)| ≤ 9 / 10 := by
      rw [abs_le]
      norm_num at d1 d2 ⊢
      constructor <;> linarith
    have := mul_le_mul t1b hd (abs_nonneg _) (by norm_num)
    have h2 : (2 : ℚ) ^ (1 : ℤ) = 2 := by norm_num
    rw [h2]
    linarith
  obtain ⟨p1, p2⟩ := abs_le.mp pe
  obtain ⟨r1, r2⟩ := abs_le.mp (rnd32_abs_err _ 1 plt (by norm_num))
  have t3b := rnd32_abs_le _ 1 plt.le (by norm_num)
  set t3 := rnd32 (rnd32 (w - -1) * rnd32 (mx - mn)) with ht3
  -- halved
  have hlt4 : |t3 / 2| < (2 : ℚ) ^ (1 : ℤ) := by
    rw [abs_div]
    norm_num at t3b ⊢
    linarith
  have hle4 : |t3 / 2| ≤ (2 : ℚ) ^ (0 : ℤ) := by
    rw [abs_div]
    norm_num at t3b ⊢
    linarith
  obtain ⟨s1, s2⟩ := abs_le.mp (rnd32_abs_err _ 1 hlt4 (by norm_num))
  have t4b := rnd32_abs_le _ 0 hle4 (by norm_num)
  set t4 := rnd32 (t3 / 2) with ht4
  obtain ⟨t4l, t4u⟩ := abs_le.mp t4b
  -- plus the lower end
  have hlt5 : |t4 + mn| < (2 : ℚ) ^ (2 : ℤ) := by
    rw [abs_lt]
    norm_num at t4l t4u ⊢
    constructor <;> linarith
  have hle5 : |t4 + mn| ≤ (2 : ℚ) ^ (1 : ℤ) := by
    rw [abs_le]
    norm_num at t4l t4u ⊢
    constructor <;> linarith
  obtain ⟨v1, v2⟩ := abs_le.mp (rnd32_abs_err _ 2 hlt5 (by norm_num))
  have t5b := rnd32_abs_le _ 1 hle5 (by norm_num)
  set t5 := rnd32 (t4 + mn) with ht5
  obtain ⟨t5l, t5u⟩ := abs_le.mp t5b
  -- times 255
  have hlt6 : |t5 * 255| < (2 : ℚ) ^ (9 : ℤ) := by
    rw [abs_lt]
    norm_num at t5l t5u ⊢
    constructor <;> linarith
  obtain ⟨z1, z2⟩ := abs_le.mp (rnd32_abs_err _ 9 hlt6 (by norm_num))
  norm_num at p1 p2 r1 r2 s1 s2 v1 v2 z1 z2
  rw [abs_le]
  norm_num
  constructor <;> linarith

/-! ## What an accurate sine returns at two phases -/

theorem quarter_turn_argument :
    rnd32 (13176795 / 2 ^ 23 - wave_shift 0) = 13176795 / 2 ^ 23 := by decide!

theorem sixth_turn_argument :
    rnd32 (4392265 / 8388608 - wave_shift 0) = 4392265 / 8388608 := by decide!

theorem rnd32_below_one_tie : rnd32 (1 - 1 / 2 ^ 25) = 1 := by decide!

theorem rnd32_above_one_tie : rnd32 (1 + 1 / 2 ^ 24) = 1 := by decide!

theorem rnd32_near_half_below : rnd32 (1 / 2 - 1 / 2 ^ 28) = 1 / 2 := by decide!

theorem rnd32_near_half_above : rnd32 (1 / 2 + 7 / 2 ^ 28) = 1 / 2 := by decide!

/-- At the `float` nearest to `π/2` every sine that is accurate to `2^-26`
returns, as a `float`, `1.0f`. -/
theorem wave_value_quarter_turn (sin : ℚ → ℚ)
    (h : |((sin (13176795 / 2 ^ 23) : ℚ) : ℝ) - Real.sin (((13176795 / 2 ^ 23 : ℚ)) : ℝ)| ≤
      1 / 2 ^ 26) :
    wave_value sin (13176795 / 2 ^ 23) 0 = 1 := by
  unfold wave_value
  rw [quarter_turn_argument]
  set y : ℚ := sin (13176795 / 2 ^ 23) with hy
  have hlo := Real.pi_gt_d20
  have hhi := Real.pi_lt_d20
  have hs1 := Real.sin_le_one (((13176795 / 2 ^ 23 : ℚ)) : ℝ)
  have hs0 : 1 - 1 / 2 ^ 27 ≤ Real.sin (((13176795 / 2 ^ 23 : ℚ)) : ℝ) := by
    rw [← Real.cos_sub_pi_div_two]
    have hc := Real.one_sub_sq_div_two_le_cos
      (x := (((13176795 / 2 ^ 23 : ℚ)) : ℝ) - Real.pi / 2)
    have hd1 : (((13176795 / 2 ^ 23 : ℚ)) : ℝ) - Real.pi / 2 ≤ 1 / 10 ^ 7 := by
      push_cast
      norm_num at hlo ⊢
      linarith
    have hd0 : 0 ≤ (((13176795 / 2 ^ 23 : ℚ)) : ℝ) - Real.pi / 2 := by
      push_cast
      norm_num at hhi ⊢
      linarith
    have hsq : ((((13176795 / 2 ^ 23 : ℚ)) : ℝ) - Real.pi / 2) ^ 2 ≤ (1 / 10 ^ 7) ^ 2 :=
      pow_le_pow_left₀ hd0 hd1 2
    norm_num at hsq ⊢
    linarith
  obtain ⟨a1, a2⟩ := abs_le.mp h
  have b1 : (1 - 1 / 2 ^ 25 : ℚ) ≤ y := by
    have : (((1 - 1 / 2 ^ 25 : ℚ)) : ℝ) ≤ (y : ℝ) := by
      push_cast
      norm_num at hs0 a1 ⊢
      linarith
    exact_mod_cast this
  have b2 : y ≤ (1 + 1 / 2 ^ 24 : ℚ) := by
    have : (y : ℝ) ≤ (((1 + 1 / 2 ^ 24 : ℚ)) : ℝ) := by
      push_cast
      norm_num at a2 ⊢
      linarith
    exact_mod_cast this
  have c1 := rnd32_mono_nonneg _ _ (by norm_num) b1
  have c2 := rnd32_mono_nonneg _ _ (le_trans (by norm_num) b1) b2
  rw [rnd32_below_one_tie] at c1
  rw [rnd32_above_one_tie] at c2
  exact le_antisymm c2 c1

/-- At the `float` nearest to `π/6` every sine that is accurate to `2^-28`
returns, as a `float`, `0.5f`; the exact sine there is at least `1/2`. -/
theorem wave_value_sixth_turn (sin : ℚ → ℚ)
    (h : |((sin (4392265 / 8388608) : ℚ) : ℝ) - Real.sin (((4392265 / 8388608 : ℚ)) : ℝ)| ≤
      1 / 2 ^ 28) :
    wave_value sin (4392265 / 8388608) 0 = 1 / 2 ∧
    1 / 2 ≤ Real.sin (((4392265 / 8388608 : ℚ)) : ℝ) ∧
    Real.sin (((4392265 / 8388608 : ℚ)) : ℝ) ≤ 1 / 2 + 3 / 2 ^ 27 := by
  have hlo := Real.pi_gt_d20
  have hhi := Real.pi_lt_d20
  set θ : ℝ := (((4392265 / 8388608 : ℚ)) : ℝ) with hθ
  have hθv : θ = 4392265 / 8388608 := by
    rw [hθ]
    push_cast
    norm_num
  have hd0 : 0 ≤ θ - Real.pi / 6 := by
    rw [hθv]
    linarith
  have hd1 : θ - Real.pi / 6 ≤ 3 / 2 ^ 27 := by
    rw [hθv]
    norm_num
    linarith
  have hs0 : 1 / 2 ≤ Real.sin θ := by
    rw [← Real.sin_pi_div_six]
    apply Real.sin_le_sin_of_le_of_le_pi_div_two
    · linarith
    · rw [hθv]
      linarith
    · linarith
  have hs1 : Real.sin θ ≤ 1 / 2 + 3 / 2 ^ 27 := by
    have e : θ = Real.pi / 6 + (θ - Real.pi / 6) := by ring
    rw [e, Real.sin_add, Real.sin_pi_div_six]
    have k1 := Real.cos_le_one (θ - Real.pi / 6)
    have k2 := Real.cos_le_one (Real.pi / 6)
    have k3 : Real.sin (θ - Real.pi / 6) ≤ θ - Real.pi / 6 := Real.sin_le hd0
    have k4 : 0 ≤ Real.sin (θ - Real.pi / 6) :=
      Real.sin_nonneg_of_nonneg_of_le_pi hd0 (by linarith)
    have k5 : Real.cos (Real.pi / 6) * Real.sin (θ - Real.pi / 6) ≤
        1 * Real.sin (θ - Real.pi / 6) := mul_le_mul_of_nonneg_right k2 k4
    have k6 : (1 / 2 : ℝ) * Real.cos (θ - Real.pi / 6) ≤ 1 / 2 * 1 :=
      mul_le_mul_of_nonneg_left k1 (by norm_num)
    linarith
  refine ⟨?_, hs0, hs1⟩
  unfold wave_value
  rw [sixth_turn_argument]
  set y : ℚ := sin (4392265 / 8388608) with hy
  obtain ⟨a1, a2⟩ := abs_le.mp h
  have b1 : (1 / 2 - 1 / 2 ^ 28 : ℚ) ≤ y := by
    have : (((1 / 2 - 1 / 2 ^ 28 : ℚ)) : ℝ) ≤ (y : ℝ) := by
      push_cast
      norm_num at a1 ⊢
      linarith
    exact_mod_cast this
  have b2 : y ≤ (1 / 2 + 7 / 2 ^ 28 : ℚ) := by
    have : (y : ℝ) ≤ (((1 / 2 + 7 / 2 ^ 28 : ℚ)) : ℝ) := by
      push_cast
      norm_num at a2 hs1 ⊢
      linarith
    exact_mod_cast this
  have c1 := rnd32_mono_nonneg _ _ (by norm_num) b1
  have c2 := rnd32_mono_nonneg _ _ (le_trans (by norm_num) b1) b2
  rw [rnd32_near_half_below] at c1
  rw [rnd32_near_half_above] at c2
  exact le_antisymm c2 c1

/-! ## Termination of the normalisation loops for a moderate phase -/

theorem TWO_PI_ge_six : 6 ≤ TWO_PI := by decide!

theorem zpow_le_one_of_le (k : ℤ) (hk : k ≤ 23) : (2 : ℚ) ^ (k - 23) ≤ 1 := by
  have h : (2 : ℚ) ^ (k - 23) ≤ (2 : ℚ) ^ (0 : ℤ) :=
    zpow_le_zpow_right₀ (by norm_num) (by omega)
  simpa using h

/-- While the accumulated phase is at most `2^23` in magnitude each pass of the
first loop lowers it by at least `5`, so the loop ends. -/
theorem wrapDown_terminates (k : ℤ) (hk3 : 3 ≤ k) (hk : k ≤ 23) : ∀ (m fuel : Nat) (x : ℚ),
    |x| ≤ (2 : ℚ) ^ k → x ≤ TWO_PI + 5 * (m : ℚ) → m + 1 ≤ fuel →
    ∃ q, wrapDown fuel x = some q := by
  intro m
  induction m with
  | zero =>
    intro fuel x _ hle hf
    obtain ⟨f, rfl⟩ : ∃ f, fuel = f + 1 := ⟨fuel - 1, by omega⟩
    exact ⟨x, wrapDown_of_le f x (by simpa using hle)⟩
  | succ m ih =>
    intro fuel x hx hle hf
    obtain ⟨f, rfl⟩ : ∃ f, fuel = f + 1 := ⟨fuel - 1, by omega⟩
    by_cases hc : TWO_PI < x
    · unfold wrapDown
      rw [if_pos hc]
      have hpos : 0 < x - TWO_PI := by linarith
      have hxk : x ≤ (2 : ℚ) ^ k := le_trans (le_abs_self x) hx
      have hy : |x - TWO_PI| < (2 : ℚ) ^ k := by
        rw [abs_of_pos hpos]
        have := TWO_PI_pos
        linarith
      obtain ⟨e1, e2⟩ := wrap_step (x - TWO_PI) k hy (by omega)
      have e3 := (abs_le.mp e1).2
      have h1 := zpow_le_one_of_le k hk
      have h6 := TWO_PI_ge_six
      apply ih f _ e2 _ (by omega)
      push_cast at hle
      linarith
    · exact ⟨x, wrapDown_of_le f x (not_lt.mp hc)⟩

/-- Likewise each pass of the second loop raises the phase by at least `5`. -/
theorem wrapUp_terminates (k : ℤ) (hk3 : 3 ≤ k) (hk : k ≤ 23) : ∀ (m fuel : Nat) (x : ℚ),
    |x| ≤ (2 : ℚ) ^ k → -(5 * (m : ℚ)) ≤ x → m + 1 ≤ fuel →
    ∃ q, wrapUp fuel x = some q := by
  have h8k : (8 : ℚ) ≤ (2 : ℚ) ^ k := by
    have : (2 : ℚ) ^ (3 : ℤ) ≤ (2 : ℚ) ^ k := zpow_le_zpow_right₀ (by norm_num) hk3
    norm_num at this
    exact this
  intro m
  induction m with
  | zero =>
    intro fuel x _ hle hf
    obtain ⟨f, rfl⟩ : ∃ f, fuel = f + 1 := ⟨fuel - 1, by omega⟩
    exact ⟨x, wrapUp_of_nonneg f x (by simpa using hle)⟩
  | succ m ih =>
    intro fuel x hx hle hf
    obtain ⟨f, rfl⟩ : ∃ f, fuel = f + 1 := ⟨fuel - 1, by omega⟩
    by_cases hc : x < 0
    · unfold wrapUp
      rw [if_pos hc]
      have hxk : -((2 : ℚ) ^ k) ≤ x := (abs_le.mp hx).1
      have hT := TWO_PI_pos
      have hT8 := TWO_PI_lt_eight
      have hy : |x + TWO_PI| < (2 : ℚ) ^ k := by
        rw [abs_lt]
        constructor <;> linarith
      obtain ⟨e1, e2⟩ := wrap_step (x + TWO_PI) k hy (by omega)
      have e3 := (abs_le.mp e1).1
      have h1 := zpow_le_one_of_le k hk
      have h6 := TWO_PI_ge_six
      apply ih f _ e2 _ (by omega)
      push_cast at hle
      linarith
    · exact ⟨x, wrapUp_of_nonneg f x (not_lt.mp hc)⟩

/-- The two loops end within `2^k + 1` evaluations of each condition when the
accumulated phase is at most `2^k ≤ 2^23` in magnitude. -/
theorem normalise_terminates (k : ℤ) (hk3 : 3 ≤ k) (hk : k ≤ 23) (fuel : Nat) (x : ℚ)
    (hx : |x| ≤ (2 : ℚ) ^ k) (hf : 2 ^ k.toNat + 1 ≤ fuel) :
    ∃ q, normalise fuel x = some q := by
  have hkn : ((k.toNat : ℕ) : ℤ) = k := Int.toNat_of_nonneg (by omega)
  have hcast : (((2 ^ k.toNat : ℕ)) : ℚ) = (2 : ℚ) ^ k := by
    push_cast
    rw [← zpow_natCast, hkn]
  have hpos : (0 : ℚ) < (2 : ℚ) ^ k := two_zpow_pos k
  have hT := TWO_PI_pos
  obtain ⟨hx1, hx2⟩ := abs_le.mp hx
  obtain ⟨q1, hq1⟩ := wrapDown_terminates k hk3 hk (2 ^ k.toNat) fuel x hx
    (by rw [hcast]; linarith) hf
  obtain ⟨n1, _, a2, a3, a4⟩ := wrapDown_spec k (by omega) fuel x q1 hx hq1
  have h8k : (8 : ℚ) ≤ (2 : ℚ) ^ k := by
    have : (2 : ℚ) ^ (3 : ℤ) ≤ (2 : ℚ) ^ k := zpow_le_zpow_right₀ (by norm_num) hk3
    norm_num at this
    exact this
  have hT8 := TWO_PI_lt_eight
  have hq1b : |q1| ≤ (2 : ℚ) ^ k ∧ -((2 : ℚ) ^ k) ≤ q1 := by
    rcases Nat.eq_zero_or_pos n1 with hz | hp
    · rw [a3 hz]
      exact ⟨hx, hx1⟩
    · have h0 := a4 hp
      refine ⟨?_, by linarith⟩
      rw [abs_of_nonneg h0]
      linarith
  obtain ⟨q, hq⟩ := wrapUp_terminates k hk3 hk (2 ^ k.toNat) fuel q1 hq1b.1
    (by rw [hcast]; linarith [hq1b.2]) hf
  refine ⟨q, ?_⟩
  unfold normalise
  rw [hq1]
  exact hq

/-! ## The travelling-wave term: the argument of the sine -/

/-- The `double` product `WAVE_CYCLES * M_PI` of line 76 is exact: six times the
`double` constant `M_PI`. -/
theorem wave_factor : rnd64 (WAVE_CYCLES * M_PI) = 2652839157010665 / 2 ^ 47 := by decide!

theorem wave_factor_eq : (2652839157010665 / 2 ^ 47 : ℚ) = 6 * M_PI := by decide!

theorem rnd64_nineteen : rnd64 19 = 19 := by decide!

theorem rnd32_nineteen : rnd32 19 = 19 := by decide!

/-- The `float` `wave_shift` lies in `[0, 19]` for a position in `[0, 1]`. -/
theorem wave_shift_bounds (pos : ℚ) (h0 : 0 ≤ pos) (h1 : pos ≤ 1) :
    0 ≤ rnd64 (2652839157010665 / 2 ^ 47 * pos) ∧ rnd64 (2652839157010665 / 2 ^ 47 * pos) ≤ 19 ∧
    0 ≤ wave_shift pos ∧ wave_shift pos ≤ 19 := by
  have hy0 : (0 : ℚ) ≤ 2652839157010665 / 2 ^ 47 * pos := mul_nonneg (by norm_num) h0
  have hy1 : (2652839157010665 / 2 ^ 47 * pos : ℚ) ≤ 19 := by
    have : (2652839157010665 / 2 ^ 47 * pos : ℚ) ≤ 2652839157010665 / 2 ^ 47 * 1 :=
      mul_le_mul_of_nonneg_left h1 (by norm_num)
    norm_num at this ⊢
    linarith
  have a0 : 0 ≤ rnd64 (2652839157010665 / 2 ^ 47 * pos) := roundFloat_nonneg 53 (-1074) _ hy0
  have a1 : rnd64 (2652839157010665 / 2 ^ 47 * pos) ≤ 19 := by
    have h := roundFloat_mono_nonneg 53 (-1074) (by norm_num) _ 19 hy0 hy1
    have h' : rnd64 (2652839157010665 / 2 ^ 47 * pos) ≤ rnd64 19 := h
    rwa [rnd64_nineteen] at h'
  refine ⟨a0, a1, ?_, ?_⟩
  · unfold wave_shift
    rw [wave_factor]
    exact rnd32_nonneg _ a0
  · unfold wave_shift
    rw [wave_factor]
    have h := rnd32_mono_nonneg _ 19 a0 a1
    rwa [rnd32_nineteen] at h

theorem scaled_round_err (c pos p0 : ℚ) (hc0 : 0 ≤ c) (hc1 : c ≤ 19) (h0 : 0 ≤ pos)
    (h1 : pos ≤ 1) (a0 : 0 ≤ rnd64 (c * pos)) (a1 : rnd64 (c * pos) ≤ 19)
    (hp : |pos - p0| ≤ 1 / 2 ^ 25) :
    |rnd32 (rnd64 (c * pos)) - c * p0| ≤ 13 / 2 ^ 23 := by
  have h32 : (2 : ℚ) ^ (5 : ℤ) = 32 := by norm_num
  have hy0 : 0 ≤ c * pos := mul_nonneg hc0 h0
  have hy1 : c * pos ≤ 19 := by
    have : c * pos ≤ c * 1 := mul_le_mul_of_nonneg_left h1 hc0
    linarith
  have hlt : |c * pos| < (2 : ℚ) ^ (5 : ℤ) := by
    rw [abs_of_nonneg hy0, h32]
    linarith
  obtain ⟨r1, r2⟩ := abs_le.mp (rnd64_abs_err _ 5 hlt (by norm_num))
  have hlt2 : |rnd64 (c * pos)| < (2 : ℚ) ^ (5 : ℤ) := by
    rw [abs_of_nonneg a0, h32]
    linarith
  obtain ⟨s1, s2⟩ := abs_le.mp (rnd32_abs_err _ 5 hlt2 (by norm_num))
  obtain ⟨p1, p2⟩ := abs_le.mp hp
  have m1 : c * (pos - p0) ≤ 19 * (1 / 2 ^ 25) := by
    have : c * (pos - p0) ≤ c * (1 / 2 ^ 25) := mul_le_mul_of_nonneg_left p2 hc0
    have : c * (1 / 2 ^ 25) ≤ 19 * (1 / 2 ^ 25) := mul_le_mul_of_nonneg_right hc1 (by norm_num)
    linarith
  have m2 : -(19 * (1 / 2 ^ 25)) ≤ c * (pos - p0) := by
    have : c * (-(1 / 2 ^ 25)) ≤ c * (pos - p0) := mul_le_mul_of_nonneg_left p1 hc0
    have : c * (1 / 2 ^ 25) ≤ 19 * (1 / 2 ^ 25) := mul_le_mul_of_nonneg_right hc1 (by norm_num)
    linarith
  norm_num at r1 r2 s1 s2 m1 m2
  rw [abs_le]
  norm_num
  constructor <;> linarith

/-- Line 76 against the exact product: for a position within `2^-25` of `p0`
the `float` `wave_shift` is within `13/2^23` of `6 * M_PI * p0`. -/
theorem wave_shift_err (pos p0 : ℚ) (h0 : 0 ≤ pos) (h1 : pos ≤ 1)
    (hp : |pos - p0| ≤ 1 / 2 ^ 25) :
    |wave_shift pos - 6 * M_PI * p0| ≤ 13 / 2 ^ 23 := by
  obtain ⟨a0, a1, _, _⟩ := wave_shift_bounds pos h0 h1
  rw [← wave_factor_eq]
  unfold wave_shift
  rw [wave_factor]
  exact scaled_round_err _ pos p0 (by norm_num) (by norm_num) h0 h1 a0 a1 hp

/-- Line 77, the argument of the sine: for pixel `i` of `n` and a phase in
`[0, 8]` the `float` `phase - wave_shift` is within `21/2^23` of
`phase - 6 * M_PI * i / n`. -/
theorem wave_argument_err (i n : Nat) (hi : i < n) (hn : n ≤ 2 ^ 24) (phase : ℚ)
    (hp0 : 0 ≤ phase) (hp1 : phase ≤ 8) :
    |rnd32 (phase - wave_shift (position i n)) - (phase - 6 * M_PI * ((i : ℚ) / (n : ℚ)))| ≤
      21 / 2 ^ 23 := by
  have q0 := position_nonneg i n
  have q1 : position i n ≤ 1 := by
    have := position_le_below_one i n hi hn
    norm_num at this ⊢
    linarith
  obtain ⟨_, _, w0, w1⟩ := wave_shift_bounds (position i n) q0 q1
  obtain ⟨e1, e2⟩ := abs_le.mp (wave_shift_err (position i n) _ q0 q1 (position_err i n hi hn))
  have hlt : |phase - wave_shift (position i n)| < (2 : ℚ) ^ (5 : ℤ) := by
    rw [abs_lt]
    norm_num
    constructor <;> linarith
  obtain ⟨r1, r2⟩ := abs_le.mp (rnd32_abs_err _ 5 hlt (by norm_num))
  norm_num at r1 r2 e1 e2
  rw [abs_le]
  norm_num
  constructor <;> linarith

/-- The `double` constant `M_PI` against `π`. -/
theorem M_PI_err : |((M_PI : ℚ) : ℝ) - Real.pi| ≤ 1 / 10 ^ 15 := by
  have hlo := Real.pi_gt_d20
  have hhi := Real.pi_lt_d20
  have hv : M_PI = 884279719003555 / 2 ^ 48 := by decide!
  rw [hv, abs_le]
  push_cast
  norm_num at hlo hhi ⊢
  constructor <;> linarith

theorem sin_sub_sin_le (a b : ℝ) : |Real.sin a - Real.sin b| ≤ |a - b| := by
  rw [Real.sin_sub_sin, abs_mul, abs_mul]
  have h1 := Real.abs_sin_le_abs (x := (a - b) / 2)
  have h2 := Real.abs_cos_le_one ((a + b) / 2)
  have h3 : |(a - b) / 2| = |a - b| / 2 := by
    rw [abs_div]
    norm_num
  rw [h3] at h1
  have h4 : |(2 : ℝ)| = 2 := by norm_num
  rw [h4]
  have h5 : 2 * |Real.sin ((a - b) / 2)| ≤ |a - b| := by linarith
  have h6 : 0 ≤ 2 * |Real.sin ((a - b) / 2)| := by positivity
  calc 2 * |Real.sin ((a - b) / 2)| * |Real.cos ((a + b) / 2)|
      ≤ 2 * |Real.sin ((a - b) / 2)| * 1 := mul_le_mul_of_nonneg_left h2 h6
    _ ≤ |a - b| := by linarith

/-- The argument of the sine against `phase - 6π i / n` in the reals. -/
theorem wave_argument_real (i n : Nat) (hi : i < n) (hn : n ≤ 2 ^ 24) (phase : ℚ)
    (hp0 : 0 ≤ phase) (hp1 : phase ≤ 8) :
    |((rnd32 (phase - wave_shift (position i n)) : ℚ) : ℝ) -
      ((phase : ℝ) - 6 * Real.pi * ((i : ℝ) / (n : ℝ)))| ≤ 1 / 2 ^ 18 := by
  have h := wave_argument_err i n hi hn phase hp0 hp1
  have hr : |((rnd32 (phase - wave_shift (position i n)) : ℚ) : ℝ) -
      ((phase : ℝ) - 6 * ((M_PI : ℚ) : ℝ) * ((i : ℝ) / (n : ℝ)))| ≤ 21 / 2 ^ 23 := by
    have h' : ((|rnd32 (phase - wave_shift (position i n)) -
        (phase - 6 * M_PI * ((i : ℚ) / (n : ℚ)))| : ℚ) : ℝ) ≤ (((21 / 2 ^ 23 : ℚ)) : ℝ) := by
      exact_mod_cast h
    push_cast at h'
    exact h'
  obtain ⟨r1, r2⟩ := abs_le.mp hr
  obtain ⟨m1, m2⟩ := abs_le.mp M_PI_err
  have hnpos : (0 : ℝ) < (n : ℝ) := by exact_mod_cast (by omega : 0 < n)
  have f0 : (0 : ℝ) ≤ (i : ℝ) / (n : ℝ) := div_nonneg (Nat.cast_nonneg i) hnpos.le
  have f1 : (i : ℝ) / (n : ℝ) ≤ 1 := by
    rw [div_le_one hnpos]
    exact_mod_cast hi.le
  set t : ℝ := (i : ℝ) / (n : ℝ) with ht
  have k1 : (((M_PI : ℚ) : ℝ) - Real.pi) * t ≤ 1 / 10 ^ 15 := by
    have : (((M_PI : ℚ) : ℝ) - Real.pi) * t ≤ 1 / 10 ^ 15 * t :=
      mul_le_mul_of_nonneg_right m2 f0
    have : (1 / 10 ^ 15 : ℝ) * t ≤ 1 / 10 ^ 15 * 1 :=
      mul_le_mul_of_nonneg_left f1 (by norm_num)
    linarith
  have k2 : -(1 / 10 ^ 15) ≤ (((M_PI : ℚ) : ℝ) - Real.pi) * t := by
    have : -(1 / 10 ^ 15) * t ≤ (((M_PI : ℚ) : ℝ) - Real.pi) * t :=
      mul_le_mul_of_nonneg_right m1 f0
    have : (1 / 10 ^ 15 : ℝ) * t ≤ 1 / 10 ^ 15 * 1 :=
      mul_le_mul_of_nonneg_left f1 (by norm_num)
    linarith
  rw [abs_le]
  norm_num at r1 r2 k1 k2 ⊢
  constructor <;> nlinarith

/-- Line 77 against the exact sine: for a sine with values in `[-1, 1]` that is
accurate to `2^-20` at the argument it is called with, `wave_value` is within
`3/2^19` of `sin(phase - 6π i / n)`. -/
theorem wave_value_real (sin : ℚ → ℚ) (i n : Nat) (hi : i < n) (hn : n ≤ 2 ^ 24) (phase : ℚ)
    (hp0 : 0 ≤ phase) (hp1 : phase ≤ 8) (hsin : ∀ x, -1 ≤ sin x ∧ sin x ≤ 1)
    (hacc : |((sin (rnd32 (phase - wave_shift (position i n))) : ℚ) : ℝ) -
      Real.sin (((rnd32 (phase - wave_shift (position i n)) : ℚ)) : ℝ)| ≤ 1 / 2 ^ 20) :
    |((wave_value sin phase (position i n) : ℚ) : ℝ) -
      Real.sin ((phase : ℝ) - 6 * Real.pi * ((i : ℝ) / (n : ℝ)))| ≤ 3 / 2 ^ 19 := by
  have ha := wave_argument_real i n hi hn phase hp0 hp1
  have hl := sin_sub_sin_le (((rnd32 (phase - wave_shift (position i n)) : ℚ)) : ℝ)
    ((phase : ℝ) - 6 * Real.pi * ((i : ℝ) / (n : ℝ)))
  unfold wave_value
  set a : ℚ := rnd32 (phase - wave_shift (position i n)) with hadef
  obtain ⟨s1, s2⟩ := hsin a
  have hlt : |sin a| < (2 : ℚ) ^ (1 : ℤ) := by
    rw [abs_lt]
    norm_num
    constructor <;> linarith
  have hr := rnd32_abs_err (sin a) 1 hlt (by norm_num)
  have hr' : |((rnd32 (sin a) : ℚ) : ℝ) - ((sin a : ℚ) : ℝ)| ≤ 1 / 2 ^ 24 := by
    have h' : ((|rnd32 (sin a) - sin a| : ℚ) : ℝ) ≤ ((((2 : ℚ) ^ ((1 : ℤ) - 25) : ℚ)) : ℝ) := by
      exact_mod_cast hr
    push_cast at h'
    norm_num at h' ⊢
    exact h'
  obtain ⟨r1, r2⟩ := abs_le.mp hr'
  obtain ⟨c1, c2⟩ := abs_le.mp hacc
  obtain ⟨l1, l2⟩ := abs_le.mp (le_trans hl ha)
  rw [abs_le]
  norm_num at r1 r2 c1 c2 l1 l2 ⊢
  constructor <;> linarith

/-- Lines 77-88 against the exact formula: the value cast to `brightness_scale`
is within `2^-10` of `255 * (0.6 + 0.4 * |s| * sin(phase - 6π i / n))`. -/
theorem brightness_value_real (sin : ℚ → ℚ) (i n : Nat) (hi : i < n) (hn : n ≤ 2 ^ 24)
    (s phase : ℚ) (h1 : -1 ≤ s) (h2 : s ≤ 1)
    (hp0 : 0 ≤ phase) (hp1 : phase ≤ 8) (hsin : ∀ x, -1 ≤ sin x ∧ sin x ≤ 1)
    (hacc : |((sin (rnd32 (phase - wave_shift (position i n))) : ℚ) : ℝ) -
      Real.sin (((rnd32 (phase - wave_shift (position i n)) : ℚ)) : ℝ)| ≤ 1 / 2 ^ 20) :
    |((brightness_value sin s phase (position i n) : ℚ) : ℝ) -
      255 * (6 / 10 + 4 / 10 * |(s : ℝ)| *
        Real.sin ((phase : ℝ) - 6 * Real.pi * ((i : ℝ) / (n : ℝ))))| ≤ 1 / 2 ^ 10 := by
  have hw := wave_value_real sin i n hi hn phase hp0 hp1 hsin hacc
  have he := brightness_value_err sin s phase (position i n) h1 h2 hsin
  have he' : |((brightness_value sin s phase (position i n) : ℚ) : ℝ) -
      255 * (6 / 10 + 4 / 10 * |(s : ℝ)| * ((wave_value sin phase (position i n) : ℚ) : ℝ))| ≤
      1 / 2 ^ 12 := by
    have h' : ((|brightness_value sin s phase (position i n) -
        255 * (6 / 10 + 4 / 10 * |s| * wave_value sin phase (position i n))| : ℚ) : ℝ) ≤
        (((1 / 2 ^ 12 : ℚ)) : ℝ) := by
      exact_mod_cast he
    push_cast at h'
    exact h'
  have hs0 : (0 : ℝ) ≤ |(s : ℝ)| := abs_nonneg _
  have hs1 : |(s : ℝ)| ≤ 1 := by
    rw [abs_le]
    constructor
    · exact_mod_cast h1
    · exact_mod_cast h2
  set σ : ℝ := |(s : ℝ)| with hσ
  set w : ℝ := ((wave_value sin phase (position i n) : ℚ) : ℝ) with hwdef
  set S : ℝ := Real.sin ((phase : ℝ) - 6 * Real.pi * ((i : ℝ) / (n : ℝ))) with hS
  obtain ⟨w1, w2⟩ := abs_le.mp hw
  obtain ⟨e1, e2⟩ := abs_le.mp he'
  have k1 : σ * (w - S) ≤ 3 / 2 ^ 19 := by
    have a1 : σ * (w - S) ≤ σ * (3 / 2 ^ 19) := mul_le_mul_of_nonneg_left (by linarith) hs0
    have a2 : σ * (3 / 2 ^ 19 : ℝ) ≤ 1 * (3 / 2 ^ 19) :=
      mul_le_mul_of_nonneg_right hs1 (by norm_num)
    linarith
  have k2 : -(3 / 2 ^ 19) ≤ σ * (w - S) := by
    have a1 : σ * (-(3 / 2 ^ 19)) ≤ σ * (w - S) := mul_le_mul_of_nonneg_left (by linarith) hs0
    have a2 : σ * (3 / 2 ^ 19 : ℝ) ≤ 1 * (3 / 2 ^ 19) :=
      mul_le_mul_of_nonneg_right hs1 (by norm_num)
    linarith
  rw [abs_le]
  norm_num at e1 e2 k1 k2 ⊢
  constructor <;> nlinarith

/-- An example of a sine that is accurate where it is called: the cubic Taylor
polynomial, clamped to `[-1, 1]`, at the argument of pixel `1` of `10` for the
phase `1.875`. -/
theorem cubic_sine_accurate :
    |(((fun y : ℚ => clamp (y - y ^ 3 / 6) (-1) 1)
          (rnd32 (15 / 8 - wave_shift (position 1 10))) : ℚ) : ℝ) -
        Real.sin (((rnd32 (15 / 8 - wave_shift (position 1 10)) : ℚ)) : ℝ)| ≤ 1 / 2 ^ 20 := by
  have ha : rnd32 (15 / 8 - wave_shift (position 1 10)) = -41757 / 2 ^ 22 := by decide!
  have hv : (fun y : ℚ => clamp (y - y ^ 3 / 6) (-1) 1) (-41757 / 2 ^ 22) =
      -41757 / 2 ^ 22 - (-41757 / 2 ^ 22) ^ 3 / 6 := by decide!
  rw [ha, hv]
  have hx : |(((-41757 / 2 ^ 22 : ℚ)) : ℝ)| ≤ 1 / 64 := by
    rw [abs_le]
    push_cast
    constructor <;> norm_num
  have hb := Real.sin_bound (x := (((-41757 / 2 ^ 22 : ℚ)) : ℝ)) (le_trans hx (by norm_num))
  have h4 : |(((-41757 / 2 ^ 22 : ℚ)) : ℝ)| ^ 4 ≤ (1 / 64) ^ 4 :=
    pow_le_pow_left₀ (abs_nonneg _) hx 4
  rw [abs_sub_comm]
  push_cast at hb h4 ⊢
  refine le_trans hb ?_
  norm_num at h4 ⊢
  linarith

/-! ## The claims, continued -/

/-- C11: the self-timed wrapper on explicit state.  A call of `led_gauge_simple`
at the clock reading `now` returns exactly what `led_gauge` returns for the
stored phase and the `dt` of line 109, with the new phase and
`last_update = now` as the state afterwards.  For a clock that has not gone
backwards (`last_update ≤ now < 2^32`) that `dt` is `(now - last_update)/1000`
as the spec words it, evaluated in `float`; from the initial state `(0, 0)` it
is `now/1000`; and for a difference of at most `2^24` ms it is the `float`
nearest to the exact quotient. -/
theorem self_timed_wrapper (sin : ℚ → ℚ) (fuel : Nat) (st : SimpleState) (now : Nat)
    (it : List Color) (value : ℚ) (c1 c2 c3 : Color) (wave_speed : ℚ) :
    led_gauge_simple sin fuel st now it value c1 c2 c3 wave_speed =
      (led_gauge sin fuel it value c1 c2 c3 wave_speed st.phase
        (elapsed now st.last_update)).map (fun r => (r.1, ⟨r.2, now⟩)) ∧
    (st.last_update ≤ now → now < 2 ^ 32 →
      elapsed now st.last_update = elapsedSpec now st.last_update) ∧
    (now < 2 ^ 32 →
      elapsed now SimpleState.initial.last_update = rnd32 (rnd32 (now : ℚ) / 1000)) ∧
    (now - st.last_update ≤ 2 ^ 24 →
      elapsedSpec now st.last_update =
        rnd32 (((now - st.last_update : ℕ) : ℚ) / 1000)) := by
  refine ⟨?_, fun h1 h2 => elapsed_eq_spec now st.last_update h1 h2, ?_, ?_⟩
  · unfold led_gauge_simple
    simp only
    cases led_gauge sin fuel it value c1 c2 c3 wave_speed st.phase
      (elapsed now st.last_update) with
    | none => rfl
    | some r => rfl
  · intro h2
    have h0 : SimpleState.initial.last_update = 0 := rfl
    rw [h0, elapsed_eq_spec now 0 (Nat.zero_le now) h2]
    unfold elapsedSpec
    rw [Nat.sub_zero]
  · intro h
    unfold elapsedSpec
    rw [rnd32_natCast _ h]

/-- Witness of C11: the first call, `16` ms after start, on a two-pixel buffer. -/
theorem self_timed_wrapper_witness :
    SimpleState.initial.last_update ≤ 16 ∧ 16 < 2 ^ 32 ∧
    16 - SimpleState.initial.last_update ≤ 2 ^ 24 ∧
    elapsed 16 SimpleState.initial.last_update = elapsedSpec 16 SimpleState.initial.last_update ∧
    elapsed 16 SimpleState.initial.last_update = rnd32 (rnd32 ((16 : ℕ) : ℚ) / 1000) ∧
    elapsedSpec 16 SimpleState.initial.last_update =
      rnd32 (((16 - SimpleState.initial.last_update : ℕ) : ℚ) / 1000) ∧
    (led_gauge_simple (fun _ => 0) 4 SimpleState.initial 16 [Color.BLACK, Color.BLACK] 1
      ⟨255, 0, 0, 0⟩ ⟨0, 255, 0, 0⟩ ⟨0, 0, 255, 0⟩ 1).map (fun r => r.2.last_update) = some 16 :=
  ⟨by decide, by decide, by decide,
    (self_timed_wrapper (fun _ => 0) 4 SimpleState.initial 16 [Color.BLACK, Color.BLACK] 1
      ⟨255, 0, 0, 0⟩ ⟨0, 255, 0, 0⟩ ⟨0, 0, 255, 0⟩ 1).2.1 (by decide) (by decide),
    (self_timed_wrapper (fun _ => 0) 4 SimpleState.initial 16 [Color.BLACK, Color.BLACK] 1
      ⟨255, 0, 0, 0⟩ ⟨0, 255, 0, 0⟩ ⟨0, 0, 255, 0⟩ 1).2.2.1 (by decide),
    (self_timed_wrapper (fun _ => 0) 4 SimpleState.initial 16 [Color.BLACK, Color.BLACK] 1
      ⟨255, 0, 0, 0⟩ ⟨0, 255, 0, 0⟩ ⟨0, 0, 255, 0⟩ 1).2.2.2 (by decide),
    by decide!⟩

/-- C12 fails as stated.  For `N = 10` and the lit index `i = 7` (value `1`) the
claimed gradient byte is `floor(510 * 7 / 10 - 255) = 102`, but the `float`
remap of line 70 yields `101.99999`, so the byte is `101` and the base colour
is `gradient(c2, c3, 101)`, which for green and blue is not
`gradient(c2, c3, 102)`. -/
theorem base_color_counterexample :
    ((7 : ℕ) : ℤ) < lit_leds (clamp 1 0 1) 10 ∧
    ¬ ((7 : ℚ) / 10 < 1 / 2) ∧
    ⌊(510 : ℚ) * 7 / 10 - 255⌋ = 102 ∧
    base_color ⟨255, 0, 0, 0⟩ ⟨0, 255, 0, 0⟩ ⟨0, 0, 255, 0⟩ (position 7 10) =
      (⟨0, 255, 0, 0⟩ : Color).gradient ⟨0, 0, 255, 0⟩ 101 ∧
    (⟨0, 255, 0, 0⟩ : Color).gradient ⟨0, 0, 255, 0⟩ 101 ≠
      (⟨0, 255, 0, 0⟩ : Color).gradient ⟨0, 0, 255, 0⟩ 102 := by
  decide!

/-- C12, amended.  For every `N ≤ 2^14` and every index `i < N`: if
`i/N < 1/2` the base colour is `gradient(c1, c2, g)` and otherwise
`gradient(c2, c3, g)`, where the byte `g` of the `float` remap is
`floor(510*i/N)`, respectively `floor(510*i/N - 255)`, whenever `510*i/N` is
not an integer, and is that floor or one less when it is.  For `N = 10`,
value `0.5`, `wave_speed = 0`, `phase = 0`: pixels `0..4` are
`gradient(c1, c2, g)` for `g = 0, 51, 102, 153, 204`, each scaled by the
brightness byte `153`, and pixels `5..9` are black. -/
theorem base_color_bytes (n i : Nat) (hn : n ≤ 2 ^ 14) (hi : i < n) :
    (2 * i < n → ∃ g : Fin 256,
      (∀ c1 c2 c3 : Color, base_color c1 c2 c3 (position i n) = c1.gradient c2 g) ∧
      ⌊(510 : ℚ) * (i : ℚ) / (n : ℚ)⌋ - 1 ≤ ((g : ℕ) : ℤ) ∧
      ((g : ℕ) : ℤ) ≤ ⌊(510 : ℚ) * (i : ℚ) / (n : ℚ)⌋ ∧
      (¬ (n : ℤ) ∣ 510 * (i : ℤ) → ((g : ℕ) : ℤ) = ⌊(510 : ℚ) * (i : ℚ) / (n : ℚ)⌋)) ∧
    (n ≤ 2 * i → ∃ g : Fin 256,
      (∀ c1 c2 c3 : Color, base_color c1 c2 c3 (position i n) = c2.gradient c3 g) ∧
      ⌊(510 : ℚ) * (i : ℚ) / (n : ℚ) - 255⌋ - 1 ≤ ((g : ℕ) : ℤ) ∧
      ((g : ℕ) : ℤ) ≤ ⌊(510 : ℚ) * (i : ℚ) / (n : ℚ) - 255⌋ ∧
      (¬ (n : ℤ) ∣ 510 * (i : ℤ) →
        ((g : ℕ) : ℤ) = ⌊(510 : ℚ) * (i : ℚ) / (n : ℚ) - 255⌋)) ∧
    (∀ (sin : ℚ → ℚ) (fuel : Nat) (it : List Color) (c1 c2 c3 : Color) (dt : ℚ),
      it.length = 10 →
      led_gauge sin (fuel + 1) it (1 / 2) c1 c2 c3 0 0 dt =
        some ([(c1.gradient c2 0).scale 153, (c1.gradient c2 51).scale 153,
          (c1.gradient c2 102).scale 153, (c1.gradient c2 153).scale 153,
          (c1.gradient c2 204).scale 153, Color.BLACK, Color.BLACK, Color.BLACK,
          Color.BLACK, Color.BLACK], 0)) := by
  have hn24 : n ≤ 2 ^ 24 := le_trans hn (by norm_num)
  have hnpos : 0 < n := by omega
  have hnq : (0 : ℚ) < (n : ℚ) := by exact_mod_cast hnpos
  have hE : (319 : ℚ) / 2 ^ 23 < 1 / (n : ℚ) := by
    rw [lt_div_iff₀ hnq]
    have hn' : n ≤ 16384 := by
      have := hn
      norm_num at this
      exact this
    have h2 : (n : ℚ) ≤ 16384 := by exact_mod_cast hn'
    norm_num
    linarith
  have hE1 : (1 : ℚ) / 2 ^ 15 < 1 / (n : ℚ) := by
    refine lt_of_le_of_lt ?_ hE
    norm_num
  have hcast := gradient_byte_cast i n hi hn24
  refine ⟨?_, ?_, ?_⟩
  · intro h2i
    have hpos := (position_half_iff i n hi hn24).mpr h2i
    obtain ⟨f1, f2, f3⟩ := floor_near (510 * (i : ℤ)) n _ _ hnpos
      (gradient_value_first_err i n hi hn24 hpos) hE1
    have e : ((510 * (i : ℤ) : ℤ) : ℚ) / (n : ℚ) = (510 : ℚ) * (i : ℚ) / (n : ℚ) := by
      push_cast
      ring
    rw [e] at f1 f2 f3
    refine ⟨toU8 (gradient_value (position i n)), ?_, ?_, ?_, ?_⟩
    · intro c1 c2 c3
      rw [base_color_eq, if_pos hpos]
    · rw [hcast]; exact f1
    · rw [hcast]; exact f2
    · intro hdiv
      rw [hcast]
      exact f3 hdiv
  · intro h2i
    have hpos : ¬ position i n < 1 / 2 := by
      rw [position_half_iff i n hi hn24]
      omega
    obtain ⟨f1, f2, f3⟩ := floor_near (510 * (i : ℤ) - 255 * (n : ℤ)) n _ _ hnpos
      (gradient_value_second_err i n hi hn24 hpos) hE
    have e : ((510 * (i : ℤ) - 255 * (n : ℤ) : ℤ) : ℚ) / (n : ℚ) =
        (510 : ℚ) * (i : ℚ) / (n : ℚ) - 255 := by
      push_cast
      field_simp
      ring
    rw [e] at f1 f2 f3
    refine ⟨toU8 (gradient_value (position i n)), ?_, ?_, ?_, ?_⟩
    · intro c1 c2 c3
      rw [base_color_eq, if_neg hpos]
    · rw [hcast]; exact f1
    · rw [hcast]; exact f2
    · intro hdiv
      rw [hcast]
      apply f3
      intro hd
      apply hdiv
      have h255 : (n : ℤ) ∣ 255 * (n : ℤ) := Dvd.intro_left 255 rfl
      have := dvd_add hd h255
      simpa using this
  · intro sin fuel it c1 c2 c3 dt hlen
    have hlit : lit_leds (clamp (1 / 2) 0 1) 10 = 5 := by decide!
    have hrange : List.range 10 = [0, 1, 2, 3, 4, 5, 6, 7, 8, 9] := by decide
    have b0 : position 0 10 < 1 / 2 ∧ toU8 (gradient_value (position 0 10)) = 0 := by decide!
    have b1 : position 1 10 < 1 / 2 ∧ toU8 (gradient_value (position 1 10)) = 51 := by decide!
    have b2 : position 2 10 < 1 / 2 ∧ toU8 (gradient_value (position 2 10)) = 102 := by decide!
    have b3 : position 3 10 < 1 / 2 ∧ toU8 (gradient_value (position 3 10)) = 153 := by decide!
    have b4 : position 4 10 < 1 / 2 ∧ toU8 (gradient_value (position 4 10)) = 204 := by decide!
    rw [led_gauge_eq, clamp_zero_wave,
      updatePhase_at_rest fuel 0 dt rnd32_zero le_rfl TWO_PI_pos.le, hlen, hlit, hrange]
    simp only [Option.map_some', List.map_cons, List.map_nil]
    have lit (j : Nat) (hj : ((j : ℕ) : ℤ) < 5) (g : Fin 256)
        (hb : position j 10 < 1 / 2 ∧ toU8 (gradient_value (position j 10)) = g) :
        pixel sin 10 5 c1 c2 c3 0 0 j = (c1.gradient c2 g).scale 153 := by
      rw [pixel_lit_of_lt _ _ _ _ _ _ _ _ _ hj]
      unfold lit_color
      rw [brightness_scale_still, base_color_eq, if_pos hb.1, hb.2]
    have dark (j : Nat) (hj : (5 : ℤ) ≤ ((j : ℕ) : ℤ)) :
        pixel sin 10 5 c1 c2 c3 0 0 j = Color.BLACK :=
      pixel_black_of_le _ _ _ _ _ _ _ _ _ hj
    rw [lit 0 (by norm_num) 0 b0, lit 1 (by norm_num) 51 b1, lit 2 (by norm_num) 102 b2,
      lit 3 (by norm_num) 153 b3, lit 4 (by norm_num) 204 b4,
      dark 5 (by norm_num), dark 6 (by norm_num), dark 7 (by norm_num), dark 8 (by norm_num),
      dark 9 (by norm_num)]

/-- Witness of C12 (amended): pixels `3` and `7` of `10`, and the ten-pixel
scenario with red, green and blue. -/
theorem base_color_bytes_witness :
    10 ≤ 2 ^ 14 ∧ 3 < 10 ∧ 7 < 10 ∧ 2 * 3 < 10 ∧ 10 ≤ 2 * 7 ∧
    (∃ g : Fin 256,
      (∀ c1 c2 c3 : Color, base_color c1 c2 c3 (position 3 10) = c1.gradient c2 g) ∧
      ⌊(510 : ℚ) * ((3 : ℕ) : ℚ) / ((10 : ℕ) : ℚ)⌋ - 1 ≤ ((g : ℕ) : ℤ) ∧
      ((g : ℕ) : ℤ) ≤ ⌊(510 : ℚ) * ((3 : ℕ) : ℚ) / ((10 : ℕ) : ℚ)⌋ ∧
      (¬ ((10 : ℕ) : ℤ) ∣ 510 * ((3 : ℕ) : ℤ) →
        ((g : ℕ) : ℤ) = ⌊(510 : ℚ) * ((3 : ℕ) : ℚ) / ((10 : ℕ) : ℚ)⌋)) ∧
    (∃ g : Fin 256,
      (∀ c1 c2 c3 : Color, base_color c1 c2 c3 (position 7 10) = c2.gradient c3 g) ∧
      ⌊(510 : ℚ) * ((7 : ℕ) : ℚ) / ((10 : ℕ) : ℚ) - 255⌋ - 1 ≤ ((g : ℕ) : ℤ) ∧
      ((g : ℕ) : ℤ) ≤ ⌊(510 : ℚ) * ((7 : ℕ) : ℚ) / ((10 : ℕ) : ℚ) - 255⌋ ∧
      (¬ ((10 : ℕ) : ℤ) ∣ 510 * ((7 : ℕ) : ℤ) →
        ((g : ℕ) : ℤ) = ⌊(510 : ℚ) * ((7 : ℕ) : ℚ) / ((10 : ℕ) : ℚ) - 255⌋)) ∧
    led_gauge (fun _ => 0) 1 (List.replicate 10 Color.BLACK) (1 / 2)
        ⟨255, 0, 0, 0⟩ ⟨0, 255, 0, 0⟩ ⟨0, 0, 255, 0⟩ 0 0 (1 / 4) =
      some ([((⟨255, 0, 0, 0⟩ : Color).gradient ⟨0, 255, 0, 0⟩ 0).scale 153,
        ((⟨255, 0, 0, 0⟩ : Color).gradient ⟨0, 255, 0, 0⟩ 51).scale 153,
        ((⟨255, 0, 0, 0⟩ : Color).gradient ⟨0, 255, 0, 0⟩ 102).scale 153,
        ((⟨255, 0, 0, 0⟩ : Color).gradient ⟨0, 255, 0, 0⟩ 153).scale 153,
        ((⟨255, 0, 0, 0⟩ : Color).gradient ⟨0, 255, 0, 0⟩ 204).scale 153,
        Color.BLACK, Color.BLACK, Color.BLACK, Color.BLACK, Color.BLACK], 0) :=
  ⟨by norm_num, by norm_num, by norm_num, by norm_num, by norm_num,
    (base_color_bytes 10 3 (by norm_num) (by norm_num)).1 (by norm_num),
    (base_color_bytes 10 7 (by norm_num) (by norm_num)).2.1 (by norm_num),
    (base_color_bytes 10 3 (by norm_num) (by norm_num)).2.2 (fun _ => 0) 0
      (List.replicate 10 Color.BLACK) ⟨255, 0, 0, 0⟩ ⟨0, 255, 0, 0⟩ ⟨0, 0, 255, 0⟩ (1 / 4)
      (by decide)⟩

/-- C13 fails as stated.  With `wave_speed = 1`, the binary32 phase
`4392265 / 2^23 = 0.5235988` (the `float` nearest to `π/6`) and pixel position
`0`, a sine that returns `0.5f` there (as every sine accurate to `2^-28` does,
the exact sine lying between `1/2` and `1/2 + 3/2^27`) gives the claimed byte
`floor(255 * (0.6 + 0.4 * 1 * 0.5)) = 204`, but the `float` evaluation of
lines 84-88 yields `203.99998`, so `brightness_scale = 203`. -/
theorem brightness_formula_counterexample :
    rnd32 (4392265 / 8388608) = 4392265 / 8388608 ∧
    wave_value (fun _ => 1 / 2) (4392265 / 8388608) 0 = 1 / 2 ∧
    ⌊(255 : ℚ) * (6 / 10 + 4 / 10 * 1 * (1 / 2))⌋ = 204 ∧
    brightness_value (fun _ => 1 / 2) (clamp 1 (-1) 1) (4392265 / 8388608) 0 =
      13369343 / 65536 ∧
    brightness_scale (fun _ => 1 / 2) (clamp 1 (-1) 1) (4392265 / 8388608) 0 = 203 := by
  decide!

/-- C13, amended.  Let `s` be the clamped wave speed and `w` the `float` the
sine returns for the `float` argument `phase - wave_shift`, with
`wave_shift = (float)(WAVE_CYCLES * M_PI * position)`.  For a sine with values
in `[-1, 1]` the `float` value cast to `brightness_scale` is within `2^-12` of
`x = 255 * (0.6 + 0.4 * |s| * w)`, so the byte lies between `floor(x - 2^-12)`
and `floor(x + 2^-12)`: it is `floor(x)` unless `x` is that close to an
integer.  The pixel written at a lit index is the base gradient colour
multiplied by that byte.

The travelling-wave term: for pixel `i` of `N ≤ 2^24` and a phase in `[0, 8]`
(the normalised phase lies in `[0, 6.2831855]`), `wave_shift` is within
`13/2^23` of `6 * M_PI * i / N`, and the `float` argument handed to the sine is
within `2^-18` of `phase - 6π i / N`.  If moreover the sine is accurate to
`2^-20` at that argument, then `w` is within `3/2^19` of
`sin(phase - 6π i / N)`, the value cast to `brightness_scale` is within `2^-10`
of `y = 255 * (0.6 + 0.4 * |s| * sin(phase - 6π i / N))`, and the byte lies
between `floor(y - 2^-10)` and `floor(y + 2^-10)`. -/
theorem brightness_formula (sin : ℚ → ℚ) (n : Nat) (lit : ℤ) (c1 c2 c3 : Color)
    (wave_speed phase : ℚ) (i : Nat) (hsin : ∀ x, -1 ≤ sin x ∧ sin x ≤ 1) :
    wave_value sin phase (position i n) =
      rnd32 (sin (rnd32 (phase - wave_shift (position i n)))) ∧
    |brightness_value sin (clamp wave_speed (-1) 1) phase (position i n) -
      255 * (6 / 10 + 4 / 10 * |clamp wave_speed (-1) 1| *
        wave_value sin phase (position i n))| ≤ 1 / 2 ^ 12 ∧
    ⌊255 * (6 / 10 + 4 / 10 * |clamp wave_speed (-1) 1| *
        wave_value sin phase (position i n)) - 1 / 2 ^ 12⌋ ≤
      (((brightness_scale sin (clamp wave_speed (-1) 1) phase (position i n) : Fin 256) : ℕ) : ℤ) ∧
    (((brightness_scale sin (clamp wave_speed (-1) 1) phase (position i n) : Fin 256) : ℕ) : ℤ) ≤
      ⌊255 * (6 / 10 + 4 / 10 * |clamp wave_speed (-1) 1| *
        wave_value sin phase (position i n)) + 1 / 2 ^ 12⌋ ∧
    ((i : ℤ) < lit →
      pixel sin n lit c1 c2 c3 (clamp wave_speed (-1) 1) phase i =
        (base_color c1 c2 c3 (position i n)).scale
          (brightness_scale sin (clamp wave_speed (-1) 1) phase (position i n))) ∧
    (i < n → n ≤ 2 ^ 24 → 0 ≤ phase → phase ≤ 8 →
      |wave_shift (position i n) - 6 * M_PI * ((i : ℚ) / (n : ℚ))| ≤ 13 / 2 ^ 23 ∧
      |((rnd32 (phase - wave_shift (position i n)) : ℚ) : ℝ) -
        ((phase : ℝ) - 6 * Real.pi * ((i : ℝ) / (n : ℝ)))| ≤ 1 / 2 ^ 18 ∧
      (|((sin (rnd32 (phase - wave_shift (position i n))) : ℚ) : ℝ) -
          Real.sin (((rnd32 (phase - wave_shift (position i n)) : ℚ)) : ℝ)| ≤ 1 / 2 ^ 20 →
        |((wave_value sin phase (position i n) : ℚ) : ℝ) -
          Real.sin ((phase : ℝ) - 6 * Real.pi * ((i : ℝ) / (n : ℝ)))| ≤ 3 / 2 ^ 19 ∧
        |((brightness_value sin (clamp wave_speed (-1) 1) phase (position i n) : ℚ) : ℝ) -
          255 * (6 / 10 + 4 / 10 * |((clamp wave_speed (-1) 1 : ℚ) : ℝ)| *
            Real.sin ((phase : ℝ) - 6 * Real.pi * ((i : ℝ) / (n : ℝ))))| ≤ 1 / 2 ^ 10 ∧
        ⌊255 * (6 / 10 + 4 / 10 * |((clamp wave_speed (-1) 1 : ℚ) : ℝ)| *
            Real.sin ((phase : ℝ) - 6 * Real.pi * ((i : ℝ) / (n : ℝ)))) - 1 / 2 ^ 10⌋ ≤
          (((brightness_scale sin (clamp wave_speed (-1) 1) phase (position i n) :
            Fin 256) : ℕ) : ℤ) ∧
        (((brightness_scale sin (clamp wave_speed (-1) 1) phase (position i n) :
            Fin 256) : ℕ) : ℤ) ≤
          ⌊255 * (6 / 10 + 4 / 10 * |((clamp wave_speed (-1) 1 : ℚ) : ℝ)| *
            Real.sin ((phase : ℝ) - 6 * Real.pi * ((i : ℝ) / (n : ℝ)))) + 1 / 2 ^ 10⌋)) := by
  obtain ⟨h1, h2⟩ := clamp_wave_bounds wave_speed
  have herr := brightness_value_err sin _ phase (position i n) h1 h2 hsin
  obtain ⟨b1, b2⟩ := brightness_value_bounds sin _ phase (position i n) h1 h2 hsin
  have hc := toU8_cast (brightness_value sin (clamp wave_speed (-1) 1) phase (position i n))
    (by linarith) (by linarith)
  obtain ⟨e1, e2⟩ := abs_le.mp herr
  refine ⟨rfl, herr, ?_, ?_, ?_, ?_⟩
  · rw [brightness_scale_eq, hc]
    exact Int.floor_mono (by linarith)
  · rw [brightness_scale_eq, hc]
    exact Int.floor_mono (by linarith)
  · intro hlit
    rw [pixel_lit_of_lt _ _ _ _ _ _ _ _ _ hlit]
    rfl
  · intro hi hn hp0 hp1
    have q0 := position_nonneg i n
    have q1 : position i n ≤ 1 := by
      have := position_le_below_one i n hi hn
      norm_num at this ⊢
      linarith
    refine ⟨wave_shift_err (position i n) _ q0 q1 (position_err i n hi hn),
      wave_argument_real i n hi hn phase hp0 hp1, ?_⟩
    intro hacc
    have hreal := brightness_value_real sin i n hi hn _ phase h1 h2 hp0 hp1 hsin hacc
    obtain ⟨r1, r2⟩ := abs_le.mp hreal
    have hfl : ⌊brightness_value sin (clamp wave_speed (-1) 1) phase (position i n)⌋ =
        ⌊((brightness_value sin (clamp wave_speed (-1) 1) phase (position i n) : ℚ) : ℝ)⌋ :=
      (Rat.floor_cast _).symm
    refine ⟨wave_value_real sin i n hi hn phase hp0 hp1 hsin hacc, hreal, ?_, ?_⟩
    · rw [brightness_scale_eq, hc, hfl]
      exact Int.floor_mono (by linarith)
    · rw [brightness_scale_eq, hc, hfl]
      exact Int.floor_mono (by linarith)

/-- Witness of C13 (amended): pixel `1` of `10` at wave speed `1` and phase
`1.875`, with the cubic Taylor polynomial of the sine, clamped to `[-1, 1]`, as
the sine.  The position is `0.1f`, `wave_shift` is `1.8849556`, the argument
of the sine is `-41757 / 2^22 = -0.0099556`, where the polynomial is accurate
to `2^-20`, and the byte is `151` (at pixel `0` it is `232`). -/
theorem brightness_formula_witness :
    (∀ x : ℚ, -1 ≤ (fun y : ℚ => clamp (y - y ^ 3 / 6) (-1) 1) x ∧
      (fun y : ℚ => clamp (y - y ^ 3 / 6) (-1) 1) x ≤ 1) ∧
    ((1 : ℕ) : ℤ) < 5 ∧ 1 < 10 ∧ 10 ≤ 2 ^ 24 ∧ (0 : ℚ) ≤ 15 / 8 ∧ (15 / 8 : ℚ) ≤ 8 ∧
    position 1 10 = 13421773 / 2 ^ 27 ∧
    wave_shift (position 1 10) = 7906077 / 2 ^ 22 ∧
    rnd32 (15 / 8 - wave_shift (position 1 10)) = -41757 / 2 ^ 22 ∧
    brightness_scale (fun y : ℚ => clamp (y - y ^ 3 / 6) (-1) 1) (clamp 1 (-1) 1) (15 / 8)
      (position 1 10) = 151 ∧
    brightness_scale (fun y : ℚ => clamp (y - y ^ 3 / 6) (-1) 1) (clamp 1 (-1) 1) (15 / 8)
      (position 0 10) = 232 ∧
    |brightness_value (fun y : ℚ => clamp (y - y ^ 3 / 6) (-1) 1) (clamp 1 (-1) 1) (15 / 8)
        (position 1 10) -
      255 * (6 / 10 + 4 / 10 * |clamp 1 (-1) 1| *
        wave_value (fun y : ℚ => clamp (y - y ^ 3 / 6) (-1) 1) (15 / 8) (position 1 10))| ≤
      1 / 2 ^ 12 ∧
    pixel (fun y : ℚ => clamp (y - y ^ 3 / 6) (-1) 1) 10 5 ⟨255, 0, 0, 0⟩ ⟨0, 255, 0, 0⟩
        ⟨0, 0, 255, 0⟩ (clamp 1 (-1) 1) (15 / 8) 1 =
      (base_color ⟨255, 0, 0, 0⟩ ⟨0, 255, 0, 0⟩ ⟨0, 0, 255, 0⟩ (position 1 10)).scale
        (brightness_scale (fun y : ℚ => clamp (y - y ^ 3 / 6) (-1) 1) (clamp 1 (-1) 1) (15 / 8)
          (position 1 10)) ∧
    pixel (fun y : ℚ => clamp (y - y ^ 3 / 6) (-1) 1) 10 5 ⟨255, 0, 0, 0⟩ ⟨0, 255, 0, 0⟩
        ⟨0, 0, 255, 0⟩ (clamp 1 (-1) 1) (15 / 8) 1 = ⟨120, 30, 0, 0⟩ ∧
    |wave_shift (position 1 10) - 6 * M_PI * (((1 : ℕ) : ℚ) / ((10 : ℕ) : ℚ))| ≤ 13 / 2 ^ 23 ∧
    |((rnd32 (15 / 8 - wave_shift (position 1 10)) : ℚ) : ℝ) -
      (((15 / 8 : ℚ) : ℝ) - 6 * Real.pi * (((1 : ℕ) : ℝ) / ((10 : ℕ) : ℝ)))| ≤ 1 / 2 ^ 18 ∧
    |(((fun y : ℚ => clamp (y - y ^ 3 / 6) (-1) 1)
          (rnd32 (15 / 8 - wave_shift (position 1 10))) : ℚ) : ℝ) -
        Real.sin (((rnd32 (15 / 8 - wave_shift (position 1 10)) : ℚ)) : ℝ)| ≤ 1 / 2 ^ 20 ∧
    |((brightness_value (fun y : ℚ => clamp (y - y ^ 3 / 6) (-1) 1) (clamp 1 (-1) 1) (15 / 8)
        (position 1 10) : ℚ) : ℝ) -
      255 * (6 / 10 + 4 / 10 * |((clamp 1 (-1) 1 : ℚ) : ℝ)| *
        Real.sin (((15 / 8 : ℚ) : ℝ) - 6 * Real.pi * (((1 : ℕ) : ℝ) / ((10 : ℕ) : ℝ))))| ≤
      1 / 2 ^ 10 :=
  ⟨fun x => clamp_wave_bounds (x - x ^ 3 / 6), by norm_num, by norm_num, by norm_num,
    by norm_num, by norm_num, by decide!, by decide!, by decide!, by decide!, by decide!,
    (brightness_formula (fun y : ℚ => clamp (y - y ^ 3 / 6) (-1) 1) 10 5 ⟨255, 0, 0, 0⟩
      ⟨0, 255, 0, 0⟩ ⟨0, 0, 255, 0⟩ 1 (15 / 8) 1
      (fun x => clamp_wave_bounds (x - x ^ 3 / 6))).2.1,
    (brightness_formula (fun y : ℚ => clamp (y - y ^ 3 / 6) (-1) 1) 10 5 ⟨255, 0, 0, 0⟩
      ⟨0, 255, 0, 0⟩ ⟨0, 0, 255, 0⟩ 1 (15 / 8) 1
      (fun x => clamp_wave_bounds (x - x ^ 3 / 6))).2.2.2.2.1 (by norm_num),
    by decide!,
    ((brightness_formula (fun y : ℚ => clamp (y - y ^ 3 / 6) (-1) 1) 10 5 ⟨255, 0, 0, 0⟩
      ⟨0, 255, 0, 0⟩ ⟨0, 0, 255, 0⟩ 1 (15 / 8) 1
      (fun x => clamp_wave_bounds (x - x ^ 3 / 6))).2.2.2.2.2
        (by norm_num) (by norm_num) (by norm_num) (by norm_num)).1,
    ((brightness_formula (fun y : ℚ => clamp (y - y ^ 3 / 6) (-1) 1) 10 5 ⟨255, 0, 0, 0⟩
      ⟨0, 255, 0, 0⟩ ⟨0, 0, 255, 0⟩ 1 (15 / 8) 1
      (fun x => clamp_wave_bounds (x - x ^ 3 / 6))).2.2.2.2.2
        (by norm_num) (by norm_num) (by norm_num) (by norm_num)).2.1,
    cubic_sine_accurate,
    (((brightness_formula (fun y : ℚ => clamp (y - y ^ 3 / 6) (-1) 1) 10 5 ⟨255, 0, 0, 0⟩
      ⟨0, 255, 0, 0⟩ ⟨0, 0, 255, 0⟩ 1 (15 / 8) 1
      (fun x => clamp_wave_bounds (x - x ^ 3 / 6))).2.2.2.2.2
        (by norm_num) (by norm_num) (by norm_num) (by norm_num)).2.2 cubic_sine_accurate).2.1⟩

/-- C14 fails as stated.  With `phase = 0`, `wave_speed = 1` and `dt = 1` the
accumulated phase is the `float` nearest to `2π`, which is above
`2.0f * M_PI`; one turn is subtracted and the call stores
`6151831 / 2^45 = 1.7484555e-7`.  The exact value `phase + 2π * 1 * 1` is `2π`,
and the stored phase, lying strictly between `0` and `2π`, differs from it by
no integer multiple of `2π`. -/
theorem phase_update_rule_counterexample :
    updatePhase 2 (clamp 1 (-1) 1) 0 1 = some (6151831 / 2 ^ 45) ∧
    ¬ ∃ m : ℤ, (((6151831 / 2 ^ 45 : ℚ)) : ℝ) - (0 + 2 * Real.pi * 1 * 1) =
      (m : ℝ) * (2 * Real.pi) := by
  refine ⟨by decide!, ?_⟩
  rintro ⟨m, hm⟩
  have hpi := Real.pi_gt_three
  have hq : (((6151831 / 2 ^ 45 : ℚ)) : ℝ) = ((m : ℝ) + 1) * (2 * Real.pi) := by linarith
  have hq0 : (0 : ℝ) < (((6151831 / 2 ^ 45 : ℚ)) : ℝ) := by
    push_cast
    norm_num
  have hq1 : (((6151831 / 2 ^ 45 : ℚ)) : ℝ) < 1 := by
    push_cast
    norm_num
  have hm1 : (0 : ℝ) < (m : ℝ) + 1 := by
    by_contra hcon
    push_neg at hcon
    have : ((m : ℝ) + 1) * (2 * Real.pi) ≤ 0 :=
      mul_nonpos_of_nonpos_of_nonneg hcon (by linarith)
    linarith
  have hm2 : (0 : ℤ) < m + 1 := by exact_mod_cast hm1
  have hm3 : (1 : ℝ) ≤ (m : ℝ) + 1 := by exact_mod_cast hm2
  have : (1 : ℝ) * (2 * Real.pi) ≤ ((m : ℝ) + 1) * (2 * Real.pi) :=
    mul_le_mul_of_nonneg_right hm3 (by linarith)
  linarith

/-- C14, amended.  Write `s` for the clamped wave speed and `T` for the
`double` constant `2.0f * M_PI`.  For `|phase| ≤ 2^(k-1)` and `|dt| ≤ 2^(k-4)`
with `k ≥ 4`, a phase `q` stored by the call differs from `phase + T * s * dt`
by an integer number `n` of turns `T` up to rounding:
`|q - (phase + T * s * dt + n * T)| ≤ (|n| + 2) * 2^(k-23)`. -/
theorem phase_update_rule (k : ℤ) (fuel : Nat) (wave_speed phase dt q : ℚ) (hk : 4 ≤ k)
    (hp : |phase| ≤ (2 : ℚ) ^ (k - 1)) (hdt : |dt| ≤ (2 : ℚ) ^ (k - 4))
    (h : updatePhase fuel (clamp wave_speed (-1) 1) phase dt = some q) :
    ∃ n : ℤ, |q - (phase + TWO_PI * clamp wave_speed (-1) 1 * dt + (n : ℚ) * TWO_PI)| ≤
      (|(n : ℚ)| + 2) * (2 : ℚ) ^ (k - 23) := by
  have hs : -1 ≤ clamp wave_speed (-1) 1 ∧ clamp wave_speed (-1) 1 ≤ 1 := by
    unfold clamp
    split_ifs with a b
    · exact ⟨le_rfl, by norm_num⟩
    · exact ⟨by norm_num, le_rfl⟩
    · exact ⟨not_lt.mp a, not_lt.mp b⟩
  rw [updatePhase_eq_normalise] at h
  cases ha : accumulate (clamp wave_speed (-1) 1) phase dt with
  | none =>
    rw [ha] at h
    exact absurd h (by simp)
  | some a =>
    rw [ha] at h
    simp only at h
    obtain ⟨b1, b2⟩ := accumulate_spec k (by omega) _ phase dt a hs.1 hs.2 hp hdt ha
    obtain ⟨_, _, ⟨n, hn⟩, _⟩ := normalise_spec k (by omega) fuel a q b1 h
    refine ⟨n, ?_⟩
    have e : (2 : ℚ) ^ (k - 22) = 2 * (2 : ℚ) ^ (k - 23) := by
      rw [show k - 22 = (k - 23) + 1 by ring, zpow_add₀ (by norm_num : (2 : ℚ) ≠ 0), zpow_one]
      ring
    rw [e] at b2
    have h6 : q - (phase + TWO_PI * clamp wave_speed (-1) 1 * dt + (n : ℚ) * TWO_PI) =
        (q - (a + (n : ℚ) * TWO_PI)) +
          (a - (phase + TWO_PI * clamp wave_speed (-1) 1 * dt)) := by ring
    rw [h6]
    have h7 := abs_add (q - (a + (n : ℚ) * TWO_PI))
      (a - (phase + TWO_PI * clamp wave_speed (-1) 1 * dt))
    linarith

/-- Witness of C14 (amended): `phase = 0`, `wave_speed = 1`, `dt = 1`, `k = 4`. -/
theorem phase_update_rule_witness :
    (4 : ℤ) ≤ 4 ∧ |(0 : ℚ)| ≤ (2 : ℚ) ^ ((4 : ℤ) - 1) ∧ |(1 : ℚ)| ≤ (2 : ℚ) ^ ((4 : ℤ) - 4) ∧
    updatePhase 2 (clamp 1 (-1) 1) 0 1 = some (6151831 / 2 ^ 45) ∧
    ∃ n : ℤ, |6151831 / 2 ^ 45 - (0 + TWO_PI * clamp 1 (-1) 1 * 1 + (n : ℚ) * TWO_PI)| ≤
      (|(n : ℚ)| + 2) * (2 : ℚ) ^ ((4 : ℤ) - 23) :=
  ⟨le_rfl, by norm_num, by norm_num, by decide!,
    phase_update_rule 4 2 1 0 1 (6151831 / 2 ^ 45) le_rfl (by norm_num) (by norm_num)
      (by decide!)⟩

/-- C15 fails as stated.  For the accumulated phase `x = 10` (a binary32
number) the first loop subtracts one turn and the assignment rounds the
difference to `float`: the result is `15589451 / 2^22 = 3.7168148`.  The
floored modulo `x - 2π * floor(x / 2π)` is `10 - 2π = 3.7168147`, which is
smaller; the modulo by the constant `2.0f * M_PI` differs from the result as
well. -/
theorem normalise_modulo_counterexample :
    rnd32 10 = 10 ∧
    normalise 2 10 = some (15589451 / 2 ^ 22) ∧
    (((15589451 / 2 ^ 22 : ℚ)) : ℝ) ≠
      (((10 : ℚ)) : ℝ) - 2 * Real.pi * (⌊(((10 : ℚ)) : ℝ) / (2 * Real.pi)⌋ : ℝ) ∧
    (15589451 / 2 ^ 22 : ℚ) ≠ phaseModulo 10 := by
  refine ⟨by decide!, by decide!, ?_, by decide!⟩
  have hlo := Real.pi_gt_d20
  have hhi := Real.pi_lt_d20
  have hfl : ⌊(((10 : ℚ)) : ℝ) / (2 * Real.pi)⌋ = 1 := by
    rw [Int.floor_eq_iff]
    constructor
    · rw [le_div_iff₀ (by linarith)]
      push_cast
      norm_num at hhi ⊢
      linarith
    · rw [div_lt_iff₀ (by linarith)]
      push_cast
      norm_num at hlo ⊢
      linarith
  rw [hfl]
  push_cast
  intro hcon
  norm_num at hlo hcon
  linarith

/-- C15, amended.  Write `T` for the `double` constant `2.0f * M_PI`.  For every
accumulated phase `x` with `|x| ≤ 2^k`, `k ≥ 3`: whenever the two loops finish,
the result `q` lies in `[0, (float)T]` (`(float)T = 13176795 / 2^21 =
6.2831855`), it is `x` moved by an integer number `n` of turns up to the
rounding of the loop steps, `|q - (x + n * T)| ≤ |n| * 2^(k-23)`, and for
`0 ≤ x < T` it is `x` itself, which is the floored modulo of `x` by `T`.
For `k ≤ 23` the loops do finish, within `2^k + 1` evaluations of each loop
condition. -/
theorem normalise_near_modulo (k : ℤ) (fuel : Nat) (x : ℚ) (hk : 3 ≤ k)
    (hx : |x| ≤ (2 : ℚ) ^ k) :
    (∀ q : ℚ, normalise fuel x = some q →
      0 ≤ q ∧ q ≤ 13176795 / 2 ^ 21 ∧
      (∃ n : ℤ, |q - (x + (n : ℚ) * TWO_PI)| ≤ |(n : ℚ)| * (2 : ℚ) ^ (k - 23)) ∧
      (0 ≤ x → x < TWO_PI → q = x ∧ q = phaseModulo x)) ∧
    (k ≤ 23 → 2 ^ k.toNat + 1 ≤ fuel → ∃ q : ℚ, normalise fuel x = some q) := by
  refine ⟨?_, fun hk23 hf => normalise_terminates k hk hk23 fuel x hx hf⟩
  intro q h
  obtain ⟨a1, a2, a3, a4⟩ := normalise_spec k hk fuel x q hx h
  refine ⟨a1, a2, a3, ?_⟩
  intro h0 h1
  have hq := a4 h0 h1.le
  refine ⟨hq, ?_⟩
  have hT := TWO_PI_pos
  have hfl : ⌊x / TWO_PI⌋ = 0 := by
    rw [Int.floor_eq_iff]
    constructor
    · simpa using div_nonneg h0 hT.le
    · rw [div_lt_iff₀ hT]
      simpa using h1
  unfold phaseModulo
  rw [hfl, hq]
  simp

/-- Witness of C15 (amended): with `17 = 2^4 + 1` units of fuel the
accumulated phase `10` is brought to `10 - T`, rounded to `float`, by one
subtraction, and `-10` to `-10 + 2T` by two additions; the phase `3` is kept. -/
theorem normalise_near_modulo_witness :
    (3 : ℤ) ≤ 4 ∧ |(10 : ℚ)| ≤ (2 : ℚ) ^ (4 : ℤ) ∧ (4 : ℤ) ≤ 23 ∧
    2 ^ (4 : ℤ).toNat + 1 ≤ 17 ∧
    normalise 17 10 = some (15589451 / 2 ^ 22) ∧
    normalise 17 (-10) = some (5382069 / 2 ^ 21) ∧
    (∃ q : ℚ, normalise 17 10 = some q) ∧
    ((0 : ℚ) ≤ 15589451 / 2 ^ 22 ∧ (15589451 / 2 ^ 22 : ℚ) ≤ 13176795 / 2 ^ 21 ∧
      (∃ n : ℤ, |15589451 / 2 ^ 22 - (10 + (n : ℚ) * TWO_PI)| ≤
        |(n : ℚ)| * (2 : ℚ) ^ ((4 : ℤ) - 23)) ∧
      ((0 : ℚ) ≤ 10 → (10 : ℚ) < TWO_PI →
        (15589451 / 2 ^ 22 : ℚ) = 10 ∧ (15589451 / 2 ^ 22 : ℚ) = phaseModulo 10)) ∧
    normalise 17 3 = some 3 ∧ (0 : ℚ) ≤ 3 ∧ (3 : ℚ) < TWO_PI ∧
    ((3 : ℚ) = 3 ∧ (3 : ℚ) = phaseModulo 3) :=
  ⟨by norm_num, by norm_num, by norm_num, by decide, by decide!, by decide!,
    (normalise_near_modulo 4 17 10 (by norm_num) (by norm_num)).2 (by norm_num) (by decide),
    (normalise_near_modulo 4 17 10 (by norm_num) (by norm_num)).1 _ (by decide!),
    by decide!, by norm_num, by decide!,
    ((normalise_near_modulo 4 17 3 (by norm_num) (by norm_num)).1 3 (by decide!)).2.2.2
      (by norm_num) (by decide!)⟩

/-- C16 fails as stated.  With `wave_speed = 1` the brightness factor
`0.6 + 0.4 * |wave_speed| * sin(...)` is exactly `1` where the sine is `1`, and
the code reaches it: at the binary32 phase `13176795 / 2^23 = 1.5707964` (the
`float` nearest to `π/2`) and pixel position `0`, a sine that returns `1.0f`
there gives `brightness_scale = 255`. -/
theorem brightness_clips_counterexample :
    rnd32 (13176795 / 2 ^ 23) = 13176795 / 2 ^ 23 ∧
    (6 / 10 + 4 / 10 * |(1 : ℚ)| * 1 : ℚ) = 1 ∧
    brightness_scale (fun _ => 1) (clamp 1 (-1) 1) (13176795 / 2 ^ 23) 0 = 255 := by
  refine ⟨by decide!, by norm_num, by decide!⟩

/-- C16, amended.  For every wave speed (after clamping), every phase, every
pixel position and every sine with values in `[-1, 1]`, `brightness_scale` is
never `0`: it is at least `51`.  It does reach `255`: with `|wave_speed| = 1`,
wherever the sine value, as a `float`, is `1`. -/
theorem brightness_never_zero (sin : ℚ → ℚ) (wave_speed phase pos : ℚ)
    (hsin : ∀ x, -1 ≤ sin x ∧ sin x ≤ 1) :
    51 ≤ ((brightness_scale sin (clamp wave_speed (-1) 1) phase pos : Fin 256) : ℕ) ∧
    (wave_value sin phase pos = 1 →
      brightness_scale sin (clamp 1 (-1) 1) phase pos = 255 ∧
      brightness_scale sin (clamp (-1) (-1) 1) phase pos = 255) := by
  obtain ⟨h1, h2⟩ := clamp_wave_bounds wave_speed
  refine ⟨brightness_scale_ge sin _ phase pos h1 h2 hsin, ?_⟩
  intro hw
  have e1 : toU8 (rnd32 (remap 1 (-1) 1 (min_brightness (clamp 1 (-1) 1))
      (max_brightness (clamp 1 (-1) 1)) * 255)) = 255 := by decide!
  have e2 : toU8 (rnd32 (remap 1 (-1) 1 (min_brightness (clamp (-1) (-1) 1))
      (max_brightness (clamp (-1) (-1) 1)) * 255)) = 255 := by decide!
  unfold brightness_scale
  rw [hw]
  exact ⟨e1, e2⟩

/-- Witness of C16 (amended): a sine that is constantly `1`. -/
theorem brightness_never_zero_witness :
    (∀ x : ℚ, -1 ≤ (fun _ : ℚ => (1 : ℚ)) x ∧ (fun _ : ℚ => (1 : ℚ)) x ≤ 1) ∧
    wave_value (fun _ => 1) 0 0 = 1 ∧
    51 ≤ ((brightness_scale (fun _ => 1) (clamp (1 / 2) (-1) 1) 0 0 : Fin 256) : ℕ) ∧
    brightness_scale (fun _ => 1) (clamp 1 (-1) 1) 0 0 = 255 :=
  ⟨fun _ => ⟨by norm_num, le_rfl⟩, by decide!,
    (brightness_never_zero (fun _ => 1) (1 / 2) 0 0 (fun _ => ⟨by norm_num, le_rfl⟩)).1,
    ((brightness_never_zero (fun _ => 1) (1 / 2) 0 0 (fun _ => ⟨by norm_num, le_rfl⟩)).2
      (by decide!)).1⟩

/-- C20 fails as stated.  For `N = 16777220` and the lit index `i = 16777219`
(value `1`) the conversion of `i` to `float` rounds up to `16777220`, the
position is `1.0`, and the value cast to `gradient_pos` is `255`, not below
`255`: the gradient byte is `255`. -/
theorem byte_casts_counterexample :
    ((16777219 : ℕ) : ℤ) < lit_leds (clamp 1 0 1) 16777220 ∧
    position 16777219 16777220 = 1 ∧
    gradient_value (position 16777219 16777220) = 255 ∧
    toU8 (gradient_value (position 16777219 16777220)) = 255 := by
  decide!

/-- C20, amended.  For every `N ≤ 2^24`, every index `i < N` (so `N ≥ 1`), every
wave speed (after clamping), every phase and every sine with values in
`[-1, 1]`: the value cast to `gradient_pos` lies in `[0, 255)` in both halves,
so the gradient byte is at most `254`; the value cast to `brightness_scale`
lies in `[51, 255]`; neither cast is applied to a value outside `0..255`. -/
theorem byte_casts_in_range (sin : ℚ → ℚ) (n i : Nat) (wave_speed phase : ℚ)
    (hn : n ≤ 2 ^ 24) (hi : i < n) (hsin : ∀ x, -1 ≤ sin x ∧ sin x ≤ 1) :
    (0 ≤ gradient_value (position i n) ∧ gradient_value (position i n) < 255) ∧
    ((toU8 (gradient_value (position i n)) : Fin 256) : ℕ) ≤ 254 ∧
    (51 ≤ brightness_value sin (clamp wave_speed (-1) 1) phase (position i n) ∧
      brightness_value sin (clamp wave_speed (-1) 1) phase (position i n) ≤ 255) ∧
    (∀ c1 c2 c3 : Color, lit_color sin c1 c2 c3 (clamp wave_speed (-1) 1) phase (position i n) =
      (if position i n < 1 / 2 then c1.gradient c2 (toU8 (gradient_value (position i n)))
        else c2.gradient c3 (toU8 (gradient_value (position i n)))).scale
        (toU8 (brightness_value sin (clamp wave_speed (-1) 1) phase (position i n)))) := by
  obtain ⟨g0, g1⟩ := gradient_value_bounds i n hi hn
  obtain ⟨h1, h2⟩ := clamp_wave_bounds wave_speed
  refine ⟨⟨g0, g1⟩, ?_, brightness_value_bounds sin _ phase _ h1 h2 hsin, ?_⟩
  · have hc := toU8_cast (gradient_value (position i n)) g0 (by linarith)
    have hf : ⌊gradient_value (position i n)⌋ < 255 := Int.floor_lt.mpr (by exact_mod_cast g1)
    omega
  · intro c1 c2 c3
    unfold lit_color
    rw [base_color_eq, brightness_scale_eq]

/-- Witness of C20 (amended): pixel `7` of `10`, wave speed `1`, a sine that is
constantly `1`. -/
theorem byte_casts_in_range_witness :
    10 ≤ 2 ^ 24 ∧ 7 < 10 ∧
    (∀ x : ℚ, -1 ≤ (fun _ : ℚ => (1 : ℚ)) x ∧ (fun _ : ℚ => (1 : ℚ)) x ≤ 1) ∧
    gradient_value (position 7 10) < 255 ∧
    ((toU8 (gradient_value (position 7 10)) : Fin 256) : ℕ) ≤ 254 ∧
    brightness_value (fun _ => 1) (clamp 1 (-1) 1) 0 (position 7 10) ≤ 255 :=
  ⟨by norm_num, by norm_num, fun _ => ⟨by norm_num, le_rfl⟩,
    (byte_casts_in_range (fun _ => 1) 10 7 1 0 (by norm_num) (by norm_num)
      (fun _ => ⟨by norm_num, le_rfl⟩)).1.2,
    (byte_casts_in_range (fun _ => 1) 10 7 1 0 (by norm_num) (by norm_num)
      (fun _ => ⟨by norm_num, le_rfl⟩)).2.1,
    (byte_casts_in_range (fun _ => 1) 10 7 1 0 (by norm_num) (by norm_num)
      (fun _ => ⟨by norm_num, le_rfl⟩)).2.2.1.2⟩

/-- C17: frozen phase.  With `wave_speed = 0`, for every `dt` and every binary32
starting phase in `[0, 2π)`, the call (given fuel for one test of each loop
condition) returns, the phase stored back is the phase before the call, and
the buffer does not depend on `dt`. -/
theorem frozen_phase (sin : ℚ → ℚ) (fuel : Nat) (it : List Color) (value : ℚ)
    (c1 c2 c3 : Color) (phase dt dt2 : ℚ) (hf : rnd32 phase = phase) (h0 : 0 ≤ phase)
    (h1 : (phase : ℝ) < 2 * Real.pi) :
    (led_gauge sin (fuel + 1) it value c1 c2 c3 0 phase dt).map Prod.snd = some phase ∧
    led_gauge sin (fuel + 1) it value c1 c2 c3 0 phase dt =
      led_gauge sin (fuel + 1) it value c1 c2 c3 0 phase dt2 := by
  have hle := le_TWO_PI_of_lt_two_pi phase hf h1
  rw [led_gauge_eq, led_gauge_eq, clamp_zero_wave, updatePhase_at_rest fuel phase dt hf h0 hle,
    updatePhase_at_rest fuel phase dt2 hf h0 hle]
  exact ⟨rfl, rfl⟩

/-- Witness of C17: phase `3/2`, once with `dt = 1/4` and once with `dt = 1000`. -/
theorem frozen_phase_witness :
    rnd32 (3 / 2) = 3 / 2 ∧ (0 : ℚ) ≤ 3 / 2 ∧ (((3 / 2 : ℚ)) : ℝ) < 2 * Real.pi ∧
    (led_gauge (fun _ => 1) 1 [Color.BLACK, Color.BLACK] 1
      ⟨255, 0, 0, 0⟩ ⟨0, 255, 0, 0⟩ ⟨0, 0, 255, 0⟩ 0 (3 / 2) (1 / 4)).map Prod.snd =
        some (3 / 2) ∧
    led_gauge (fun _ => 1) 1 [Color.BLACK, Color.BLACK] 1
        ⟨255, 0, 0, 0⟩ ⟨0, 255, 0, 0⟩ ⟨0, 0, 255, 0⟩ 0 (3 / 2) (1 / 4) =
      led_gauge (fun _ => 1) 1 [Color.BLACK, Color.BLACK] 1
        ⟨255, 0, 0, 0⟩ ⟨0, 255, 0, 0⟩ ⟨0, 0, 255, 0⟩ 0 (3 / 2) 1000 :=
  have hpi : (((3 / 2 : ℚ)) : ℝ) < 2 * Real.pi := by
    have := Real.pi_gt_three
    push_cast
    linarith
  ⟨by decide!, by norm_num, hpi,
    (frozen_phase (fun _ => 1) 0 [Color.BLACK, Color.BLACK] 1
      ⟨255, 0, 0, 0⟩ ⟨0, 255, 0, 0⟩ ⟨0, 0, 255, 0⟩ (3 / 2) (1 / 4) 1000
      (by decide!) (by norm_num) hpi).1,
    (frozen_phase (fun _ => 1) 0 [Color.BLACK, Color.BLACK] 1
      ⟨255, 0, 0, 0⟩ ⟨0, 255, 0, 0⟩ ⟨0, 0, 255, 0⟩ (3 / 2) (1 / 4) 1000
      (by decide!) (by norm_num) hpi).2⟩

/-- C18: empty buffer.  With `N = 0` the call returns exactly when the phase
update does and the buffer is still empty.  The loop body, the only place
where `i / N` is computed, runs for the indices `loopIndices N 0`: none for
`N = 0`, and in general only indices `i < N`, which needs `N ≥ 1`. -/
theorem empty_buffer (sin : ℚ → ℚ) (fuel : Nat) (value : ℚ) (c1 c2 c3 : Color)
    (wave_speed phase dt : ℚ) :
    led_gauge sin fuel [] value c1 c2 c3 wave_speed phase dt =
      (updatePhase fuel (clamp wave_speed (-1) 1) phase dt).map (fun p => ([], p)) ∧
    loopIndices 0 0 = [] ∧
    (∀ (lit : ℤ) (p : ℚ) (n : Nat) (it : List Color),
      renderLoop sin n lit c1 c2 c3 wave_speed p n 0 it =
        (loopIndices n 0).foldl
          (fun buf j => buf.set j (pixel sin n lit c1 c2 c3 wave_speed p j)) it) ∧
    (∀ n j : Nat, j ∈ loopIndices n 0 → j < n ∧ 1 ≤ n) := by
  refine ⟨?_, rfl, fun lit p n it => renderLoop_eq_foldl _ _ _ _ _ _ _ _ _ _ _, ?_⟩
  · rw [led_gauge_eq]
    rfl
  · intro n j hj
    have := (mem_loopIndices n 0 j).mp hj
    omega

/-- Witness of C18: in a three-pixel loop the body runs at index `2`, and `2 < 3`. -/
theorem empty_buffer_witness :
    2 ∈ loopIndices 3 0 ∧ 2 < 3 ∧ 1 ≤ 3 :=
  ⟨by decide,
    ((empty_buffer (fun _ => 0) 1 1 Color.BLACK Color.BLACK Color.BLACK 0 0 0).2.2.2 3 2
      (by decide)).1,
    ((empty_buffer (fun _ => 0) 1 1 Color.BLACK Color.BLACK Color.BLACK 0 0 0).2.2.2 3 2
      (by decide)).2⟩

end LedGauge
